import Mathlib

/-!
# Verification development for `wmspal` (raster-to-vector pipeline, `src/vectorize.c`)

Shallow embedding of the colour clustering, region tracing, coordinate projection and
GeoJSON writer of `src/vectorize.c`, and of the pixel computation of
`get_feature_info_at_point` (`src/attribution.c`), followed by theorems about them.

Modelling conventions.
* C `int` values are mathematical integers (`Nat` for the image dimensions and loop
  counters, which are never negative in an allocated image; `Int` for the flood-fill
  coordinates, which can leave the image by one). Images are assumed small enough that
  the index arithmetic `(y * width + x) * channels` does not overflow `int`.
* The pixel buffer `unsigned char* data` is the list of its bytes.
* `color_distance` returns `sqrt(dr*dr + dg*dg + db*db)` as a `double`; the code only ever
  compares it with the constants `30.0` and `20.0`. The radicand is an integer below `2^18`,
  the IEEE square root is monotone and exact on perfect squares, so `sqrt(s) < 30.0` holds
  iff `s < 900` and `sqrt(s) > 20.0` iff `s > 400`. The embedding therefore computes the
  squared distance (`color_distance_sq`) and compares it with `900` and `400`.
* `double` coordinates are exact rationals in `pixel_to_geo` and in the writer. The pixel
  computation of `get_feature_info_at_point` truncates a `double` to an `int`, which makes
  its result depend on rounding: there every operation rounds its exact result to binary64
  (`round_double`: IEEE 754 round to nearest, ties to even, one rounding per operation, no
  fused multiply-add and no extended precision, as on x86-64 with SSE2).
* Stateful code is explicit state passing. The recursive flood fill takes a fuel argument
  (the depth of the C call stack it may use) and returns `none` when the fuel runs out.
* `load_png_simple` is the placeholder the source has: it reads nothing from the file and
  returns a fixed pattern of 256 x 256 pixels. The body of `analyze_geological_colors`
  after the image is loaded is the function `analyze_image` of the image, so that it can
  be stated for every image.
-/

namespace Wmspal

/-! ## Data model (`include/wmspal.h`) -/

/-- The struct `color_t`: three 8-bit channels. -/
structure color_t where
  r : Nat
  g : Nat
  b : Nat
deriving DecidableEq, Repr

/-- The struct `image_t`: the byte buffer with its dimensions. -/
structure image_t where
  data : List Nat
  width : Nat
  height : Nat
  channels : Nat
deriving Repr

/-- The struct `coord_t`; the coordinate type is `Int` while a polygon holds pixel
positions (the doubles then hold integers exactly) and `ℚ` once it is projected. -/
structure coord_t (α : Type) where
  x : α
  y : α
deriving DecidableEq, Repr

/-- The struct `polygon_t`; the field `count` is the length of `coords`. -/
structure polygon_t (α : Type) where
  coords : List (coord_t α)
  capacity : Nat
deriving DecidableEq, Repr

/-- The field `count` of a `polygon_t`. -/
def polygon_t.count {α : Type} (p : polygon_t α) : Nat := p.coords.length

/-! ## Colour analysis -/

/-- The radicand of `color_distance`: `dr*dr + dg*dg + db*db` with `dr = a.r - b.r` etc.
computed in `int`. -/
def color_distance_sq (a b : color_t) : Int :=
  let dr : Int := (a.r : Int) - (b.r : Int)
  let dg : Int := (a.g : Int) - (b.g : Int)
  let db : Int := (a.b : Int) - (b.b : Int)
  dr * dr + dg * dg + db * db

/-- The initialiser `{img->data[idx], img->data[idx+1], img->data[idx+2]}`. -/
def pixel_at (img : image_t) (idx : Nat) : color_t :=
  ⟨img.data.getD idx 0, img.data.getD (idx + 1) 0, img.data.getD (idx + 2) 0⟩

/-- The values taken by `i` in `for (i = 0; i < n; i += step)`. -/
def stride_range (n step : Nat) : List Nat :=
  (List.range n).filter (fun i => i % step = 0)

/-- The body of the inner loop of `extract_unique_colors` at the sampled pixel `(x, y)`:
the search loop over `colors[0 .. count-1]` sets `found`, and the pixel is stored at
`colors[count++]` when it was not found and `count < MAX_COLORS`. -/
def extract_step (img : image_t) (y : Nat) (colors : List color_t) (x : Nat) :
    List color_t :=
  let idx := (y * img.width + x) * img.channels
  let pixel := pixel_at img idx
  let found := colors.any fun c => decide (color_distance_sq pixel c < 900)
  if found = false ∧ colors.length < 50 then colors ++ [pixel] else colors

/-- The function `extract_unique_colors`: the array `colors[0 .. count-1]` it returns. -/
def extract_unique_colors (img : image_t) : List color_t :=
  (stride_range img.height 4).foldl
    (fun colors y => (stride_range img.width 4).foldl (extract_step img y) colors) []

/-! ## Region tracing -/

/-- The two objects `flood_fill_region` mutates through its pointer arguments. -/
structure fill_state where
  visited : List Bool
  polygon : polygon_t Int
deriving DecidableEq, Repr

/-- The append at lines 112-119: double the capacity when full, store the point. -/
def polygon_push (p : polygon_t Int) (x y : Int) : polygon_t Int :=
  { coords := p.coords ++ [⟨x, y⟩]
    capacity := if p.count ≥ p.capacity then p.capacity * 2 else p.capacity }

/-- The function `flood_fill_region`. The first argument bounds the depth of the
recursion; `none` means it was too small. -/
def flood_fill_region (img : image_t) (target : color_t) :
    Nat → Int → Int → fill_state → Option fill_state
  | 0, _, _, _ => none
  | fuel + 1, start_x, start_y, st =>
    if start_x < 0 ∨ start_x ≥ img.width ∨ start_y < 0 ∨ start_y ≥ img.height then some st
    else if st.visited.getD (start_y * img.width + start_x).toNat false = true then some st
    else
      let idx := (start_y * img.width + start_x) * img.channels
      let pixel := pixel_at img idx.toNat
      if color_distance_sq pixel target > 400 then some st
      else
        let st1 : fill_state :=
          { visited := st.visited.set (start_y * img.width + start_x).toNat true
            polygon := polygon_push st.polygon start_x start_y }
        if st1.polygon.count < 1000 then
          (flood_fill_region img target fuel (start_x + 1) start_y st1).bind fun s1 =>
          (flood_fill_region img target fuel (start_x - 1) start_y s1).bind fun s2 =>
          (flood_fill_region img target fuel start_x (start_y + 1) s2).bind fun s3 =>
          flood_fill_region img target fuel start_x (start_y - 1) s3
        else some st1

/-- The locals `visited`, `polygons` of `trace_color_regions`; `count` is the length of
`polygons`. -/
structure trace_state where
  visited : List Bool
  polygons : List (polygon_t Int)
deriving DecidableEq, Repr

/-- One iteration of the inner loop of `trace_color_regions` at the seed candidate
`(x, y)`, the loop condition `count < 10` included. -/
def trace_seed (img : image_t) (target_color : color_t) (y : Nat) (st : trace_state)
    (x : Nat) : Option trace_state :=
  if st.polygons.length < 10 then
    if st.visited.getD (y * img.width + x) false = true then some st
    else
      let idx := (y * img.width + x) * img.channels
      let pixel := pixel_at img idx
      if color_distance_sq pixel target_color < 400 then
        (flood_fill_region img target_color 1000 x y
            { visited := st.visited, polygon := { coords := [], capacity := 100 } }).map
          fun r =>
            if r.polygon.count > 10 then
              { visited := r.visited, polygons := st.polygons ++ [r.polygon] }
            else { visited := r.visited, polygons := st.polygons }
      else some st
  else some st

/-- One iteration of the outer loop of `trace_color_regions`: the row of seed candidates
at height `y`. -/
def trace_row (img : image_t) (target_color : color_t) (st : trace_state) (y : Nat) :
    Option trace_state :=
  (stride_range img.width 8).foldlM (trace_seed img target_color y) st

/-- The function `trace_color_regions`: the polygons kept, in the order they were stored. -/
def trace_color_regions (img : image_t) (target_color : color_t) :
    Option (List (polygon_t Int)) :=
  ((stride_range img.height 8).foldlM (trace_row img target_color)
      { visited := List.replicate (img.width * img.height) false, polygons := [] }).map
    fun st => st.polygons

/-! ## Coordinate projection -/

/-- The function `pixel_to_geo`, with `double` as exact rationals. -/
def pixel_to_geo (px py width height : Int) (minx miny maxx maxy : ℚ) : coord_t ℚ :=
  { x := minx + ((px : ℚ) / (width : ℚ)) * (maxx - minx)
    y := maxy - ((py : ℚ) / (height : ℚ)) * (maxy - miny) }

/-! ## Binary64 arithmetic and the pixel of a point

`get_feature_info_at_point` casts a `double` to `int`, so its result depends on the
rounding of each operation. A finite `double` is the rational it stands for; an operation
returns the rounding of its exact result, and `none` when an operand or the result is not
finite (the model does not follow the code past that point). -/

/-- The test `strstr(haystack, needle) != NULL` of the C library on strings given as the
lists of their characters: `needle` occurs in `haystack` as a block of consecutive
characters. -/
def strstr : List Char → List Char → Bool
  | [], needle => needle.isEmpty
  | c :: cs, needle => needle.isPrefixOf (c :: cs) || strstr cs needle

/-- The chain of tests of lines 298-312 of `vectorize_geological_map`: the value given to
`feature->lithology` for the lookup text `feature_info`, `none` when it stays `NULL`. -/
def lithology_of_info (feature_info : List Char) : Option String :=
  if strstr feature_info "sandstone".toList || strstr feature_info "Sandstone".toList then
    some "Sandstone"
  else if strstr feature_info "limestone".toList || strstr feature_info "Limestone".toList then
    some "Limestone"
  else if strstr feature_info "shale".toList || strstr feature_info "Shale".toList then
    some "Shale"
  else if strstr feature_info "water".toList || strstr feature_info "Water".toList then
    some "Water"
  else if strstr feature_info "forest".toList || strstr feature_info "Forest".toList then
    some "Forest"
  else if strstr feature_info "urban".toList || strstr feature_info "Urban".toList then
    some "Urban"
  else if strstr feature_info "agricultural".toList ||
      strstr feature_info "Agricultural".toList then
    some "Agricultural"
  else none

/-! ## The GeoJSON writer

The file written by `write_geojson` is the list of the pieces its `fprintf` calls produce,
in order: the literal text of each format string, cut at the conversions, and one piece for
each converted argument. The decimal rendering of numbers is left to the pieces `int` and
`fixed`. The array loops `for (k = 0; k < count; k++)` walk the list with the index `k`. -/

/-- One piece of output: literal text, `%d`, `%.Nf`, `%s` or `%c` with its argument. -/
inductive piece where
  | text (s : String)
  | int (n : Int)
  | fixed (digits : Nat) (q : ℚ)
  | str (s : String)
  | chr (c : Char)
deriving DecidableEq

/-- The struct `geological_feature_t`; `polygon_count` is the length of `polygons`, and a
`NULL` string is `none`. -/
structure geological_feature_t where
  dominant_color : color_t
  polygons : List (polygon_t ℚ)
  feature_info : Option (List Char)
  geological_unit : Option String
  age : Option String
  lithology : Option String

/-- The field `polygon_count` of a `geological_feature_t`. -/
def geological_feature_t.polygon_count (f : geological_feature_t) : Nat := f.polygons.length

/-- The struct `vectorization_result_t`; `feature_count` is the length of `features`. -/
structure vectorization_result_t where
  features : List geological_feature_t
  minx : ℚ
  miny : ℚ
  maxx : ℚ
  maxy : ℚ
  crs : String

/-- The output of `fprintf(file, "<lead>[%.8f, %.8f]", c.x, c.y)`. -/
def write_coord (lead : String) (c : coord_t ℚ) : List piece :=
  [piece.text (lead ++ "["), piece.fixed 8 c.x, piece.text ", ", piece.fixed 8 c.y,
    piece.text "]"]

/-- The loop `for (k = 0; k < poly->count; k++)` of lines 471-474 and 490-493, from index
`k` on: a separator before every point but the first, then the point. -/
def write_points (indent : String) : Nat → List (coord_t ℚ) → List piece
  | _, [] => []
  | k, c :: cs =>
    (if k > 0 then [piece.text ",\n"] else []) ++ write_coord indent c ++
      write_points indent (k + 1) cs

/-- Lines 470-478 and 489-497 (they differ in the indentation only): the points of the
polygon and then, if it has a point, `coords[0]` once more. -/
def write_ring (indent : String) (poly : polygon_t ℚ) : List piece :=
  write_points indent 0 poly.coords ++
    (match poly.coords with
      | c0 :: _ => write_coord (",\n" ++ indent) c0
      | [] => [])

/-- The loop `for (j = 0; j < feature->polygon_count; j++)` of lines 485-500, from index
`j` on. -/
def write_polygons : Nat → List (polygon_t ℚ) → List piece
  | _, [] => []
  | j, poly :: polys =>
    (if j > 0 then [piece.text ",\n"] else []) ++ [piece.text "          [[\n"] ++
      write_ring "            " poly ++ [piece.text "\n          ]]"] ++
      write_polygons (j + 1) polys

/-- Lines 465-505: the geometry of a feature. -/
def write_geometry (feature : geological_feature_t) : List piece :=
  [piece.text "      \"geometry\": \x7b\n"] ++
    (if feature.polygon_count = 1 then
      [piece.text "        \"type\": \"Polygon\",\n",
        piece.text "        \"coordinates\": [[\n"] ++
        write_ring "          " (feature.polygons.getD 0 ⟨[], 0⟩) ++
        [piece.text "\n        ]]\n"]
    else
      [piece.text "        \"type\": \"MultiPolygon\",\n",
        piece.text "        \"coordinates\": [\n"] ++
        write_polygons 0 feature.polygons ++ [piece.text "\n        ]\n"]) ++
    [piece.text "      \x7d\n"]

/-- The loop of lines 452-457: the escaped characters of `feature_info`. -/
def write_escaped (feature_info : List Char) : List piece :=
  feature_info.flatMap fun c =>
    if c = '"' then [piece.text "\\\""]
    else if c = '\n' then [piece.text "\\n"]
    else if c = '\r' then [piece.text "\\r"]
    else [piece.chr c]

/-- Lines 433-462: the properties of the feature with index `i`. -/
def write_properties (i : Nat) (feature : geological_feature_t) : List piece :=
  [piece.text "    \x7b\n", piece.text "      \"type\": \"Feature\",\n",
    piece.text "      \"properties\": \x7b\n",
    piece.text "        \"feature_id\": ", piece.int i, piece.text ",\n",
    piece.text "        \"dominant_color\": \"rgb(", piece.int feature.dominant_color.r,
    piece.text ",", piece.int feature.dominant_color.g, piece.text ",",
    piece.int feature.dominant_color.b, piece.text ")\",\n"] ++
    (match feature.lithology with
      | some s => [piece.text "        \"classification\": \"", piece.str s, piece.text "\",\n"]
      | none => []) ++
    (match feature.age with
      | some s => [piece.text "        \"temporal_info\": \"", piece.str s, piece.text "\",\n"]
      | none => []) ++
    (match feature.geological_unit with
      | some s => [piece.text "        \"unit_name\": \"", piece.str s, piece.text "\",\n"]
      | none => []) ++
    (match feature.feature_info with
      | some info =>
        [piece.text "        \"wms_info\": \""] ++ write_escaped info ++ [piece.text "\",\n"]
      | none => []) ++
    [piece.text "        \"polygon_count\": ", piece.int feature.polygon_count,
      piece.text "\n", piece.text "      \x7d,\n"]

/-- The loop `for (i = 0; i < result->feature_count; i++)` of lines 428-507, from index `i`
on. -/
def write_features : Nat → List geological_feature_t → List piece
  | _, [] => []
  | i, feature :: features =>
    (if i > 0 then [piece.text ",\n"] else []) ++ write_properties i feature ++
      write_geometry feature ++ [piece.text "    \x7d"] ++ write_features (i + 1) features

/-- The function `write_geojson`: what it writes to the file it has opened. -/
def write_geojson (result : vectorization_result_t) : List piece :=
  [piece.text "\x7b\n", piece.text "  \"type\": \"FeatureCollection\",\n",
    piece.text "  \"crs\": \x7b\n", piece.text "    \"type\": \"name\",\n",
    piece.text "    \"properties\": \x7b\n",
    piece.text "      \"name\": \"", piece.str result.crs, piece.text "\"\n",
    piece.text "    \x7d\n", piece.text "  \x7d,\n",
    piece.text "  \"bbox\": [", piece.fixed 6 result.minx, piece.text ", ",
    piece.fixed 6 result.miny, piece.text ", ", piece.fixed 6 result.maxx, piece.text ", ",
    piece.fixed 6 result.maxy, piece.text "],\n", piece.text "  \"features\": [\n"] ++
    write_features 0 result.features ++ [piece.text "\n  ]\n", piece.text "\x7d\n"]

/-! ## Assembly and orchestration

`analyze_geological_colors` and `vectorize_geological_map`. What the code does outside the
program (reading the image file, the point query, writing the output file) is recorded as a
list of actions; what the C library and the network return is a parameter: the values
`sscanf` has read from the bounding box string, whether a file can be opened or created,
and the answer of the point query for a feature. -/

/-- The observable actions of the pipeline, in the order they happen: `load_png_simple`
is called, `get_feature_info_at_point` is called for the feature with index `i` at the
point `(x, y)`, `write_geojson` writes a document. -/
inductive io_event where
  | load_image
  | feature_info_query (i : Nat) (x y : ℚ)
  | write_document (doc : List piece)

/-- The image `load_png_simple` builds, whatever the file holds: 256 x 256 pixels, three
channels, (180,120,80) for `x < 128, y < 128`, (100,150,200) for `x ≥ 128, y < 128`,
(120,180,100) below. -/
def test_pattern : image_t :=
  { data := (List.range 256).flatMap fun y => (List.range 256).flatMap fun x =>
      if x < 128 ∧ y < 128 then [180, 120, 80]
      else if x ≥ 128 ∧ y < 128 then [100, 150, 200]
      else [120, 180, 100]
    width := 256
    height := 256
    channels := 3 }

/-- The function `load_png_simple`: `NULL` when the file cannot be opened, the test
pattern otherwise. -/
def load_png_simple (file_opens : Bool) : Option image_t :=
  if file_opens then some test_pattern else none

/-- Lines 222-230: the polygon with every point replaced by its projection. -/
def project_polygon (img : image_t) (minx miny maxx maxy : ℚ) (poly : polygon_t Int) :
    polygon_t ℚ :=
  { coords := poly.coords.map fun c =>
      pixel_to_geo c.x c.y img.width img.height minx miny maxx maxy
    capacity := poly.capacity }

/-- The body of the loop of lines 205-236 for the colour `c`: the features so far, with one
more feature when `trace_color_regions` has returned at least one polygon. -/
def analyze_color (img : image_t) (minx miny maxx maxy : ℚ)
    (features : List geological_feature_t) (c : color_t) :
    Option (List geological_feature_t) :=
  (trace_color_regions img c).map fun polygons =>
    if polygons.length > 0 then
      features ++ [{ dominant_color := c
                     polygons := polygons.map (project_polygon img minx miny maxx maxy)
                     feature_info := none
                     geological_unit := none
                     age := none
                     lithology := none }]
    else features

/-- Lines 191-243 of `analyze_geological_colors`: the result built from the loaded image
and the parsed bounding box. -/
def analyze_image (img : image_t) (minx miny maxx maxy : ℚ) (srs : String) :
    Option vectorization_result_t :=
  let colors := extract_unique_colors img
  (if colors.length > 0 then colors.foldlM (analyze_color img minx miny maxx maxy) []
    else some []).map fun features =>
    { features := features, minx := minx, miny := miny, maxx := maxx, maxy := maxy, crs := srs }

/-- The function `analyze_geological_colors`. `bbox` is what `sscanf` has read from the
bounding box string, `none` when it has not returned 4. The result is the actions made
and the value returned, `none` for `NULL`. -/
def analyze_geological_colors (bbox : Option (ℚ × ℚ × ℚ × ℚ)) (file_opens : Bool)
    (srs : String) : Option (List io_event × Option vectorization_result_t) :=
  match bbox with
  | none => some ([], none)
  | some (minx, miny, maxx, maxy) =>
    match load_png_simple file_opens with
    | none => some ([io_event.load_image], none)
    | some img =>
      (analyze_image img minx miny maxx maxy srs).map fun r => ([io_event.load_image], some r)

/-- Lines 284-290: the mean of the points of a polygon. -/
def centroid (poly : polygon_t ℚ) : ℚ × ℚ :=
  (poly.coords.foldl (fun cx c => cx + c.x) 0 / poly.count,
    poly.coords.foldl (fun cy c => cy + c.y) 0 / poly.count)

/-- Lines 280-318: the enrichment of the feature with index `i`. `lookup i x y` is the
value `get_feature_info_at_point` returns and the text it stores, `none` when it leaves
`feature_info` at `NULL`. -/
def enrich_feature (lookup : Nat → ℚ → ℚ → Int × Option (List Char)) (i : Nat)
    (feature : geological_feature_t) : geological_feature_t × List io_event :=
  if feature.polygon_count > 0 ∧ (feature.polygons.getD 0 ⟨[], 0⟩).count > 0 then
    let c := centroid (feature.polygons.getD 0 ⟨[], 0⟩)
    let r := lookup i c.1 c.2
    (match r.2 with
      | some info =>
        if r.1 = 0 then
          { feature with
            feature_info := some info
            lithology := match lithology_of_info info with
              | some l => some l
              | none => feature.lithology }
        else feature
      | none => feature,
      [io_event.feature_info_query i c.1 c.2])
  else (feature, [])

/-- The loop `for (i = 0; i < result->feature_count; i++)` of lines 279-319, from index `i`
on. -/
def enrich_features (lookup : Nat → ℚ → ℚ → Int × Option (List Char)) :
    Nat → List geological_feature_t → List geological_feature_t × List io_event
  | _, [] => ([], [])
  | i, feature :: features =>
    ((enrich_feature lookup i feature).1 :: (enrich_features lookup (i + 1) features).1,
      (enrich_feature lookup i feature).2 ++ (enrich_features lookup (i + 1) features).2)

/-- The value `write_geojson` returns and what it does: 1 and nothing when the file cannot
be created, 0 and the document otherwise. -/
def write_geojson_file (file_creates : Bool) (result : vectorization_result_t) :
    Int × List io_event :=
  if file_creates then (0, [io_event.write_document (write_geojson result)]) else (1, [])

/-- Lines 278-333 of `vectorize_geological_map`: enrichment and output of a result. -/
def vectorize_result (lookup : Nat → ℚ → ℚ → Int × Option (List Char)) (file_creates : Bool)
    (result : vectorization_result_t) : Int × List io_event :=
  let e := enrich_features lookup 0 result.features
  let w := write_geojson_file file_creates { result with features := e.1 }
  (if w.1 ≠ 0 then 1 else 0, e.2 ++ w.2)

/-- The function `vectorize_geological_map`: the value it returns and the actions made. -/
def vectorize_geological_map (bbox : Option (ℚ × ℚ × ℚ × ℚ)) (file_opens : Bool)
    (srs : String) (lookup : Nat → ℚ → ℚ → Int × Option (List Char)) (file_creates : Bool) :
    Option (Int × List io_event) :=
  (analyze_geological_colors bbox file_opens srs).map fun a =>
    match a.2 with
    | none => (1, a.1)
    | some result =>
      ((vectorize_result lookup file_creates result).1,
        a.1 ++ (vectorize_result lookup file_creates result).2)

/-! ## Vocabulary of the statements -/

/-- The state after the pixel `(x, y)` has been absorbed (lines 109-119). -/
def absorb (img : image_t) (x y : Int) (st : fill_state) : fill_state :=
  { visited := st.visited.set (y * img.width + x).toNat true
    polygon := polygon_push st.polygon x y }

/-- The test of line 101, negated: `(x, y)` is a pixel of the image. -/
def in_image (img : image_t) (x y : Int) : Prop :=
  0 ≤ x ∧ x < img.width ∧ 0 ≤ y ∧ y < img.height

/-- The test of line 102: the bitmap `v` has the entry of `(x, y)` set. -/
def is_visited (img : image_t) (v : List Bool) (x y : Int) : Prop :=
  v.getD (y * img.width + x).toNat false = true

/-- The test of line 107, negated: the pixel at `(x, y)` is at distance at most 20 from
`target`. -/
def within_tolerance (img : image_t) (target : color_t) (x y : Int) : Prop :=
  ¬ color_distance_sq (pixel_at img ((y * img.width + x) * img.channels).toNat) target > 400

/-- The four neighbours `(x+1, y)`, `(x-1, y)`, `(x, y+1)`, `(x, y-1)` of `(x, y)`. -/
def adjacent4 (x y x' y' : Int) : Prop :=
  (x' = x + 1 ∧ y' = y) ∨ (x' = x - 1 ∧ y' = y) ∨ (x' = x ∧ y' = y + 1) ∨
    (x' = x ∧ y' = y - 1)

/-- Every pixel of the image has the colour `c`. -/
def single_colour (img : image_t) (c : color_t) : Prop :=
  ∀ x y : Nat, x < img.width → y < img.height →
    pixel_at img ((y * img.width + x) * img.channels) = c

/-- The bitmap `calloc(img->width * img->height, sizeof(bool))` and the polygon
`{0}` with `capacity = 100` that `trace_color_regions` hands to a fill. -/
def fresh_fill_state (img : image_t) : fill_state :=
  { visited := List.replicate (img.width * img.height) false
    polygon := { coords := [], capacity := 100 } }

/-- The pixels `extract_unique_colors` samples: every 4th column of every 4th row, in
row-major order. -/
def sampled_pixels (img : image_t) : List color_t :=
  (stride_range img.height 4).flatMap fun y =>
    (stride_range img.width 4).map fun x => pixel_at img ((y * img.width + x) * img.channels)

/-- The selection rule in the words of the specification: going through the pixels in
order, a pixel is accepted iff fewer than 50 colours are accepted so far and its distance to
every colour accepted so far is at least 30. -/
def greedy_select : List color_t → List color_t → List color_t
  | accepted, [] => accepted
  | accepted, p :: ps =>
    if accepted.length < 50 ∧ ∀ c ∈ accepted, 900 ≤ color_distance_sq p c then
      greedy_select (accepted ++ [p]) ps
    else greedy_select accepted ps

/-- The arguments of the conversions `%.8f` among the pieces, in order. -/
def fixed8_values (ps : List piece) : List ℚ :=
  ps.filterMap fun p =>
    match p with
    | piece.fixed d q => if d = 8 then some q else none
    | _ => none

/-- Consecutive numbers taken two by two as `x` and `y`. -/
def pair_up : List ℚ → List (coord_t ℚ)
  | x :: y :: rest => ⟨x, y⟩ :: pair_up rest
  | _ => []

/-- The coordinates `[%.8f, %.8f]` among the pieces, in order. -/
def emitted_coords (ps : List piece) : List (coord_t ℚ) := pair_up (fixed8_values ps)

/-- The text that opens a ring: `[[` in the Polygon branch and in the MultiPolygon
branch. -/
def is_ring_open (p : piece) : Bool :=
  decide (p = piece.text "        \"coordinates\": [[\n") ||
    decide (p = piece.text "          [[\n")

/-- The text that closes a ring: `]]` in the Polygon branch and in the MultiPolygon
branch. -/
def is_ring_close (p : piece) : Bool :=
  decide (p = piece.text "\n        ]]\n") || decide (p = piece.text "\n          ]]")

/-- The rings among the pieces: for each opening `[[`, the coordinates up to the next
closing `]]`. -/
def emitted_rings : List piece → List (List (coord_t ℚ))
  | [] => []
  | p :: rest =>
    if is_ring_open p then
      emitted_coords (rest.takeWhile fun q => !is_ring_close q) :: emitted_rings rest
    else emitted_rings rest

/-- The line that gives a geometry the type "Polygon". -/
def polygon_type_line : piece := piece.text "        \"type\": \"Polygon\",\n"

/-- The line that gives a geometry the type "MultiPolygon". -/
def multipolygon_type_line : piece := piece.text "        \"type\": \"MultiPolygon\",\n"

/-- A piece that neither opens nor closes a ring and is not a type line. -/
def is_plain (q : piece) : Bool :=
  !is_ring_open q && !is_ring_close q && !decide (q = polygon_type_line) &&
    !decide (q = multipolygon_type_line)

/-- The ring expected for a polygon: its points in order, then a copy of the first. -/
def closed_ring (poly : polygon_t ℚ) : List (coord_t ℚ) := poly.coords ++ poly.coords.take 1

/-- The characters that stand for one character of the text in the escaped value, in the
words of the specification. -/
def escape_char (c : Char) : List Char :=
  if c = '"' then ['\\', '"']
  else if c = '\n' then ['\\', 'n']
  else if c = '\r' then ['\\', 'r']
  else [c]

/-- The characters of the pieces `text`, `str` and `chr`; numbers are rendered by the
given functions. -/
def render (fmt_int : Int → String) (fmt_fixed : Nat → ℚ → String) (ps : List piece) :
    List Char :=
  ps.flatMap fun p =>
    match p with
    | piece.text s => s.toList
    | piece.int n => (fmt_int n).toList
    | piece.fixed d q => (fmt_fixed d q).toList
    | piece.str s => s.toList
    | piece.chr c => [c]

/-- The seed candidates of `trace_color_regions` in the order the loops visit them: every
8th column of every 8th row, row by row. -/
def seed_candidates (img : image_t) : List (coord_t Int) :=
  (stride_range img.height 8).flatMap fun (y : Nat) =>
    (stride_range img.width 8).map fun (x : Nat) => (⟨(x : Int), (y : Int)⟩ : coord_t Int)

/-- The colour of the pixel at the point `c`, read as `flood_fill_region` reads it. -/
def pixel_of (img : image_t) (c : coord_t Int) : color_t :=
  pixel_at img ((c.y * img.width + c.x) * img.channels).toNat

/-- The three tests of lines 101, 102 and 107 passed: `(x, y)` is a pixel of the image,
unvisited in `v`, at distance at most 20 from `target`. -/
def absorbable (img : image_t) (target : color_t) (v : List Bool) (x y : Int) : Bool :=
  decide (0 ≤ x ∧ x < img.width ∧ 0 ≤ y ∧ y < img.height) &&
    !(v.getD (y * img.width + x).toNat false) &&
    decide (color_distance_sq (pixel_at img ((y * img.width + x) * img.channels).toNat)
      target ≤ 400)

/-- The first of `(x+1, y)`, `(x-1, y)`, `(x, y+1)`, `(x, y-1)` that is absorbable. -/
def first_absorbable (img : image_t) (target : color_t) (v : List Bool) (x y : Int) :
    Option (coord_t Int) :=
  ([⟨x + 1, y⟩, ⟨x - 1, y⟩, ⟨x, y + 1⟩, ⟨x, y - 1⟩] : List (coord_t Int)).find? fun c =>
    absorbable img target v c.x c.y

/-- The points `(x, y) :: path` follow the depth-first order from the state `st`: `(x, y)`
is absorbable, and each further point is the first absorbable neighbour of the point
before it, in the bitmap in which all points before are marked, below the cap. -/
def follows_order (img : image_t) (target : color_t) :
    fill_state → Int → Int → List (coord_t Int) → Bool
  | st, x, y, [] => absorbable img target st.visited x y
  | st, x, y, n :: rest =>
    absorbable img target st.visited x y &&
      decide ((absorb img x y st).polygon.count < 1000) &&
      decide (first_absorbable img target (absorb img x y st).visited x y = some n) &&
      follows_order img target (absorb img x y st) n.x n.y rest

/-- The piece that opens the "classification" entry of a feature. -/
def classification_key : piece := piece.text "        \"classification\": \""

/-- The feature expected for an extracted colour, in the words of the specification: one
feature with the projected polygons when `trace_color_regions` keeps at least one region
for the colour, none otherwise. -/
def kept_feature (img : image_t) (minx miny maxx maxy : ℚ) (c : color_t) :
    Option geological_feature_t :=
  match trace_color_regions img c with
  | some (p :: ps) =>
    some { dominant_color := c
           polygons := (p :: ps).map (project_polygon img minx miny maxx maxy)
           feature_info := none
           geological_unit := none
           age := none
           lithology := none }
  | _ => none

/-- The colour has at least one kept region. -/
def has_kept_region (img : image_t) (c : color_t) : Bool :=
  match trace_color_regions img c with
  | some (_ :: _) => true
  | _ => false

/-- The pieces `write_geojson` writes for the bounding box of a result. -/
def bbox_pieces (minx miny maxx maxy : ℚ) : List piece :=
  [piece.text "  \"bbox\": [", piece.fixed 6 minx, piece.text ", ", piece.fixed 6 miny,
    piece.text ", ", piece.fixed 6 maxx, piece.text ", ", piece.fixed 6 maxy,
    piece.text "],\n"]

/-- Every point of the list that has points before it is 4-adjacent to one of them. -/
def linked (l : List (coord_t Int)) : Prop :=
  ∀ (pre : List (coord_t Int)) (c : coord_t Int) (post : List (coord_t Int)),
    l = pre ++ c :: post → pre ≠ [] → ∃ d ∈ pre, adjacent4 d.x d.y c.x c.y

/-- The loops of `trace_color_regions` reach the seed candidate `(x, y)` in the state `st`:
`y` is a row of the outer loop and `x` a column of the inner loop, and `st` is the state
after the rows before `y` and, in the row `y`, the columns before `x`. -/
def reaches_seed (img : image_t) (target : color_t) (y x : Nat) (st : trace_state) : Prop :=
  ∃ (ys1 ys2 xs1 xs2 : List Nat) (s0 : trace_state),
    stride_range img.height 8 = ys1 ++ y :: ys2 ∧
    stride_range img.width 8 = xs1 ++ x :: xs2 ∧
    ys1.foldlM (trace_row img target)
      { visited := List.replicate (img.width * img.height) false, polygons := [] } = some s0 ∧
    xs1.foldlM (trace_seed img target y) s0 = some st

/-- The region filled at the seed candidate `(x, y)` reached in the state `st` is `r`: the
three tests of the loop body pass and the fill returns `r`. -/
def fills_region (img : image_t) (target : color_t) (y x : Nat) (st : trace_state)
    (r : fill_state) : Prop :=
  reaches_seed img target y x st ∧ st.polygons.length < 10 ∧
    ¬ st.visited.getD (y * img.width + x) false = true ∧
    color_distance_sq (pixel_at img ((y * img.width + x) * img.channels)) target < 400 ∧
    flood_fill_region img target 1000 x y
      { visited := st.visited, polygon := { coords := [], capacity := 100 } } = some r

/-! ## Test inputs -/

/-- All 1000 x 2 pixels have the colour (180, 180, 180). -/
def wide_image : image_t :=
  { data := List.replicate 6000 180, width := 1000, height := 2, channels := 3 }

/-- The colour of every pixel of `wide_image`. -/
def grey : color_t := ⟨180, 180, 180⟩

/-- An image of 8 x 1 pixels: four black pixels, then four white ones. -/
def two_tone_image : image_t :=
  { data := List.replicate 12 0 ++ List.replicate 12 255, width := 8, height := 1,
    channels := 3 }

/-- An image without pixels. -/
def empty_image : image_t := { data := [], width := 0, height := 0, channels := 3 }

/-- The 16 x 16 image whose pixels all have the colour (180, 120, 80), three channels. -/
def sample_image : image_t :=
  { data := (List.replicate 256 [180, 120, 80]).flatten, width := 16, height := 16,
    channels := 3 }

/-- The colour of every pixel of `sample_image`. -/
def sandstone : color_t := ⟨180, 120, 80⟩

/-- An image of 2 x 1 pixels: a black pixel, then one at distance exactly 20 from black. -/
def edge_image : image_t := { data := [0, 0, 0, 20, 0, 0], width := 2, height := 1, channels := 3 }

/-- The colour (0, 0, 0). -/
def black : color_t := ⟨0, 0, 0⟩

/-- The first 18 points of the fill of the 16 x 16 image from `(0, 0)`, the seed left
out: along row 0 to `(15, 0)`, then `(15, 1)`, `(14, 1)`. -/
def sample_path : List (coord_t Int) :=
  [⟨1, 0⟩, ⟨2, 0⟩, ⟨3, 0⟩, ⟨4, 0⟩, ⟨5, 0⟩, ⟨6, 0⟩, ⟨7, 0⟩, ⟨8, 0⟩, ⟨9, 0⟩, ⟨10, 0⟩,
    ⟨11, 0⟩, ⟨12, 0⟩, ⟨13, 0⟩, ⟨14, 0⟩, ⟨15, 0⟩, ⟨15, 1⟩, ⟨14, 1⟩]

/-- A lookup that fails for every feature. -/
def failing_lookup : Nat → ℚ → ℚ → Int × Option (List Char) := fun _ _ _ => (1, none)

/-- A feature with one polygon of one point and nothing else set. -/
def point_feature : geological_feature_t :=
  { dominant_color := sandstone, polygons := [⟨[⟨1, 2⟩], 100⟩], feature_info := none,
    geological_unit := none, age := none, lithology := none }

/-- An image of 3 x 3 pixels: the centre and its four neighbours are black, the corners
are white. -/
def plus_image : image_t :=
  { data := [255, 255, 255, 0, 0, 0, 255, 255, 255,
             0, 0, 0, 0, 0, 0, 0, 0, 0,
             255, 255, 255, 0, 0, 0, 255, 255, 255]
    width := 3, height := 3, channels := 3 }

/-! ## Flood fill: elementary facts -/

theorem polygon_push_count (p : polygon_t Int) (x y : Int) :
    (polygon_push p x y).count = p.count + 1 := by
  simp [polygon_push, polygon_t.count]

/-- How the point count changes over one call of `flood_fill_region`: it never decreases,
a call entered at or above the cap appends at most one point, and a call entered below
the cap with `c` points ends with at most `1000 + 3 * (999 - c)` points. -/
theorem flood_fill_region_count (img : image_t) (target : color_t) :
    ∀ (fuel : Nat) (x y : Int) (st st' : fill_state),
      flood_fill_region img target fuel x y st = some st' →
      st.polygon.count ≤ st'.polygon.count ∧
      (1000 ≤ st.polygon.count → st'.polygon.count ≤ st.polygon.count + 1) ∧
      (st.polygon.count < 1000 → st'.polygon.count + 3 * st.polygon.count ≤ 3997) := by
  intro fuel
  induction fuel with
  | zero => intro x y st st' h; simp [flood_fill_region] at h
  | succ fuel ih =>
    intro x y st st' h
    simp only [flood_fill_region] at h
    split_ifs at h with h1 h2 h3 h4
    · cases h; omega
    · cases h; omega
    · cases h; omega
    · rw [polygon_push_count] at h4
      obtain ⟨s1, hs1, h⟩ := Option.bind_eq_some.mp h
      obtain ⟨s2, hs2, h⟩ := Option.bind_eq_some.mp h
      obtain ⟨s3, hs3, h⟩ := Option.bind_eq_some.mp h
      have e1 := ih _ _ _ _ hs1
      have e2 := ih _ _ _ _ hs2
      have e3 := ih _ _ _ _ hs3
      have e4 := ih _ _ _ _ h
      simp only [polygon_push_count] at e1
      omega
    · cases h
      simp only [polygon_push_count] at h4 ⊢
      omega

/-- Fuel `1000 - count` (and at least one unit) is enough for `flood_fill_region` to
return. -/
theorem flood_fill_region_total (img : image_t) (target : color_t) :
    ∀ (fuel : Nat) (x y : Int) (st : fill_state),
      1 ≤ fuel → 1000 ≤ fuel + st.polygon.count →
      ∃ st', flood_fill_region img target fuel x y st = some st' := by
  intro fuel
  induction fuel with
  | zero => intro x y st h; omega
  | succ fuel ih =>
    intro x y st _ hf
    simp only [flood_fill_region]
    split_ifs with h1 h2 h3 h4
    · exact ⟨_, rfl⟩
    · exact ⟨_, rfl⟩
    · exact ⟨_, rfl⟩
    · have h4' := h4
      rw [polygon_push_count] at h4'
      obtain ⟨s1, hs1⟩ := ih (x + 1) y
        { visited := st.visited.set (y * img.width + x).toNat true
          polygon := polygon_push st.polygon x y } (by omega)
        (by simp only [polygon_push_count]; omega)
      have e1 := (flood_fill_region_count img target _ _ _ _ _ hs1).1
      simp only [polygon_push_count] at e1
      obtain ⟨s2, hs2⟩ := ih (x - 1) y s1 (by omega) (by omega)
      have e2 := (flood_fill_region_count img target _ _ _ _ _ hs2).1
      obtain ⟨s3, hs3⟩ := ih x (y + 1) s2 (by omega) (by omega)
      have e3 := (flood_fill_region_count img target _ _ _ _ _ hs3).1
      obtain ⟨s4, hs4⟩ := ih x (y - 1) s3 (by omega) (by omega)
      exact ⟨s4, by simp [hs1, hs2, hs3, hs4]⟩
    · exact ⟨_, rfl⟩

/-- A call that starts outside the image returns at once. -/
theorem flood_fill_region_outside (img : image_t) (target : color_t) (fuel : Nat)
    (x y : Int) (st : fill_state)
    (h : x < 0 ∨ x ≥ img.width ∨ y < 0 ∨ y ≥ img.height) :
    flood_fill_region img target (fuel + 1) x y st = some st := by
  simp only [flood_fill_region, if_pos h]

/-- A call that starts on a visited pixel returns at once. -/
theorem flood_fill_region_visited (img : image_t) (target : color_t) (fuel : Nat)
    (x y : Int) (st : fill_state)
    (h : st.visited.getD (y * img.width + x).toNat false = true) :
    flood_fill_region img target (fuel + 1) x y st = some st := by
  simp only [flood_fill_region, if_pos h]
  split_ifs <;> rfl

/-- A call that starts on an unvisited pixel of the image within tolerance absorbs it and,
below the cap, visits the four neighbours in the order `+x, -x, +y, -y`. -/
theorem flood_fill_region_absorb (img : image_t) (target : color_t) (fuel : Nat)
    (x y : Int) (st : fill_state)
    (hb : ¬ (x < 0 ∨ x ≥ img.width ∨ y < 0 ∨ y ≥ img.height))
    (hv : ¬ st.visited.getD (y * img.width + x).toNat false = true)
    (hc : ¬ color_distance_sq (pixel_at img ((y * img.width + x) * img.channels).toNat)
      target > 400) :
    flood_fill_region img target (fuel + 1) x y st =
      if (absorb img x y st).polygon.count < 1000 then
        (flood_fill_region img target fuel (x + 1) y (absorb img x y st)).bind fun s1 =>
        (flood_fill_region img target fuel (x - 1) y s1).bind fun s2 =>
        (flood_fill_region img target fuel x (y + 1) s2).bind fun s3 =>
        flood_fill_region img target fuel x (y - 1) s3
      else some (absorb img x y st) := by
  simp only [flood_fill_region, if_neg hb, if_neg hv, if_neg hc, absorb]

/-! ## Loops in the `Option` monad -/

/-- A loop whose body always returns and preserves `P` returns and preserves `P`. -/
theorem foldlM_option_inv {σ α : Type} (f : σ → α → Option σ) (P : σ → Prop)
    (hf : ∀ s a, P s → ∃ s', f s a = some s' ∧ P s') :
    ∀ (l : List α) (s : σ), P s → ∃ s', l.foldlM f s = some s' ∧ P s' := by
  intro l
  induction l with
  | nil => intro s hs; exact ⟨s, rfl, hs⟩
  | cons a l ih =>
    intro s hs
    obtain ⟨s1, h1, hP1⟩ := hf s a hs
    obtain ⟨s2, h2, hP2⟩ := ih s1 hP1
    exact ⟨s2, by simp [List.foldlM_cons, h1, h2], hP2⟩

/-! ## A run that passes the cap: the uniform image of 1000 x 2 pixels -/

theorem pixel_at_wide_image (i : Nat) (h : i + 2 < 6000) : pixel_at wide_image i = grey := by
  have h0 : i < 6000 := by omega
  have h1 : i + 1 < 6000 := by omega
  have hd : wide_image.data = List.replicate 6000 180 := rfl
  unfold pixel_at
  rw [hd]
  simp only [List.getD_eq_getElem?_getD, List.getElem?_replicate, if_pos h0, if_pos h1,
    if_pos h, Option.getD_some]
  rfl

theorem getD_set_true (l : List Bool) (i j : Nat) :
    (l.set i true).getD j false = true ↔ (i = j ∧ i < l.length) ∨ l.getD j false = true := by
  simp only [List.getD_eq_getElem?_getD, List.getElem?_set]
  by_cases hij : i = j
  · subst hij
    by_cases hi : i < l.length
    · simp [hi]
    · simp [hi, List.getElem?_eq_none (Nat.le_of_not_lt hi)]
  · simp [hij]

theorem absorb_count (img : image_t) (x y : Int) (st : fill_state) :
    (absorb img x y st).polygon.count = st.polygon.count + 1 := by
  simp [absorb, polygon_push_count]

theorem absorb_visited_length (img : image_t) (x y : Int) (st : fill_state) :
    (absorb img x y st).visited.length = st.visited.length := by
  simp [absorb]

theorem absorb_visited (img : image_t) (x y : Int) (st : fill_state) (j : Nat) :
    (absorb img x y st).visited.getD j false = true ↔
      ((y * img.width + x).toNat = j ∧ (y * img.width + x).toNat < st.visited.length) ∨
        st.visited.getD j false = true := by
  simp only [absorb, getD_set_true]

theorem color_distance_sq_self (c : color_t) : color_distance_sq c c = 0 := by
  simp [color_distance_sq]

/-- The flood fill of `wide_image` along row 0: the call at `(x, 0)` entered with row 0 visited up
to `x` runs to the right end, which takes the count to 1000, and on the way back each
pending call at `(x', 1)`, `x ≤ x' < 999`, appends one more point. -/
theorem wide_image_row (n : Nat) :
    ∀ (x fuel : Nat) (st : fill_state), x + n = 999 → n + 1 ≤ fuel →
      st.visited.length = 2000 →
      (∀ j, j < 2000 → (st.visited.getD j false = true ↔ j < x)) →
      st.polygon.count = x →
      ∃ st', flood_fill_region wide_image grey fuel (x : Int) 0 st = some st' ∧
        st'.visited.length = 2000 ∧
        (∀ j, j < 2000 →
          (st'.visited.getD j false = true ↔ (j < 1000 ∨ (1000 + x ≤ j ∧ j < 1999)))) ∧
        st'.polygon.count = 1000 + n := by
  have hw : wide_image.width = 1000 := rfl
  have hh : wide_image.height = 2 := rfl
  have hch : wide_image.channels = 3 := rfl
  induction n with
  | zero =>
    intro x fuel st hx hfuel hlen hvis hcnt
    obtain ⟨f, rfl⟩ : ∃ f, fuel = f + 1 := ⟨fuel - 1, by omega⟩
    have hidx : ((0 : Int) * wide_image.width + (x : Int)).toNat = x := by simp
    rw [flood_fill_region_absorb _ _ _ _ _ _ (by rw [hw, hh]; omega)
      (by rw [hidx, hvis x (by omega)]; omega)
      (by rw [pixel_at_wide_image _ (by rw [hw, hch]; omega), color_distance_sq_self]; omega)]
    rw [if_neg (by rw [absorb_count]; omega)]
    refine ⟨_, rfl, by rw [absorb_visited_length, hlen], ?_, by rw [absorb_count]; omega⟩
    intro j hj
    rw [absorb_visited, hidx, hvis j hj]
    omega
  | succ n ih =>
    intro x fuel st hx hfuel hlen hvis hcnt
    obtain ⟨f, rfl⟩ : ∃ f, fuel = f + 2 := ⟨fuel - 2, by omega⟩
    have hidx : ((0 : Int) * wide_image.width + (x : Int)).toNat = x := by simp
    have hidx1 : (((0 : Int) + 1) * wide_image.width + (x : Int)).toNat = 1000 + x := by
      rw [hw]; omega
    rw [flood_fill_region_absorb _ _ _ _ _ _ (by rw [hw, hh]; omega)
      (by rw [hidx, hvis x (by omega)]; omega)
      (by rw [pixel_at_wide_image _ (by rw [hw, hch]; omega), color_distance_sq_self]; omega)]
    rw [if_pos (by rw [absorb_count]; omega)]
    obtain ⟨s1, hs1, hlen1, hvis1, hcnt1⟩ := ih (x + 1) (f + 1) (absorb wide_image x 0 st)
      (by omega) (by omega) (by rw [absorb_visited_length, hlen])
      (by intro j hj; rw [absorb_visited, hidx, hvis j hj]; omega)
      (by rw [absorb_count]; omega)
    have hcast : ((x : Int) + 1) = ((x + 1 : Nat) : Int) := by push_cast; ring
    rw [hcast, hs1, Option.some_bind]
    have hs2 : flood_fill_region wide_image grey (f + 1) ((x : Int) - 1) 0 s1 = some s1 := by
      by_cases hx0 : x = 0
      · exact flood_fill_region_outside _ _ _ _ _ _ (by omega)
      · refine flood_fill_region_visited _ _ _ _ _ _ ?_
        have : ((0 : Int) * wide_image.width + ((x : Int) - 1)).toNat = x - 1 := by
          rw [hw]; omega
        rw [this, hvis1 (x - 1) (by omega)]
        omega
    rw [hs2, Option.some_bind]
    rw [flood_fill_region_absorb _ _ _ _ _ _ (by rw [hw, hh]; omega)
      (by rw [hidx1, hvis1 (1000 + x) (by omega)]; omega)
      (by rw [pixel_at_wide_image _ (by rw [hw, hch]; omega), color_distance_sq_self]; omega)]
    rw [if_neg (by rw [absorb_count]; omega), Option.some_bind]
    rw [flood_fill_region_outside _ _ _ _ _ _ (by omega)]
    refine ⟨_, rfl, by rw [absorb_visited_length, hlen1], ?_, by rw [absorb_count]; omega⟩
    intro j hj
    rw [absorb_visited, hidx1, hvis1 j hj, hlen1]
    omega

/-- One seed candidate: the iteration returns and keeps the polygons stored so far as a
prefix of the stored polygons. -/
theorem trace_seed_prefix (img : image_t) (target : color_t) (y : Nat) (st : trace_state)
    (x : Nat) :
    ∃ st', trace_seed img target y st x = some st' ∧ st.polygons <+: st'.polygons := by
  simp only [trace_seed]
  split_ifs with h1 h2 h3
  · exact ⟨st, rfl, List.prefix_refl _⟩
  · obtain ⟨r, hr⟩ := flood_fill_region_total img target 1000 x y
      { visited := st.visited, polygon := { coords := [], capacity := 100 } }
      (by omega) (by omega)
    rw [hr, Option.map_some']
    refine ⟨_, rfl, ?_⟩
    split_ifs with h4
    · exact List.prefix_append _ _
    · exact List.prefix_refl _
  · exact ⟨st, rfl, List.prefix_refl _⟩
  · exact ⟨st, rfl, List.prefix_refl _⟩

/-- The fill of `wide_image` from the seed `(0, 0)` with nothing visited. -/
theorem wide_image_fill :
    ∃ st', flood_fill_region wide_image grey 1000 0 0
        { visited := List.replicate (wide_image.width * wide_image.height) false
          polygon := { coords := [], capacity := 100 } } = some st' ∧
      st'.polygon.count = 1999 := by
  obtain ⟨st', h, -, -, hc⟩ := wide_image_row 999 0 1000
    { visited := List.replicate (wide_image.width * wide_image.height) false
      polygon := { coords := [], capacity := 100 } } (by omega) (by omega)
    (by rw [List.length_replicate]; rfl)
    (by
      intro j hj
      have hd : wide_image.width * wide_image.height = 2000 := rfl
      rw [hd]
      simp only [List.getD_eq_getElem?_getD, List.getElem?_replicate, if_pos hj,
        Option.getD_some]
      simp)
    rfl
  exact ⟨st', h, hc⟩

/-- A loop `for (i = 0; i < n; i += step)` with `n > 0` starts at `i = 0`. -/
theorem stride_range_pos (n step : Nat) (h : 0 < n) : ∃ t, stride_range n step = 0 :: t := by
  obtain ⟨m, rfl⟩ : ∃ m, n = m + 1 := ⟨n - 1, by omega⟩
  unfold stride_range
  rw [List.range_succ_eq_map, List.filter_cons, if_pos (by simp)]
  exact ⟨_, rfl⟩

/-- C1, counterexample: on the uniform 1000 x 2 image `trace_color_regions` returns a
polygon of 1999 points, more than the cap of 1000. -/
theorem trace_color_regions_wide_image :
    ∃ polys, trace_color_regions wide_image grey = some polys ∧
      ∃ p ∈ polys, p.count = 1999 ∧ ¬ p.count ≤ 1000 := by
  obtain ⟨r, hr, hc⟩ := wide_image_fill
  have hrows : stride_range wide_image.height 8 = [0] := by decide
  obtain ⟨t, hcols⟩ := stride_range_pos wide_image.width 8 (by decide)
  have hseed : trace_seed wide_image grey 0
      { visited := List.replicate (wide_image.width * wide_image.height) false, polygons := [] }
      0 = some { visited := r.visited, polygons := [r.polygon] } := by
    have hv : ¬ (List.replicate (wide_image.width * wide_image.height) false).getD
        (0 * wide_image.width + 0) false = true := by
      have hd : wide_image.width * wide_image.height = 2000 := rfl
      have h0 : 0 * wide_image.width + 0 = 0 := rfl
      rw [hd, h0]
      simp only [List.getD_eq_getElem?_getD, List.getElem?_replicate]
      simp
    have hp : color_distance_sq
        (pixel_at wide_image ((0 * wide_image.width + 0) * wide_image.channels)) grey < 400 := by
      rw [pixel_at_wide_image _ (by decide), color_distance_sq_self]
      omega
    simp only [trace_seed, List.length_nil, if_neg hv, if_pos hp]
    have hr' : flood_fill_region wide_image grey 1000 ((0 : Nat) : Int) ((0 : Nat) : Int)
        { visited := List.replicate (wide_image.width * wide_image.height) false
          polygon := { coords := [], capacity := 100 } } = some r := hr
    rw [if_pos (by omega), hr', Option.map_some', if_pos (by omega)]
    rfl
  obtain ⟨s, hs, hmem⟩ := foldlM_option_inv (trace_seed wide_image grey 0)
    (fun st => r.polygon ∈ st.polygons)
    (fun s x hs => by
      obtain ⟨s', h', hpre⟩ := trace_seed_prefix wide_image grey 0 s x
      exact ⟨s', h', hpre.subset hs⟩)
    t { visited := r.visited, polygons := [r.polygon] } (by simp)
  refine ⟨s.polygons, ?_, r.polygon, hmem, hc, by omega⟩
  unfold trace_color_regions
  rw [hrows]
  simp only [List.foldlM_cons, List.foldlM_nil, trace_row]
  rw [hcols]
  simp only [List.foldlM_cons, hseed]
  simp [hs]

/-! ## Flood fill: inversion and induction -/

/-- Every way a call of `flood_fill_region` can return: unchanged (outside the image, on a
visited pixel, or out of tolerance), or after absorbing the pixel, at the cap without
recursion and below it through the four recursive calls in order. -/
theorem flood_fill_region_cases (img : image_t) (target : color_t) (fuel : Nat)
    (x y : Int) (st st' : fill_state)
    (h : flood_fill_region img target (fuel + 1) x y st = some st') :
    (st' = st ∧
      ¬ (in_image img x y ∧ ¬ is_visited img st.visited x y ∧ within_tolerance img target x y)) ∨
    (in_image img x y ∧ ¬ is_visited img st.visited x y ∧ within_tolerance img target x y ∧
      ((1000 ≤ (absorb img x y st).polygon.count ∧ st' = absorb img x y st) ∨
       ((absorb img x y st).polygon.count < 1000 ∧ ∃ s1 s2 s3,
          flood_fill_region img target fuel (x + 1) y (absorb img x y st) = some s1 ∧
          flood_fill_region img target fuel (x - 1) y s1 = some s2 ∧
          flood_fill_region img target fuel x (y + 1) s2 = some s3 ∧
          flood_fill_region img target fuel x (y - 1) s3 = some st'))) := by
  by_cases hb : x < 0 ∨ x ≥ img.width ∨ y < 0 ∨ y ≥ img.height
  · rw [flood_fill_region_outside _ _ _ _ _ _ hb] at h
    refine Or.inl ⟨(Option.some.inj h).symm, ?_⟩
    rintro ⟨hin, -, -⟩
    unfold in_image at hin
    omega
  · by_cases hv : st.visited.getD (y * img.width + x).toNat false = true
    · rw [flood_fill_region_visited _ _ _ _ _ _ hv] at h
      exact Or.inl ⟨(Option.some.inj h).symm, fun hh => hh.2.1 hv⟩
    · by_cases hc : color_distance_sq
          (pixel_at img ((y * img.width + x) * img.channels).toNat) target > 400
      · have h' : flood_fill_region img target (fuel + 1) x y st = some st := by
          simp only [flood_fill_region, if_neg hb, if_neg hv, if_pos hc]
        rw [h'] at h
        exact Or.inl ⟨(Option.some.inj h).symm, fun hh => hh.2.2 hc⟩
      · rw [flood_fill_region_absorb _ _ _ _ _ _ hb hv hc] at h
        refine Or.inr ⟨by unfold in_image; omega, hv, hc, ?_⟩
        split_ifs at h with h4
        · right
          obtain ⟨s1, hs1, h⟩ := Option.bind_eq_some.mp h
          obtain ⟨s2, hs2, h⟩ := Option.bind_eq_some.mp h
          obtain ⟨s3, hs3, h⟩ := Option.bind_eq_some.mp h
          exact ⟨h4, s1, s2, s3, hs1, hs2, hs3, h⟩
        · exact Or.inl ⟨by omega, (Option.some.inj h).symm⟩

/-- A reflexive and transitive relation between states that holds across every absorption
holds across every call of `flood_fill_region`. -/
theorem flood_fill_region_induct (img : image_t) (target : color_t)
    (P : fill_state → fill_state → Prop) (hrefl : ∀ st, P st st)
    (htrans : ∀ a b c, P a b → P b c → P a c)
    (habs : ∀ x y st, in_image img x y → ¬ is_visited img st.visited x y →
      P st (absorb img x y st)) :
    ∀ (fuel : Nat) (x y : Int) (st st' : fill_state),
      flood_fill_region img target fuel x y st = some st' → P st st' := by
  intro fuel
  induction fuel with
  | zero => intro x y st st' h; simp [flood_fill_region] at h
  | succ fuel ih =>
    intro x y st st' h
    rcases flood_fill_region_cases img target fuel x y st st' h with
      ⟨rfl, -⟩ | ⟨hin, hv, -, ⟨-, rfl⟩ | ⟨-, s1, s2, s3, h1, h2, h3, h4⟩⟩
    · exact hrefl _
    · exact habs x y st hin hv
    · exact htrans _ _ _ (habs x y st hin hv)
        (htrans _ _ _ (ih _ _ _ _ h1)
          (htrans _ _ _ (ih _ _ _ _ h2) (htrans _ _ _ (ih _ _ _ _ h3) (ih _ _ _ _ h4))))

/-! ## Pixel indices -/

theorem pixel_index_lt (img : image_t) (x y : Int) (h : in_image img x y) :
    (y * img.width + x).toNat < img.width * img.height := by
  obtain ⟨h1, h2, h3, h4⟩ := h
  have h5 : (y + 1) * (img.width : Int) ≤ (img.height : Int) * img.width :=
    mul_le_mul_of_nonneg_right (by omega) (by omega)
  have h6 : 0 ≤ y * (img.width : Int) := mul_nonneg h3 (by omega)
  have h7 : ((img.width * img.height : Nat) : Int) = (img.height : Int) * img.width := by
    push_cast; ring
  have h8 : (y + 1) * (img.width : Int) = y * img.width + img.width := by ring
  omega

theorem pixel_index_inj (img : image_t) (x y p q : Int) (h1 : in_image img x y)
    (h2 : in_image img p q)
    (h : (y * img.width + x).toNat = (q * img.width + p).toNat) : p = x ∧ q = y := by
  obtain ⟨a1, a2, a3, a4⟩ := h1
  obtain ⟨b1, b2, b3, b4⟩ := h2
  have h6 : 0 ≤ y * (img.width : Int) := mul_nonneg a3 (by omega)
  have h7 : 0 ≤ q * (img.width : Int) := mul_nonneg b3 (by omega)
  have hy : q = y := by
    by_contra hne
    rcases lt_or_gt_of_ne hne with hlt | hlt
    · have : (q + 1) * (img.width : Int) ≤ y * img.width :=
        mul_le_mul_of_nonneg_right (by omega) (by omega)
      have h8 : (q + 1) * (img.width : Int) = q * img.width + img.width := by ring
      omega
    · have : (y + 1) * (img.width : Int) ≤ q * img.width :=
        mul_le_mul_of_nonneg_right (by omega) (by omega)
      have h8 : (y + 1) * (img.width : Int) = y * img.width + img.width := by ring
      omega
  subst hy
  omega

/-- Inside a bitmap of the image's size, absorbing `(x, y)` sets the entry of `(x, y)` and
of no other pixel. -/
theorem absorb_is_visited (img : image_t) (x y p q : Int) (st : fill_state)
    (hlen : st.visited.length = img.width * img.height) (h1 : in_image img x y)
    (h2 : in_image img p q) :
    is_visited img (absorb img x y st).visited p q ↔
      (p = x ∧ q = y) ∨ is_visited img st.visited p q := by
  unfold is_visited
  rw [absorb_visited, hlen]
  constructor
  · rintro (⟨he, -⟩ | h)
    · exact Or.inl (pixel_index_inj img x y p q h1 h2 he)
    · exact Or.inr h
  · rintro (⟨rfl, rfl⟩ | h)
    · exact Or.inl ⟨rfl, pixel_index_lt img _ _ h1⟩
    · exact Or.inr h

/-- The bitmap keeps its length over a call. -/
theorem flood_fill_region_visited_length (img : image_t) (target : color_t) (fuel : Nat)
    (x y : Int) (st st' : fill_state)
    (h : flood_fill_region img target fuel x y st = some st') :
    st'.visited.length = st.visited.length :=
  flood_fill_region_induct img target (fun a b => b.visited.length = a.visited.length)
    (fun _ => rfl) (fun _ _ _ h1 h2 => h2.trans h1)
    (fun x y st _ _ => absorb_visited_length img x y st) fuel x y st st' h

/-- The bitmap only grows over a call. -/
theorem flood_fill_region_visited_mono (img : image_t) (target : color_t) (fuel : Nat)
    (x y : Int) (st st' : fill_state)
    (h : flood_fill_region img target fuel x y st = some st') :
    ∀ j, st.visited.getD j false = true → st'.visited.getD j false = true :=
  flood_fill_region_induct img target
    (fun a b => ∀ j, a.visited.getD j false = true → b.visited.getD j false = true)
    (fun _ _ h => h) (fun _ _ _ h1 h2 j hj => h2 j (h1 j hj))
    (fun x y st _ _ j hj => (absorb_visited img x y st j).mpr (Or.inr hj)) fuel x y st st' h

/-! ## Flood fill: the number of unvisited pixels -/

theorem count_false_set (l : List Bool) (i : Nat) (hi : i < l.length)
    (hv : ¬ l.getD i false = true) : (l.set i true).count false + 1 = l.count false := by
  have hget : l[i] = false := by
    rw [List.getD_eq_getElem _ _ hi] at hv
    simpa using hv
  have hpos : 0 < l.count false := List.count_pos_iff.mpr (hget ▸ List.getElem_mem hi)
  rw [List.count_set _ _ _ _ hi, hget]
  simp
  omega

/-- Over a call on a bitmap of the image's size, the points appended are as many as the
bitmap entries that went from unset to set. -/
theorem flood_fill_region_measure (img : image_t) (target : color_t) (fuel : Nat)
    (x y : Int) (st st' : fill_state)
    (h : flood_fill_region img target fuel x y st = some st')
    (hlen : st.visited.length = img.width * img.height) :
    st'.polygon.count + st'.visited.count false =
      st.polygon.count + st.visited.count false := by
  refine (flood_fill_region_induct img target
    (fun a b => a.visited.length = img.width * img.height →
      b.visited.length = img.width * img.height ∧
      b.polygon.count + b.visited.count false = a.polygon.count + a.visited.count false)
    (fun _ h => ⟨h, rfl⟩)
    (fun a b c h1 h2 ha => ⟨(h2 (h1 ha).1).1, (h2 (h1 ha).1).2.trans (h1 ha).2⟩)
    ?_ fuel x y st st' h hlen).2
  intro x y st hin hv hl
  refine ⟨by rw [absorb_visited_length, hl], ?_⟩
  have hi := pixel_index_lt img x y hin
  rw [← hl] at hi
  have := count_false_set st.visited _ hi hv
  rw [absorb_count]
  simp only [absorb]
  omega

/-! ## Flood fill: below the cap the traversal is complete -/

theorem flood_fill_region_is_visited_mono (img : image_t) (target : color_t) (fuel : Nat)
    (x y : Int) (st st' : fill_state)
    (h : flood_fill_region img target fuel x y st = some st') (p q : Int)
    (hv : is_visited img st.visited p q) : is_visited img st'.visited p q :=
  flood_fill_region_visited_mono img target fuel x y st st' h _ hv

/-- A call that ends below the cap has visited its start pixel if that is a pixel of the
image within tolerance, and around every pixel it has newly visited, every neighbour in
the image within tolerance is visited. -/
theorem flood_fill_region_closed (img : image_t) (target : color_t) :
    ∀ (fuel : Nat) (x y : Int) (st st' : fill_state),
      flood_fill_region img target fuel x y st = some st' →
      st.visited.length = img.width * img.height →
      st'.polygon.count < 1000 →
      (in_image img x y → within_tolerance img target x y → is_visited img st'.visited x y) ∧
      (∀ p q, in_image img p q → is_visited img st'.visited p q →
        ¬ is_visited img st.visited p q →
        ∀ p' q', adjacent4 p q p' q' → in_image img p' q' →
          within_tolerance img target p' q' → is_visited img st'.visited p' q') := by
  intro fuel
  induction fuel with
  | zero => intro x y st st' h; simp [flood_fill_region] at h
  | succ fuel ih =>
    intro x y st st' h hlen hcnt
    rcases flood_fill_region_cases img target fuel x y st st' h with
      ⟨rfl, hno⟩ | ⟨hin, hv, -, ⟨hcap, rfl⟩ | ⟨-, s1, s2, s3, h1, h2, h3, h4⟩⟩
    · refine ⟨fun hin htol => ?_, fun p q _ hv hnv => absurd hv hnv⟩
      by_contra hv
      exact hno ⟨hin, hv, htol⟩
    · omega
    · have c2 := (flood_fill_region_count img target _ _ _ _ _ h2).1
      have c3 := (flood_fill_region_count img target _ _ _ _ _ h3).1
      have c4 := (flood_fill_region_count img target _ _ _ _ _ h4).1
      have l0 : (absorb img x y st).visited.length = img.width * img.height := by
        rw [absorb_visited_length, hlen]
      have l1 := (flood_fill_region_visited_length img target _ _ _ _ _ h1).trans l0
      have l2 := (flood_fill_region_visited_length img target _ _ _ _ _ h2).trans l1
      have l3 := (flood_fill_region_visited_length img target _ _ _ _ _ h3).trans l2
      have m1 := flood_fill_region_is_visited_mono img target _ _ _ _ _ h1
      have m2 := flood_fill_region_is_visited_mono img target _ _ _ _ _ h2
      have m3 := flood_fill_region_is_visited_mono img target _ _ _ _ _ h3
      have m4 := flood_fill_region_is_visited_mono img target _ _ _ _ _ h4
      obtain ⟨a1, b1⟩ := ih _ _ _ _ h1 l0 (by omega)
      obtain ⟨a2, b2⟩ := ih _ _ _ _ h2 l1 (by omega)
      obtain ⟨a3, b3⟩ := ih _ _ _ _ h3 l2 (by omega)
      obtain ⟨a4, b4⟩ := ih _ _ _ _ h4 l3 hcnt
      have hself : is_visited img (absorb img x y st).visited x y :=
        (absorb_is_visited img x y x y st hlen hin hin).mpr (Or.inl ⟨rfl, rfl⟩)
      refine ⟨fun _ _ => m4 _ _ (m3 _ _ (m2 _ _ (m1 _ _ hself))), ?_⟩
      intro p q hpq hv' hnv p' q' hadj hin' htol'
      by_cases hv0 : is_visited img (absorb img x y st).visited p q
      · obtain ⟨rfl, rfl⟩ :=
          ((absorb_is_visited img x y p q st hlen hin hpq).mp hv0).resolve_right hnv
        rcases hadj with ⟨rfl, rfl⟩ | ⟨rfl, rfl⟩ | ⟨rfl, rfl⟩ | ⟨rfl, rfl⟩
        · exact m4 _ _ (m3 _ _ (m2 _ _ (a1 hin' htol')))
        · exact m4 _ _ (m3 _ _ (a2 hin' htol'))
        · exact m4 _ _ (a3 hin' htol')
        · exact a4 hin' htol'
      · by_cases hv1 : is_visited img s1.visited p q
        · exact m4 _ _ (m3 _ _ (m2 _ _ (b1 p q hpq hv1 hv0 p' q' hadj hin' htol')))
        · by_cases hv2 : is_visited img s2.visited p q
          · exact m4 _ _ (m3 _ _ (b2 p q hpq hv2 hv1 p' q' hadj hin' htol'))
          · by_cases hv3 : is_visited img s3.visited p q
            · exact m4 _ _ (b3 p q hpq hv3 hv2 p' q' hadj hin' htol')
            · exact b4 p q hpq hv' hv3 p' q' hadj hin' htol'

/-! ## Region tracing: the size of the polygons -/

/-- A call on a visited pixel changes nothing. -/
theorem flood_fill_region_of_visited (img : image_t) (target : color_t) (fuel : Nat)
    (x y : Int) (st st' : fill_state)
    (h : flood_fill_region img target fuel x y st = some st')
    (hv : is_visited img st.visited x y) : st' = st := by
  cases fuel with
  | zero => simp [flood_fill_region] at h
  | succ fuel =>
    rcases flood_fill_region_cases img target fuel x y st st' h with ⟨rfl, -⟩ | ⟨-, hnv, -⟩
    · rfl
    · exact absurd hv hnv

/-- The point count after a call entered below the cap with `c` points, on a bitmap of the
image's size: at most `2999 - 2 * c`, and at most `2998 - 2 * c` when a neighbour of the
start pixel is already visited (as the calling pixel is in every recursive call): of the
calls pending when the count reaches 1000, at most two per pixel can still append. -/
theorem flood_fill_region_count_tight (img : image_t) (target : color_t) :
    ∀ (fuel : Nat) (x y : Int) (st st' : fill_state),
      flood_fill_region img target fuel x y st = some st' →
      st.visited.length = img.width * img.height →
      st.polygon.count < 1000 →
      st'.polygon.count + 2 * st.polygon.count ≤ 2999 ∧
      ((∃ p q, adjacent4 x y p q ∧ in_image img p q ∧ is_visited img st.visited p q) →
        st'.polygon.count + 2 * st.polygon.count ≤ 2998) := by
  intro fuel
  induction fuel with
  | zero => intro x y st st' h; simp [flood_fill_region] at h
  | succ fuel ih =>
    intro x y st st' h hlen hc
    rcases flood_fill_region_cases img target fuel x y st st' h with
      ⟨rfl, -⟩ | ⟨hin, hv, -, ⟨hcap, rfl⟩ | ⟨hlt, s1, s2, s3, h1, h2, h3, h4⟩⟩
    · exact ⟨by omega, fun _ => by omega⟩
    · rw [absorb_count] at hcap ⊢
      exact ⟨by omega, fun _ => by omega⟩
    · rw [absorb_count] at hlt
      have l0 : (absorb img x y st).visited.length = img.width * img.height := by
        rw [absorb_visited_length, hlen]
      have l1 := (flood_fill_region_visited_length img target _ _ _ _ _ h1).trans l0
      have l2 := (flood_fill_region_visited_length img target _ _ _ _ _ h2).trans l1
      have l3 := (flood_fill_region_visited_length img target _ _ _ _ _ h3).trans l2
      have m1 := flood_fill_region_is_visited_mono img target _ _ _ _ _ h1
      have m2 := flood_fill_region_is_visited_mono img target _ _ _ _ _ h2
      have m3 := flood_fill_region_is_visited_mono img target _ _ _ _ _ h3
      have e1 := flood_fill_region_count img target _ _ _ _ _ h1
      have e2 := flood_fill_region_count img target _ _ _ _ _ h2
      have e3 := flood_fill_region_count img target _ _ _ _ _ h3
      have e4 := flood_fill_region_count img target _ _ _ _ _ h4
      have hself : is_visited img (absorb img x y st).visited x y :=
        (absorb_is_visited img x y x y st hlen hin hin).mpr (Or.inl ⟨rfl, rfl⟩)
      have t1 := fun hc => (ih _ _ _ _ h1 l0 hc).2
        ⟨x, y, Or.inr (Or.inl ⟨by ring, rfl⟩), hin, hself⟩
      have t2 := fun hc => (ih _ _ _ _ h2 l1 hc).2
        ⟨x, y, Or.inl ⟨by ring, rfl⟩, hin, m1 _ _ hself⟩
      have t3 := fun hc => (ih _ _ _ _ h3 l2 hc).2
        ⟨x, y, Or.inr (Or.inr (Or.inr ⟨rfl, by ring⟩)), hin, m2 _ _ (m1 _ _ hself)⟩
      have t4 := fun hc => (ih _ _ _ _ h4 l3 hc).2
        ⟨x, y, Or.inr (Or.inr (Or.inl ⟨rfl, by ring⟩)), hin, m3 _ _ (m2 _ _ (m1 _ _ hself))⟩
      simp only [absorb_count] at e1 t1
      refine ⟨by omega, ?_⟩
      rintro ⟨p, q, hadj, -, hvis⟩
      have hvis0 : is_visited img (absorb img x y st).visited p q :=
        (absorb_visited img x y st _).mpr (Or.inr hvis)
      rcases hadj with ⟨rfl, rfl⟩ | ⟨rfl, rfl⟩ | ⟨rfl, rfl⟩ | ⟨rfl, rfl⟩
      · have := flood_fill_region_of_visited img target _ _ _ _ _ h1 hvis0
        subst this
        simp only [absorb_count] at e2 t2
        omega
      · have := flood_fill_region_of_visited img target _ _ _ _ _ h2 (m1 _ _ hvis0)
        subst this
        omega
      · have := flood_fill_region_of_visited img target _ _ _ _ _ h3 (m2 _ _ (m1 _ _ hvis0))
        subst this
        omega
      · have := flood_fill_region_of_visited img target _ _ _ _ _ h4
          (m3 _ _ (m2 _ _ (m1 _ _ hvis0)))
        subst this
        omega

/-- One seed candidate, on a bitmap of the image's size: the iteration returns, the bitmap
keeps its size, and if every stored polygon satisfies a property that every polygon filled
on such a bitmap has, so does every polygon stored afterwards. -/
theorem trace_seed_inv (img : image_t) (target : color_t) (Q : polygon_t Int → Prop)
    (hQ : ∀ (x y : Nat) (v : List Bool) (r : fill_state),
      v.length = img.width * img.height →
      flood_fill_region img target 1000 x y
        { visited := v, polygon := { coords := [], capacity := 100 } } = some r →
      Q r.polygon)
    (y : Nat) (st : trace_state) (x : Nat)
    (hst : st.visited.length = img.width * img.height ∧ ∀ p ∈ st.polygons, Q p) :
    ∃ st', trace_seed img target y st x = some st' ∧
      (st'.visited.length = img.width * img.height ∧ ∀ p ∈ st'.polygons, Q p) := by
  simp only [trace_seed]
  split_ifs with h1 h2 h3
  · exact ⟨st, rfl, hst⟩
  · obtain ⟨r, hr⟩ := flood_fill_region_total img target 1000 x y
      { visited := st.visited, polygon := { coords := [], capacity := 100 } }
      (by omega) (by omega)
    have hl := (flood_fill_region_visited_length img target _ _ _ _ _ hr).trans hst.1
    rw [hr, Option.map_some']
    refine ⟨_, rfl, ?_⟩
    split_ifs with h4
    · refine ⟨hl, fun p hp => ?_⟩
      rcases List.mem_append.mp hp with hp | hp
      · exact hst.2 p hp
      · rw [List.mem_singleton.mp hp]; exact hQ _ _ _ _ hst.1 hr
    · exact ⟨hl, hst.2⟩
  · exact ⟨st, rfl, hst⟩
  · exact ⟨st, rfl, hst⟩

/-- The function `trace_color_regions` returns, and a property that every polygon filled
from a seed candidate on a bitmap of the image's size has holds for each polygon it
returns. -/
theorem trace_color_regions_inv (img : image_t) (target : color_t)
    (Q : polygon_t Int → Prop)
    (hQ : ∀ (x y : Nat) (v : List Bool) (r : fill_state),
      v.length = img.width * img.height →
      flood_fill_region img target 1000 x y
        { visited := v, polygon := { coords := [], capacity := 100 } } = some r →
      Q r.polygon) :
    ∃ polys, trace_color_regions img target = some polys ∧ ∀ p ∈ polys, Q p := by
  unfold trace_color_regions
  obtain ⟨s, hs, hP⟩ := foldlM_option_inv (trace_row img target)
    (fun st => st.visited.length = img.width * img.height ∧ ∀ p ∈ st.polygons, Q p)
    (fun s y hs => foldlM_option_inv (trace_seed img target y)
      (fun st => st.visited.length = img.width * img.height ∧ ∀ p ∈ st.polygons, Q p)
      (fun s x hs => trace_seed_inv img target Q hQ y s x hs) _ s hs)
    (stride_range img.height 8)
    { visited := List.replicate (img.width * img.height) false, polygons := [] }
    (by simp)
  exact ⟨s.polygons, by rw [hs]; rfl, hP.2⟩

/-- C1 (as the code has it): for every image and every target colour
`trace_color_regions` returns (the recursion never goes deeper than 1000 calls), and every
polygon it returns has at most `1000 + 3 + 2 * 998 = 2999` points and at most
`width * height` points. The test `count < 1000` guards the recursion, not the append, so
the calls still pending when the count reaches 1000 each append one more point. -/
theorem trace_color_regions_count_le (img : image_t) (target : color_t) :
    ∃ polys, trace_color_regions img target = some polys ∧
      ∀ p ∈ polys, p.count ≤ 2999 ∧ p.count ≤ img.width * img.height := by
  refine trace_color_regions_inv img target
    (fun p => p.count ≤ 2999 ∧ p.count ≤ img.width * img.height) ?_
  intro x y v r hv hr
  have h := (flood_fill_region_count_tight img target _ _ _ _ _ hr hv
    (by simp [polygon_t.count])).1
  have hm := flood_fill_region_measure img target _ _ _ _ _ hr hv
  have hle : v.count false ≤ v.length := List.count_le_length false v
  simp only [polygon_t.count, List.length_nil] at h hm
  simp only [polygon_t.count]
  rw [← hv]
  constructor <;> omega

/-! ## Flood fill of a single-colour image -/

/-- In the pixel grid a set that contains a pixel and, around each of its pixels, every
neighbour in the image, contains every pixel of the image. -/
theorem grid_connected (img : image_t) (V : Int → Int → Prop) (sx sy : Int)
    (hs : in_image img sx sy) (h0 : V sx sy)
    (hstep : ∀ p q, in_image img p q → V p q →
      ∀ p' q', adjacent4 p q p' q' → in_image img p' q' → V p' q') :
    ∀ p q, in_image img p q → V p q := by
  have hrow : ∀ d : Nat, (in_image img (sx + d) sy → V (sx + d) sy) ∧
      (in_image img (sx - d) sy → V (sx - d) sy) := by
    intro d
    induction d with
    | zero => simpa using fun _ => h0
    | succ d ih =>
      unfold in_image at hs ih ⊢
      constructor
      · intro h
        have hv := ih.1 (by omega)
        exact hstep (sx + d) sy (by unfold in_image; omega) hv _ _
          (Or.inl ⟨by push_cast; ring, rfl⟩) h
      · intro h
        have hv := ih.2 (by omega)
        exact hstep (sx - d) sy (by unfold in_image; omega) hv _ _
          (Or.inr (Or.inl ⟨by push_cast; ring, rfl⟩)) h
  have hrow' : ∀ p, in_image img p sy → V p sy := by
    intro p hp
    rcases le_total sx p with h | h
    · have := (hrow (p - sx).toNat).1
      rw [show sx + ((p - sx).toNat : Int) = p by omega] at this
      exact this hp
    · have := (hrow (sx - p).toNat).2
      rw [show sx - ((sx - p).toNat : Int) = p by omega] at this
      exact this hp
  intro p q hpq
  have hp : in_image img p sy := by unfold in_image at hs hpq ⊢; omega
  have hcol : ∀ d : Nat, (in_image img p (sy + d) → V p (sy + d)) ∧
      (in_image img p (sy - d) → V p (sy - d)) := by
    intro d
    induction d with
    | zero => simpa using fun _ => hrow' p hp
    | succ d ih =>
      unfold in_image at hs hp ih ⊢
      constructor
      · intro h
        have hv := ih.1 (by omega)
        exact hstep p (sy + d) (by unfold in_image; omega) hv _ _
          (Or.inr (Or.inr (Or.inl ⟨rfl, by push_cast; ring⟩))) h
      · intro h
        have hv := ih.2 (by omega)
        exact hstep p (sy - d) (by unfold in_image; omega) hv _ _
          (Or.inr (Or.inr (Or.inr ⟨rfl, by push_cast; ring⟩))) h
  rcases le_total sy q with h | h
  · have := (hcol (q - sy).toNat).1
    rw [show sy + ((q - sy).toNat : Int) = q by omega] at this
    exact this hpq
  · have := (hcol (sy - q).toNat).2
    rw [show sy - ((sy - q).toNat : Int) = q by omega] at this
    exact this hpq

theorem single_colour_within_tolerance (img : image_t) (c : color_t)
    (hu : single_colour img c) (x y : Int) (h : in_image img x y) :
    within_tolerance img c x y := by
  obtain ⟨h1, h2, h3, h4⟩ := h
  obtain ⟨x', rfl⟩ := Int.eq_ofNat_of_zero_le h1
  obtain ⟨y', rfl⟩ := Int.eq_ofNat_of_zero_le h3
  have hidx : (((y' : Int) * img.width + x') * img.channels).toNat =
      (y' * img.width + x') * img.channels := by
    norm_cast
  unfold within_tolerance
  rw [hidx, hu x' y' (by omega) (by omega), color_distance_sq_self]
  omega

/-- A bitmap of the image's size in which every pixel of the image is visited has no unset
entry. -/
theorem count_false_of_all_visited (img : image_t) (v : List Bool)
    (hlen : v.length = img.width * img.height)
    (hall : ∀ p q, in_image img p q → is_visited img v p q) : v.count false = 0 := by
  rw [List.count_eq_zero]
  intro hmem
  obtain ⟨j, hj, hget⟩ := List.getElem_of_mem hmem
  rw [hlen] at hj
  have hW : 0 < img.width := Nat.pos_of_ne_zero (by rintro h; rw [h] at hj; omega)
  have hq : j / img.width < img.height := by
    rw [Nat.div_lt_iff_lt_mul hW, Nat.mul_comm]; exact hj
  have hp : j % img.width < img.width := Nat.mod_lt _ hW
  have hv := hall ((j % img.width : Nat) : Int) ((j / img.width : Nat) : Int)
    ⟨Int.ofNat_nonneg _, by exact_mod_cast hp, Int.ofNat_nonneg _, by exact_mod_cast hq⟩
  unfold is_visited at hv
  have hidx : (((j / img.width : Nat) : Int) * img.width + ((j % img.width : Nat) : Int)).toNat
      = j := by
    have := Nat.div_add_mod j img.width
    have h2 : (((j / img.width : Nat) : Int) * img.width + ((j % img.width : Nat) : Int))
        = ((j / img.width * img.width + j % img.width : Nat) : Int) := by push_cast; ring
    rw [h2, Int.toNat_ofNat, Nat.mul_comm]
    exact this
  rw [hidx, List.getD_eq_getElem _ _ (by rw [hlen]; exact hj), hget] at hv
  exact absurd hv (by decide)

theorem fresh_fill_state_count_false (img : image_t) :
    (fresh_fill_state img).visited.count false = img.width * img.height := by
  simp [fresh_fill_state]

theorem fresh_fill_state_not_visited (img : image_t) (p q : Int) :
    ¬ is_visited img (fresh_fill_state img).visited p q := by
  unfold is_visited fresh_fill_state
  simp only [List.getD_eq_getElem?_getD, List.getElem?_replicate]
  split_ifs <;> simp

/-- C2 (as the code has it): in a single-colour image the fill from any seed pixel with
nothing visited and the image's colour as target returns a region whose point count is at
least `min (W * H) 1000`, at most `W * H` and at most 2999; so it is `W * H` when
`W * H ≤ 1000`, and at least 1000 otherwise. -/
theorem flood_fill_region_single_colour (img : image_t) (c : color_t) (sx sy : Nat)
    (hu : single_colour img c) (hsx : sx < img.width) (hsy : sy < img.height) :
    ∃ st', flood_fill_region img c 1000 sx sy (fresh_fill_state img) = some st' ∧
      min (img.width * img.height) 1000 ≤ st'.polygon.count ∧
      st'.polygon.count ≤ img.width * img.height ∧ st'.polygon.count ≤ 2999 := by
  obtain ⟨st', h⟩ := flood_fill_region_total img c 1000 sx sy (fresh_fill_state img)
    (by omega) (by omega)
  have hlen : (fresh_fill_state img).visited.length = img.width * img.height := by
    simp [fresh_fill_state]
  have hm := flood_fill_region_measure img c _ _ _ _ _ h hlen
  rw [fresh_fill_state_count_false] at hm
  have hc0 : (fresh_fill_state img).polygon.count = 0 := rfl
  have ht := (flood_fill_region_count_tight img c _ _ _ _ _ h hlen (by omega)).1
  refine ⟨st', h, ?_, by omega, by omega⟩
  by_cases hcap : st'.polygon.count < 1000
  · obtain ⟨ha, hb⟩ := flood_fill_region_closed img c _ _ _ _ _ h hlen hcap
    have hseed : in_image img sx sy := ⟨by omega, by omega, by omega, by omega⟩
    have hall := grid_connected img (is_visited img st'.visited) sx sy hseed
      (ha hseed (single_colour_within_tolerance img c hu _ _ hseed))
      (fun p q hpq hv p' q' hadj hin' =>
        hb p q hpq hv (fresh_fill_state_not_visited img p q) p' q' hadj hin'
          (single_colour_within_tolerance img c hu _ _ hin'))
    have hz := count_false_of_all_visited img st'.visited
      ((flood_fill_region_visited_length img c _ _ _ _ _ h).trans hlen) hall
    omega
  · omega

theorem single_colour_wide_image : single_colour wide_image grey := by
  intro x y hx hy
  have hw : wide_image.width = 1000 := rfl
  have hh : wide_image.height = 2 := rfl
  have hc : wide_image.channels = 3 := rfl
  rw [hw] at hx
  rw [hh] at hy
  exact pixel_at_wide_image _ (by rw [hw, hc]; omega)

/-- C2, counterexample: the uniform 1000 x 2 image filled from the seed `(0, 0)` with
nothing visited gives a region of 1999 points, not `min (1000 * 2) 1000 = 1000`. -/
theorem flood_fill_region_wide_image :
    single_colour wide_image grey ∧
    ∃ st', flood_fill_region wide_image grey 1000 0 0 (fresh_fill_state wide_image) = some st' ∧
      st'.polygon.count = 1999 ∧
      st'.polygon.count ≠ min (wide_image.width * wide_image.height) 1000 := by
  obtain ⟨st', h, hc⟩ := wide_image_fill
  refine ⟨single_colour_wide_image, st', h, hc, ?_⟩
  have hd : wide_image.width * wide_image.height = 2000 := rfl
  rw [hd, hc]
  decide

theorem getD_flatten_replicate (a b c : Nat) :
    ∀ n k, k < n →
      ((List.replicate n [a, b, c]).flatten).getD (3 * k) 0 = a ∧
      ((List.replicate n [a, b, c]).flatten).getD (3 * k + 1) 0 = b ∧
      ((List.replicate n [a, b, c]).flatten).getD (3 * k + 2) 0 = c := by
  intro n
  induction n with
  | zero => intro k hk; omega
  | succ n ih =>
    intro k hk
    rw [List.replicate_succ, List.flatten_cons]
    cases k with
    | zero => simp
    | succ k =>
      have h3 : 3 * (k + 1) = 3 * k + 3 := by ring
      obtain ⟨h0, h1, h2⟩ := ih k (by omega)
      rw [h3]
      exact ⟨h0, h1, h2⟩

theorem single_colour_sample_image : single_colour sample_image sandstone := by
  intro x y hx hy
  have hw : sample_image.width = 16 := rfl
  have hh : sample_image.height = 16 := rfl
  have hc : sample_image.channels = 3 := rfl
  have hd : sample_image.data = (List.replicate 256 [180, 120, 80]).flatten := rfl
  rw [hw] at hx
  rw [hh] at hy
  obtain ⟨h0, h1, h2⟩ := getD_flatten_replicate 180 120 80 256 (y * 16 + x) (by omega)
  unfold pixel_at
  rw [hw, hc, hd, Nat.mul_comm (y * 16 + x) 3, h0, h1, h2]
  rfl

/-- C2, witness: the 16 x 16 single-colour image filled from the seed `(8, 8)`. -/
theorem flood_fill_region_single_colour_witness :
    single_colour sample_image sandstone ∧ 8 < sample_image.width ∧
    8 < sample_image.height ∧
    ∃ st', flood_fill_region sample_image sandstone 1000 (8 : Nat) (8 : Nat)
        (fresh_fill_state sample_image) = some st' ∧
      min (sample_image.width * sample_image.height) 1000 ≤ st'.polygon.count ∧
      st'.polygon.count ≤ sample_image.width * sample_image.height ∧
      st'.polygon.count ≤ 2999 :=
  ⟨single_colour_sample_image, by decide, by decide,
    flood_fill_region_single_colour sample_image sandstone 8 8 single_colour_sample_image
      (by decide) (by decide)⟩

/-! ## Colour clustering -/

theorem color_distance_sq_comm (a b : color_t) :
    color_distance_sq a b = color_distance_sq b a := by
  simp only [color_distance_sq]
  ring

/-- The two outcomes of one sampled pixel: nothing is stored, or the pixel is stored at an
index below 50 and is at distance at least 30 from every colour stored before. -/
theorem extract_step_cases (img : image_t) (y : Nat) (colors : List color_t) (x : Nat) :
    (extract_step img y colors x = colors ∧
      (50 ≤ colors.length ∨ ∃ c ∈ colors,
        color_distance_sq (pixel_at img ((y * img.width + x) * img.channels)) c < 900)) ∨
    (extract_step img y colors x =
        colors ++ [pixel_at img ((y * img.width + x) * img.channels)] ∧
      colors.length < 50 ∧
      ∀ c ∈ colors,
        900 ≤ color_distance_sq (pixel_at img ((y * img.width + x) * img.channels)) c) := by
  simp only [extract_step]
  split_ifs with h
  · refine Or.inr ⟨rfl, h.2, fun c hc => ?_⟩
    have h1 := h.1
    rw [List.any_eq_false] at h1
    have := h1 c hc
    simpa using this
  · refine Or.inl ⟨rfl, ?_⟩
    by_cases hl : colors.length < 50
    · right
      have hf : ¬ (colors.any fun c => decide (color_distance_sq
          (pixel_at img ((y * img.width + x) * img.channels)) c < 900)) = false :=
        fun hf => h ⟨hf, hl⟩
      rw [Bool.not_eq_false, List.any_eq_true] at hf
      obtain ⟨c, hc, hd⟩ := hf
      exact ⟨c, hc, by simpa using hd⟩
    · left; omega

/-- A property of the colour array that holds when it is empty and is kept by every
iteration of the inner loop holds for the array `extract_unique_colors` returns. -/
theorem extract_unique_colors_inv (img : image_t) (P : List color_t → Prop) (h0 : P [])
    (hstep : ∀ y colors x, P colors → P (extract_step img y colors x)) :
    P (extract_unique_colors img) := by
  unfold extract_unique_colors
  have hinner : ∀ (y : Nat) (xs : List Nat) (colors : List color_t), P colors →
      P (xs.foldl (extract_step img y) colors) := by
    intro y xs
    induction xs with
    | nil => intro colors h; exact h
    | cons x xs ih => intro colors h; exact ih _ (hstep y colors x h)
  have houter : ∀ (ys : List Nat) (colors : List color_t), P colors →
      P (ys.foldl (fun colors y => (stride_range img.width 4).foldl (extract_step img y) colors)
        colors) := by
    intro ys
    induction ys with
    | nil => intro colors h; exact h
    | cons y ys ih => intro colors h; exact ih _ (hinner y _ colors h)
  exact houter _ _ h0

/-- C3: any two entries at distinct positions of the colour list returned by
`extract_unique_colors` are at squared distance at least 900, that is at Euclidean distance
at least the tolerance 30. -/
theorem extract_unique_colors_separated (img : image_t) (i j : Nat)
    (hi : i < (extract_unique_colors img).length)
    (hj : j < (extract_unique_colors img).length) (hij : i ≠ j) :
    900 ≤ color_distance_sq ((extract_unique_colors img).get ⟨i, hi⟩)
      ((extract_unique_colors img).get ⟨j, hj⟩) := by
  have hp : (extract_unique_colors img).Pairwise fun a b => 900 ≤ color_distance_sq a b := by
    refine extract_unique_colors_inv img _ List.Pairwise.nil ?_
    intro y colors x h
    rcases extract_step_cases img y colors x with ⟨he, -⟩ | ⟨he, -, hd⟩
    · rw [he]; exact h
    · rw [he, List.pairwise_append]
      refine ⟨h, List.pairwise_singleton _ _, fun a ha b hb => ?_⟩
      rw [List.mem_singleton.mp hb, color_distance_sq_comm]
      exact hd a ha
  rw [List.pairwise_iff_get] at hp
  rcases Nat.lt_or_gt_of_ne hij with h | h
  · exact hp ⟨i, hi⟩ ⟨j, hj⟩ h
  · rw [color_distance_sq_comm]
    exact hp ⟨j, hj⟩ ⟨i, hi⟩ h

/-- C3, witness: the two colours extracted from `two_tone_image`. -/
theorem extract_unique_colors_separated_witness :
    ∃ (hi : 0 < (extract_unique_colors two_tone_image).length)
      (hj : 1 < (extract_unique_colors two_tone_image).length),
      900 ≤ color_distance_sq ((extract_unique_colors two_tone_image).get ⟨0, hi⟩)
        ((extract_unique_colors two_tone_image).get ⟨1, hj⟩) :=
  ⟨by decide, by decide,
    extract_unique_colors_separated two_tone_image 0 1 (by decide) (by decide) (by decide)⟩

/-- C4: `extract_unique_colors` returns at most 50 colours, an image of zero width or zero
height gives the empty list, and an iteration that stores a pixel stores it at an index
below 50 (it appends to a list of fewer than 50 colours). -/
theorem extract_unique_colors_bounded (img : image_t) :
    (extract_unique_colors img).length ≤ 50 ∧
    (img.width = 0 ∨ img.height = 0 → extract_unique_colors img = []) ∧
    (∀ y colors x, extract_step img y colors x = colors ∨
      (colors.length < 50 ∧ extract_step img y colors x =
        colors ++ [pixel_at img ((y * img.width + x) * img.channels)])) := by
  refine ⟨?_, ?_, ?_⟩
  · refine extract_unique_colors_inv img (fun l => l.length ≤ 50) (by simp) ?_
    intro y colors x h
    rcases extract_step_cases img y colors x with ⟨he, -⟩ | ⟨he, hl, -⟩
    · rw [he]; exact h
    · rw [he, List.length_append, List.length_singleton]; omega
  · rintro (h | h)
    · have hs : stride_range img.width 4 = [] := by rw [h]; rfl
      unfold extract_unique_colors
      rw [hs]
      generalize stride_range img.height 4 = ys
      induction ys with
      | nil => rfl
      | cons y ys _ => simp
    · have hs : stride_range img.height 4 = [] := by rw [h]; rfl
      unfold extract_unique_colors
      rw [hs]
      rfl
  · intro y colors x
    rcases extract_step_cases img y colors x with ⟨he, -⟩ | ⟨he, hl, -⟩
    · exact Or.inl he
    · exact Or.inr ⟨hl, he⟩

/-- C4, witness: the image without pixels. -/
theorem extract_unique_colors_bounded_witness :
    (empty_image.width = 0 ∨ empty_image.height = 0) ∧ extract_unique_colors empty_image = [] :=
  ⟨Or.inl rfl, (extract_unique_colors_bounded empty_image).2.1 (Or.inl rfl)⟩

/-! ## Colour clustering is the greedy selection -/

theorem greedy_select_append (l1 l2 : List color_t) :
    ∀ acc, greedy_select acc (l1 ++ l2) = greedy_select (greedy_select acc l1) l2 := by
  induction l1 with
  | nil => intro acc; rfl
  | cons p ps ih =>
    intro acc
    simp only [List.cons_append, greedy_select]
    split_ifs <;> exact ih _

theorem greedy_select_extends (ps : List color_t) :
    ∀ acc, acc <+: greedy_select acc ps := by
  induction ps with
  | nil => intro acc; exact List.prefix_refl _
  | cons p ps ih =>
    intro acc
    simp only [greedy_select]
    split_ifs
    · exact (List.prefix_append acc [p]).trans (ih _)
    · exact ih _

/-- While fewer than 50 colours end up selected, every pixel gone through is within distance
30 of a selected colour. -/
theorem greedy_select_covers (ps : List color_t) :
    ∀ acc, (greedy_select acc ps).length < 50 →
      ∀ p ∈ ps, ∃ c ∈ greedy_select acc ps, color_distance_sq p c < 900 := by
  induction ps with
  | nil => intro acc _ p hp; simp at hp
  | cons q ps ih =>
    intro acc hlen p hp
    simp only [greedy_select] at hlen ⊢
    split_ifs at hlen ⊢ with hc
    · rcases List.mem_cons.mp hp with rfl | hp
      · refine ⟨p, (greedy_select_extends ps (acc ++ [p])).subset (by simp), ?_⟩
        rw [color_distance_sq_self]; omega
      · exact ih _ hlen p hp
    · rcases List.mem_cons.mp hp with rfl | hp
      · have hpre := greedy_select_extends ps acc
        have hl : acc.length < 50 := lt_of_le_of_lt hpre.length_le hlen
        have : ¬ ∀ c ∈ acc, 900 ≤ color_distance_sq p c := fun h => hc ⟨hl, h⟩
        push_neg at this
        obtain ⟨c, hc1, hc2⟩ := this
        exact ⟨c, hpre.subset hc1, hc2⟩
      · exact ih _ hlen p hp

theorem extract_step_eq_greedy (img : image_t) (y : Nat) (xs : List Nat) :
    ∀ acc, xs.foldl (extract_step img y) acc =
      greedy_select acc
        (xs.map fun x => pixel_at img ((y * img.width + x) * img.channels)) := by
  induction xs with
  | nil => intro acc; rfl
  | cons x xs ih =>
    intro acc
    rw [List.foldl_cons, ih, List.map_cons]
    simp only [greedy_select]
    rcases extract_step_cases img y acc x with ⟨he, hno⟩ | ⟨he, hl, hd⟩
    · rw [he, if_neg]
      rintro ⟨hl, hd⟩
      rcases hno with h | ⟨c, hc, h⟩
      · omega
      · have := hd c hc
        omega
    · rw [he, if_pos ⟨hl, hd⟩]

/-- C5: the list returned by `extract_unique_colors` is the greedy first-seen selection
over the pixels sampled at every 4th row and column in row-major order; when it has fewer
than 50 colours every sampled pixel is within distance 30 of one of them; and for an image
of positive width and height its first colour is the pixel at `(0, 0)`. -/
theorem extract_unique_colors_greedy (img : image_t) :
    extract_unique_colors img = greedy_select [] (sampled_pixels img) ∧
    ((extract_unique_colors img).length < 50 →
      ∀ p ∈ sampled_pixels img, ∃ c ∈ extract_unique_colors img,
        color_distance_sq p c < 900) ∧
    (0 < img.width → 0 < img.height →
      (extract_unique_colors img).head? = some (pixel_at img 0)) := by
  have heq : extract_unique_colors img = greedy_select [] (sampled_pixels img) := by
    unfold extract_unique_colors sampled_pixels
    generalize stride_range img.height 4 = ys
    generalize ([] : List color_t) = acc
    induction ys generalizing acc with
    | nil => rfl
    | cons y ys ih =>
      rw [List.foldl_cons, ih, List.flatMap_cons, greedy_select_append,
        extract_step_eq_greedy]
  refine ⟨heq, ?_, ?_⟩
  · intro hlen
    rw [heq] at hlen ⊢
    exact greedy_select_covers _ _ hlen
  · intro hw hh
    obtain ⟨ty, hy⟩ := stride_range_pos img.height 4 hh
    obtain ⟨tx, hx⟩ := stride_range_pos img.width 4 hw
    have hs : (sampled_pixels img).head? = some (pixel_at img 0) := by
      unfold sampled_pixels
      rw [hy, List.flatMap_cons, hx, List.map_cons]
      simp
    obtain ⟨t, ht⟩ : ∃ t, sampled_pixels img = pixel_at img 0 :: t := by
      cases hsp : sampled_pixels img with
      | nil => rw [hsp] at hs; simp at hs
      | cons a t =>
        rw [hsp] at hs
        simp only [List.head?_cons, Option.some.injEq] at hs
        exact ⟨t, by rw [hs]⟩
    rw [heq, ht]
    have hg : greedy_select [] (pixel_at img 0 :: t) = greedy_select [pixel_at img 0] t := by
      simp [greedy_select]
    rw [hg]
    obtain ⟨r, hr⟩ := greedy_select_extends t [pixel_at img 0]
    rw [← hr]
    rfl

/-- C5, witness: `sample_image` has positive width and height, and the first colour
extracted from it is its pixel at `(0, 0)`. -/
theorem extract_unique_colors_greedy_witness :
    0 < sample_image.width ∧ 0 < sample_image.height ∧
    (extract_unique_colors sample_image).head? = some (pixel_at sample_image 0) :=
  ⟨by decide, by decide, (extract_unique_colors_greedy sample_image).2.2 (by decide) (by decide)⟩

/-! ## Coordinate projection: the corners -/

/-- C6: for positive width and height `pixel_to_geo` maps pixel `(0, 0)` to `(minx, maxy)`,
pixel `(width, 0)` to `(maxx, maxy)` and pixel `(0, height)` to `(minx, miny)`, in exact
arithmetic. -/
theorem pixel_to_geo_corners (width height : Int) (minx miny maxx maxy : ℚ)
    (hw : 0 < width) (hh : 0 < height) :
    pixel_to_geo 0 0 width height minx miny maxx maxy = ⟨minx, maxy⟩ ∧
    pixel_to_geo width 0 width height minx miny maxx maxy = ⟨maxx, maxy⟩ ∧
    pixel_to_geo 0 height width height minx miny maxx maxy = ⟨minx, miny⟩ := by
  have hw' : (width : ℚ) ≠ 0 := by exact_mod_cast hw.ne'
  have hh' : (height : ℚ) ≠ 0 := by exact_mod_cast hh.ne'
  refine ⟨?_, ?_, ?_⟩
  · simp [pixel_to_geo]
  · simp [pixel_to_geo, div_self hw']
  · simp [pixel_to_geo, div_self hh']

/-- C6, witness: the 16 x 16 image over the bounding box `0,0,16,16`. -/
theorem pixel_to_geo_corners_witness :
    (0 : Int) < 16 ∧
    pixel_to_geo 0 0 16 16 0 0 16 16 = ⟨0, 16⟩ ∧
    pixel_to_geo 16 0 16 16 0 0 16 16 = ⟨16, 16⟩ ∧
    pixel_to_geo 0 16 16 16 0 0 16 16 = ⟨0, 0⟩ :=
  ⟨by decide, pixel_to_geo_corners 16 16 0 0 16 16 (by decide) (by decide)⟩

/-! ## Classification of the lookup text: the keyword priority -/

theorem fixed8_values_append (a b : List piece) :
    fixed8_values (a ++ b) = fixed8_values a ++ fixed8_values b := by
  simp [fixed8_values, List.filterMap_append]

theorem fixed8_values_write_coord (lead : String) (c : coord_t ℚ) :
    fixed8_values (write_coord lead c) = [c.x, c.y] := by
  simp [fixed8_values, write_coord, List.filterMap_cons]

theorem fixed8_values_write_points (indent : String) (cs : List (coord_t ℚ)) :
    ∀ k, fixed8_values (write_points indent k cs) = cs.flatMap fun c => [c.x, c.y] := by
  induction cs with
  | nil => intro k; rfl
  | cons c cs ih =>
    intro k
    have hsep : fixed8_values (if k > 0 then [piece.text ",\n"] else []) = [] := by
      split_ifs <;> rfl
    rw [write_points, fixed8_values_append, fixed8_values_append, hsep,
      fixed8_values_write_coord, ih, List.flatMap_cons]
    rfl

theorem pair_up_flatMap (cs : List (coord_t ℚ)) (rest : List ℚ) :
    pair_up ((cs.flatMap fun c => [c.x, c.y]) ++ rest) = cs ++ pair_up rest := by
  induction cs with
  | nil => rfl
  | cons c cs ih =>
    rw [List.flatMap_cons, List.append_assoc]
    show pair_up (c.x :: c.y :: ((cs.flatMap fun c => [c.x, c.y]) ++ rest)) =
      c :: cs ++ pair_up rest
    rw [pair_up, ih]
    rfl

theorem emitted_coords_write_ring (indent : String) (poly : polygon_t ℚ) :
    emitted_coords (write_ring indent poly) = closed_ring poly := by
  unfold emitted_coords write_ring closed_ring
  rw [fixed8_values_append, fixed8_values_write_points, pair_up_flatMap]
  cases poly.coords with
  | nil => rfl
  | cons c0 cs =>
    simp only [fixed8_values_write_coord, pair_up, List.take_succ_cons, List.take_zero]

/-- C8: for every polygon and either indentation, the coordinates of the ring that
`write_geojson` emits are the points of the polygon in order followed by a copy of the first
point: `n + 1` coordinates for `n ≥ 1` points (a single point is emitted twice, and a ring
whose last point equals its first still gets the copy), none for `n = 0`. -/
theorem write_ring_closed (indent : String) (poly : polygon_t ℚ) :
    emitted_coords (write_ring indent poly) = poly.coords ++ poly.coords.take 1 ∧
    (emitted_coords (write_ring indent poly)).length =
      (if poly.count = 0 then 0 else poly.count + 1) ∧
    (∀ (c : coord_t ℚ) (capacity : Nat),
      emitted_coords (write_ring indent ⟨[c], capacity⟩) = [c, c]) ∧
    (∀ (c : coord_t ℚ) (cs : List (coord_t ℚ)) (capacity : Nat),
      emitted_coords (write_ring indent ⟨c :: (cs ++ [c]), capacity⟩) =
        c :: (cs ++ [c, c])) := by
  refine ⟨emitted_coords_write_ring indent poly, ?_, ?_, ?_⟩
  · rw [emitted_coords_write_ring, closed_ring, polygon_t.count]
    cases poly.coords with
    | nil => rfl
    | cons c cs => simp
  · intro c capacity
    rw [emitted_coords_write_ring]
    rfl
  · intro c cs capacity
    rw [emitted_coords_write_ring]
    simp [closed_ring]

/-! ## The GeoJSON writer: escaping -/

theorem render_append (fi : Int → String) (ff : Nat → ℚ → String) (a b : List piece) :
    render fi ff (a ++ b) = render fi ff a ++ render fi ff b := by
  simp [render, List.flatMap_append]

theorem render_write_escaped (fi : Int → String) (ff : Nat → ℚ → String)
    (info : List Char) : render fi ff (write_escaped info) = info.flatMap escape_char := by
  induction info with
  | nil => rfl
  | cons c cs ih =>
    have hstep : write_escaped (c :: cs) = write_escaped [c] ++ write_escaped cs := by
      simp [write_escaped, List.flatMap_cons]
    have hone : render fi ff (write_escaped [c]) = escape_char c := by
      simp only [write_escaped, List.flatMap_cons, List.flatMap_nil, List.append_nil,
        escape_char]
      split_ifs <;> rfl
    rw [hstep, render_append, ih, hone, List.flatMap_cons]

/-- In the escaped text there is no raw newline or carriage return, and a double quote
only after a backslash; the text does not end in the middle of that. -/
theorem escape_char_flatMap_spec (info : List Char) :
    '\n' ∉ info.flatMap escape_char ∧ '\r' ∉ info.flatMap escape_char ∧
    ∀ (i : Nat), (info.flatMap escape_char)[i]? = some '"' →
      0 < i ∧ (info.flatMap escape_char)[i - 1]? = some '\\' := by
  induction info with
  | nil => simp
  | cons c cs ih =>
    obtain ⟨h1, h2, h3⟩ := ih
    rw [List.flatMap_cons]
    by_cases hq : c = '"'
    · have he : escape_char c = ['\\', '"'] := by simp [escape_char, hq]
      rw [he]
      refine ⟨by simpa using h1, by simpa using h2, ?_⟩
      intro i hi
      match i with
      | 0 => simp at hi
      | 1 => simp
      | i + 2 =>
        have hi' : (cs.flatMap escape_char)[i]? = some '"' := by simpa using hi
        obtain ⟨hpos, hprev⟩ := h3 i hi'
        obtain ⟨j, rfl⟩ : ∃ j, i = j + 1 := ⟨i - 1, by omega⟩
        exact ⟨by omega, by simpa using hprev⟩
    · by_cases hn : c = '\n'
      · have he : escape_char c = ['\\', 'n'] := by simp [escape_char, hn]
        rw [he]
        refine ⟨by simpa using h1, by simpa using h2, ?_⟩
        intro i hi
        match i with
        | 0 => simp at hi
        | 1 => simp at hi
        | i + 2 =>
          have hi' : (cs.flatMap escape_char)[i]? = some '"' := by simpa using hi
          obtain ⟨hpos, hprev⟩ := h3 i hi'
          obtain ⟨j, rfl⟩ : ∃ j, i = j + 1 := ⟨i - 1, by omega⟩
          exact ⟨by omega, by simpa using hprev⟩
      · by_cases hr : c = '\r'
        · have he : escape_char c = ['\\', 'r'] := by simp [escape_char, hr]
          rw [he]
          refine ⟨by simpa using h1, by simpa using h2, ?_⟩
          intro i hi
          match i with
          | 0 => simp at hi
          | 1 => simp at hi
          | i + 2 =>
            have hi' : (cs.flatMap escape_char)[i]? = some '"' := by simpa using hi
            obtain ⟨hpos, hprev⟩ := h3 i hi'
            obtain ⟨j, rfl⟩ : ∃ j, i = j + 1 := ⟨i - 1, by omega⟩
            exact ⟨by omega, by simpa using hprev⟩
        · have he : escape_char c = [c] := by simp [escape_char, hq, hn, hr]
          rw [he]
          refine ⟨?_, ?_, ?_⟩
          · intro h
            rcases List.mem_append.mp h with h | h
            · exact hn (List.mem_singleton.mp h).symm
            · exact h1 h
          · intro h
            rcases List.mem_append.mp h with h | h
            · exact hr (List.mem_singleton.mp h).symm
            · exact h2 h
          · intro i hi
            match i with
            | 0 => simp at hi; exact absurd hi hq
            | i + 1 =>
              have hi' : (cs.flatMap escape_char)[i]? = some '"' := by simpa using hi
              obtain ⟨hpos, hprev⟩ := h3 i hi'
              obtain ⟨j, rfl⟩ : ∃ j, i = j + 1 := ⟨i - 1, by omega⟩
              exact ⟨by omega, by simpa using hprev⟩

/-- C9: the value emitted for "wms_info" is, character by character, the text with a double
quote replaced by backslash and quote, a newline by backslash and `n`, a carriage return by
backslash and `r`, and every other character (a backslash too) unchanged; it contains no
raw newline or carriage return, and each double quote in it comes right after a
backslash. It stands between the pieces `"wms_info": "` and `",` of the properties. -/
theorem write_escaped_spec (fmt_int : Int → String) (fmt_fixed : Nat → ℚ → String)
    (info : List Char) :
    render fmt_int fmt_fixed (write_escaped info) = info.flatMap escape_char ∧
    escape_char '\\' = ['\\'] ∧
    '\n' ∉ render fmt_int fmt_fixed (write_escaped info) ∧
    '\r' ∉ render fmt_int fmt_fixed (write_escaped info) ∧
    (∀ (i : Nat), (render fmt_int fmt_fixed (write_escaped info))[i]? = some '"' →
      0 < i ∧ (render fmt_int fmt_fixed (write_escaped info))[i - 1]? = some '\\') ∧
    (∀ (i : Nat) (f : geological_feature_t),
      ([piece.text "        \"wms_info\": \""] ++ write_escaped info ++ [piece.text "\",\n"])
        <:+: write_properties i { f with feature_info := some info }) := by
  rw [render_write_escaped]
  obtain ⟨h1, h2, h3⟩ := escape_char_flatMap_spec info
  refine ⟨rfl, by decide, h1, h2, h3, ?_⟩
  intro i f
  unfold write_properties
  exact List.infix_append _ _ _

/-- C9, witness: the text `say "hi"` followed by a newline is emitted as `say \"hi\"\n`,
and the double quote at position 5 of the emitted value follows a backslash. -/
theorem write_escaped_spec_witness :
    render (fun _ => "") (fun _ _ => "") (write_escaped "say \"hi\"\n".toList) =
      "say \\\"hi\\\"\\n".toList ∧
    (render (fun _ => "") (fun _ _ => "") (write_escaped "say \"hi\"\n".toList))[5]? =
      some '"' ∧
    (render (fun _ => "") (fun _ _ => "") (write_escaped "say \"hi\"\n".toList))[5 - 1]? =
      some '\\' :=
  ⟨by decide, by decide,
    ((write_escaped_spec (fun _ => "") (fun _ _ => "") "say \"hi\"\n".toList).2.2.2.2.1 5
      (by decide)).2⟩

/-! ## The GeoJSON writer: the shape of the geometry -/

theorem write_coord_plain (lead : String)
    (hl : lead = "          " ∨ lead = "            " ∨ lead = ",\n" ++ "          " ∨
      lead = ",\n" ++ "            ")
    (c : coord_t ℚ) : ∀ q ∈ write_coord lead c, is_plain q = true := by
  intro q hq
  simp only [write_coord, List.mem_cons, List.mem_singleton, List.not_mem_nil, or_false] at hq
  rcases hq with rfl | rfl | rfl | rfl | rfl
  · rcases hl with rfl | rfl | rfl | rfl <;> decide
  · rfl
  · decide
  · rfl
  · decide

theorem write_points_plain (indent : String)
    (hi : indent = "          " ∨ indent = "            ") (cs : List (coord_t ℚ)) :
    ∀ k, ∀ q ∈ write_points indent k cs, is_plain q = true := by
  induction cs with
  | nil => intro k q hq; simp [write_points] at hq
  | cons c cs ih =>
    intro k q hq
    rw [write_points] at hq
    rcases List.mem_append.mp hq with hq | hq
    · rcases List.mem_append.mp hq with hq | hq
      · split_ifs at hq
        · rw [List.mem_singleton.mp hq]; decide
        · simp at hq
      · exact write_coord_plain indent (by rcases hi with rfl | rfl <;> simp) c q hq
    · exact ih _ q hq

theorem write_ring_plain (indent : String)
    (hi : indent = "          " ∨ indent = "            ") (poly : polygon_t ℚ) :
    ∀ q ∈ write_ring indent poly, is_plain q = true := by
  intro q hq
  unfold write_ring at hq
  rcases List.mem_append.mp hq with hq | hq
  · exact write_points_plain indent hi _ _ q hq
  · cases hc : poly.coords with
    | nil => rw [hc] at hq; simp at hq
    | cons c0 cs =>
      rw [hc] at hq
      exact write_coord_plain _ (by rcases hi with rfl | rfl <;> simp) c0 q hq

theorem is_plain_spec (q : piece) (h : is_plain q = true) :
    is_ring_open q = false ∧ is_ring_close q = false ∧ q ≠ polygon_type_line ∧
      q ≠ multipolygon_type_line := by
  simpa [is_plain, and_assoc] using h

theorem emitted_rings_skip (pre rest : List piece)
    (h : ∀ q ∈ pre, is_ring_open q = false) :
    emitted_rings (pre ++ rest) = emitted_rings rest := by
  induction pre with
  | nil => rfl
  | cons p pre ih =>
    rw [List.cons_append, emitted_rings, if_neg (by simp [h p (List.mem_cons_self _ _)])]
    exact ih fun q hq => h q (List.mem_cons_of_mem _ hq)

theorem takeWhile_ring (ring rest : List piece) (cl : piece)
    (h : ∀ q ∈ ring, is_ring_close q = false) (hcl : is_ring_close cl = true) :
    (ring ++ cl :: rest).takeWhile (fun q => !is_ring_close q) = ring := by
  induction ring with
  | nil => simp [List.takeWhile_cons, hcl]
  | cons p ring ih =>
    rw [List.cons_append, List.takeWhile_cons, h p (List.mem_cons_self _ _)]
    simp only [Bool.not_false, if_true]
    rw [ih fun q hq => h q (List.mem_cons_of_mem _ hq)]

/-- An opening piece, plain pieces, a closing piece: one ring. -/
theorem emitted_rings_ring (op cl : piece) (ring rest : List piece)
    (hop : is_ring_open op = true) (hcl : is_ring_close cl = true)
    (hcl' : is_ring_open cl = false) (h : ∀ q ∈ ring, is_plain q = true) :
    emitted_rings (op :: (ring ++ cl :: rest)) = emitted_coords ring :: emitted_rings rest := by
  rw [emitted_rings, if_pos hop,
    takeWhile_ring ring rest cl (fun q hq => (is_plain_spec q (h q hq)).2.1) hcl]
  have : ring ++ cl :: rest = (ring ++ [cl]) ++ rest := by simp
  rw [this, emitted_rings_skip]
  intro q hq
  rcases List.mem_append.mp hq with hq | hq
  · exact (is_plain_spec q (h q hq)).1
  · rw [List.mem_singleton.mp hq]; exact hcl'

theorem emitted_rings_write_polygons (polys : List (polygon_t ℚ)) :
    ∀ (j : Nat) (rest : List piece),
      emitted_rings (write_polygons j polys ++ rest) =
        polys.map closed_ring ++ emitted_rings rest := by
  induction polys with
  | nil => intro j rest; rfl
  | cons p ps ih =>
    intro j rest
    have hshape : write_polygons j (p :: ps) ++ rest =
        (if j > 0 then [piece.text ",\n"] else []) ++
          (piece.text "          [[\n" ::
            (write_ring "            " p ++
              piece.text "\n          ]]" :: (write_polygons (j + 1) ps ++ rest))) := by
      simp [write_polygons]
    rw [hshape, emitted_rings_skip _ _ (by
        intro q hq
        split_ifs at hq
        · rw [List.mem_singleton.mp hq]; decide
        · simp at hq),
      emitted_rings_ring _ _ _ _ (by decide) (by decide) (by decide)
        (write_ring_plain _ (Or.inr rfl) p),
      ih, emitted_coords_write_ring]
    rfl

theorem write_polygons_no_type_line (polys : List (polygon_t ℚ)) :
    ∀ (j : Nat), ∀ q ∈ write_polygons j polys,
      q ≠ polygon_type_line ∧ q ≠ multipolygon_type_line := by
  induction polys with
  | nil => intro j q hq; simp [write_polygons] at hq
  | cons p ps ih =>
    intro j q hq
    rw [write_polygons] at hq
    simp only [List.mem_append, List.mem_singleton] at hq
    rcases hq with (((hq | rfl) | hq) | rfl) | hq
    · split_ifs at hq
      · rw [List.mem_singleton.mp hq]; decide
      · simp at hq
    · decide
    · exact (is_plain_spec q (write_ring_plain _ (Or.inr rfl) p q hq)).2.2
    · decide
    · exact ih _ q hq

/-- C7: in the geometry written for a feature the type line is "Polygon" if and only if
the feature has exactly one polygon and "MultiPolygon" otherwise, and the rings emitted
are, in the order of `feature.polygons`, one closed ring per polygon. -/
theorem write_geometry_shape (feature : geological_feature_t) :
    (polygon_type_line ∈ write_geometry feature ↔ feature.polygon_count = 1) ∧
    (multipolygon_type_line ∈ write_geometry feature ↔ feature.polygon_count ≠ 1) ∧
    emitted_rings (write_geometry feature) = feature.polygons.map closed_ring ∧
    (emitted_rings (write_geometry feature)).length = feature.polygon_count := by
  have key : (polygon_type_line ∈ write_geometry feature ↔ feature.polygon_count = 1) ∧
      (multipolygon_type_line ∈ write_geometry feature ↔ feature.polygon_count ≠ 1) ∧
      emitted_rings (write_geometry feature) = feature.polygons.map closed_ring := by
    by_cases h1 : feature.polygon_count = 1
    · obtain ⟨p0, hp0⟩ := List.length_eq_one.mp h1
      have hshape : write_geometry feature =
          [piece.text "      \"geometry\": \x7b\n", polygon_type_line] ++
            (piece.text "        \"coordinates\": [[\n" ::
              (write_ring "          " p0 ++
                piece.text "\n        ]]\n" :: [piece.text "      \x7d\n"])) := by
        simp [write_geometry, h1, hp0, polygon_type_line]
      refine ⟨⟨fun _ => h1, fun _ => ?_⟩, ⟨fun hm => ?_, fun hne => absurd h1 hne⟩, ?_⟩
      · rw [hshape]; simp
      · exfalso
        rw [hshape] at hm
        simp only [List.mem_append, List.mem_cons, List.mem_singleton, List.not_mem_nil,
          or_false] at hm
        rcases hm with (hm | hm) | hm | hm | hm | hm
        · exact absurd hm (by decide)
        · exact absurd hm (by decide)
        · exact absurd hm (by decide)
        · exact (is_plain_spec _ (write_ring_plain _ (Or.inl rfl) p0 _ hm)).2.2.2 rfl
        · exact absurd hm (by decide)
        · exact absurd hm (by decide)
      · rw [hshape, emitted_rings_skip _ _ (by
            intro q hq
            simp only [List.mem_cons, List.mem_singleton, List.not_mem_nil, or_false] at hq
            rcases hq with rfl | rfl <;> decide),
          emitted_rings_ring _ _ _ _ (by decide) (by decide) (by decide)
            (write_ring_plain _ (Or.inl rfl) p0),
          emitted_coords_write_ring, hp0]
        rfl
    · have hshape : write_geometry feature =
          [piece.text "      \"geometry\": \x7b\n", multipolygon_type_line,
            piece.text "        \"coordinates\": [\n"] ++
            (write_polygons 0 feature.polygons ++
              [piece.text "\n        ]\n", piece.text "      \x7d\n"]) := by
        simp [write_geometry, h1, multipolygon_type_line]
      refine ⟨⟨fun hm => ?_, fun h => absurd h h1⟩, ⟨fun _ => h1, fun _ => ?_⟩, ?_⟩
      · exfalso
        rw [hshape] at hm
        simp only [List.mem_append, List.mem_cons, List.mem_singleton, List.not_mem_nil,
          or_false] at hm
        rcases hm with (hm | hm | hm) | hm | hm | hm
        · exact absurd hm (by decide)
        · exact absurd hm (by decide)
        · exact absurd hm (by decide)
        · exact (write_polygons_no_type_line _ _ _ hm).1 rfl
        · exact absurd hm (by decide)
        · exact absurd hm (by decide)
      · rw [hshape]; simp
      · rw [hshape, emitted_rings_skip _ _ (by
            intro q hq
            simp only [List.mem_cons, List.mem_singleton, List.not_mem_nil, or_false] at hq
            rcases hq with rfl | rfl | rfl <;> decide),
          emitted_rings_write_polygons]
        have : emitted_rings [piece.text "\n        ]\n", piece.text "      \x7d\n"] = [] := by
          decide
        rw [this, List.append_nil]
  refine ⟨key.1, key.2.1, key.2.2, ?_⟩
  rw [key.2.2, List.length_map]
  rfl

/-! ## Region tracing: the iterations at the seed candidates -/

/-- A loop whose body, at the elements of the list, always returns and preserves `P`
returns and preserves `P`. -/
theorem foldlM_option_inv_mem {σ α : Type} (f : σ → α → Option σ) (P : σ → Prop) :
    ∀ (l : List α) (s : σ), (∀ s a, a ∈ l → P s → ∃ s', f s a = some s' ∧ P s') → P s →
      ∃ s', l.foldlM f s = some s' ∧ P s' := by
  intro l
  induction l with
  | nil => intro s _ hs; exact ⟨s, rfl, hs⟩
  | cons a l ih =>
    intro s hf hs
    obtain ⟨s1, h1, hP1⟩ := hf s a (List.mem_cons_self _ _) hs
    obtain ⟨s2, h2, hP2⟩ := ih s1 (fun s b hb => hf s b (List.mem_cons_of_mem _ hb)) hP1
    exact ⟨s2, by simp [List.foldlM_cons, h1, h2], hP2⟩

theorem mem_stride_range (n step i : Nat) : i ∈ stride_range n step ↔ i < n ∧ i % step = 0 := by
  simp [stride_range]

/-- Every way one iteration of the inner loop of `trace_color_regions` can go: nothing
happens (ten polygons are stored, or the candidate is visited, or it is not at distance
below 20), or the region filled from the candidate is stored, if it has more than 10
points, or dropped, the bitmap being the one the fill has left in both cases. -/
theorem trace_seed_cases (img : image_t) (target : color_t) (y : Nat) (st : trace_state)
    (x : Nat) :
    (trace_seed img target y st x = some st ∧
      ¬ (st.polygons.length < 10 ∧ ¬ st.visited.getD (y * img.width + x) false = true ∧
        color_distance_sq (pixel_at img ((y * img.width + x) * img.channels)) target < 400)) ∨
    (st.polygons.length < 10 ∧ ¬ st.visited.getD (y * img.width + x) false = true ∧
      color_distance_sq (pixel_at img ((y * img.width + x) * img.channels)) target < 400 ∧
      ∃ r, flood_fill_region img target 1000 x y
          { visited := st.visited, polygon := { coords := [], capacity := 100 } } = some r ∧
        ((10 < r.polygon.count ∧ trace_seed img target y st x =
            some { visited := r.visited, polygons := st.polygons ++ [r.polygon] }) ∨
         (r.polygon.count ≤ 10 ∧ trace_seed img target y st x =
            some { visited := r.visited, polygons := st.polygons }))) := by
  simp only [trace_seed]
  split_ifs with h1 h2 h3
  · exact Or.inl ⟨rfl, fun h => h.2.1 h2⟩
  · refine Or.inr ⟨h1, h2, h3, ?_⟩
    obtain ⟨r, hr⟩ := flood_fill_region_total img target 1000 x y
      { visited := st.visited, polygon := { coords := [], capacity := 100 } }
      (by omega) (by omega)
    refine ⟨r, hr, ?_⟩
    rw [hr, Option.map_some']
    by_cases h4 : r.polygon.count > 10
    · exact Or.inl ⟨h4, by rw [if_pos h4]⟩
    · exact Or.inr ⟨by omega, by rw [if_neg h4]⟩
  · exact Or.inl ⟨rfl, fun h => h3 h.2.2⟩
  · exact Or.inl ⟨rfl, fun h => h1 h.1⟩

/-- A property of the loop state that holds at the start of `trace_color_regions` and is
kept by every iteration at a seed candidate holds for the state the loops end in, whose
polygons are the result. -/
theorem trace_color_regions_state_inv (img : image_t) (target : color_t)
    (P : trace_state → Prop)
    (h0 : P { visited := List.replicate (img.width * img.height) false, polygons := [] })
    (hstep : ∀ (y x : Nat) (st st' : trace_state), y < img.height → y % 8 = 0 →
      x < img.width → x % 8 = 0 → P st → trace_seed img target y st x = some st' → P st') :
    ∃ st, (stride_range img.height 8).foldlM (trace_row img target)
        { visited := List.replicate (img.width * img.height) false, polygons := [] } = some st ∧
      trace_color_regions img target = some st.polygons ∧ P st := by
  have hseed : ∀ y x st, y < img.height → y % 8 = 0 → x < img.width → x % 8 = 0 → P st →
      ∃ st', trace_seed img target y st x = some st' ∧ P st' := by
    intro y x st hy hy8 hx hx8 hP
    obtain ⟨st', h', -⟩ := trace_seed_prefix img target y st x
    exact ⟨st', h', hstep y x st st' hy hy8 hx hx8 hP h'⟩
  obtain ⟨s, hs, hP⟩ := foldlM_option_inv_mem (trace_row img target) P
    (stride_range img.height 8)
    { visited := List.replicate (img.width * img.height) false, polygons := [] }
    (fun s y hy hs => by
      rw [mem_stride_range] at hy
      exact foldlM_option_inv_mem (trace_seed img target y) P (stride_range img.width 8) s
        (fun s x hx hs => by
          rw [mem_stride_range] at hx
          exact hseed y x s hy.1 hy.2 hx.1 hx.2 hs) hs)
    h0
  exact ⟨s, hs, by unfold trace_color_regions; rw [hs]; rfl, hP⟩

/-! ## Flood fill: the points appended -/

/-- A reflexive and transitive relation between states that holds across every absorption
of an unvisited pixel of the image within tolerance holds across every call of
`flood_fill_region`. -/
theorem flood_fill_region_induct_tol (img : image_t) (target : color_t)
    (P : fill_state → fill_state → Prop) (hrefl : ∀ st, P st st)
    (htrans : ∀ a b c, P a b → P b c → P a c)
    (habs : ∀ x y st, in_image img x y → ¬ is_visited img st.visited x y →
      within_tolerance img target x y → P st (absorb img x y st)) :
    ∀ (fuel : Nat) (x y : Int) (st st' : fill_state),
      flood_fill_region img target fuel x y st = some st' → P st st' := by
  intro fuel
  induction fuel with
  | zero => intro x y st st' h; simp [flood_fill_region] at h
  | succ fuel ih =>
    intro x y st st' h
    rcases flood_fill_region_cases img target fuel x y st st' h with
      ⟨rfl, -⟩ | ⟨hin, hv, ht, ⟨-, rfl⟩ | ⟨-, s1, s2, s3, h1, h2, h3, h4⟩⟩
    · exact hrefl _
    · exact habs x y st hin hv ht
    · exact htrans _ _ _ (habs x y st hin hv ht)
        (htrans _ _ _ (ih _ _ _ _ h1)
          (htrans _ _ _ (ih _ _ _ _ h2) (htrans _ _ _ (ih _ _ _ _ h3) (ih _ _ _ _ h4))))

theorem absorb_coords (img : image_t) (x y : Int) (st : fill_state) :
    (absorb img x y st).polygon.coords = st.polygon.coords ++ [⟨x, y⟩] := rfl

/-- The points a call appends, on a bitmap of the image's size: they are pairwise distinct
pixels of the image within tolerance that were unvisited when the call started and are
visited when it returns. -/
theorem flood_fill_region_appended (img : image_t) (target : color_t) (fuel : Nat)
    (x y : Int) (st st' : fill_state)
    (h : flood_fill_region img target fuel x y st = some st')
    (hlen : st.visited.length = img.width * img.height) :
    ∃ new, st'.polygon.coords = st.polygon.coords ++ new ∧ new.Nodup ∧
      ∀ c ∈ new, in_image img c.x c.y ∧ within_tolerance img target c.x c.y ∧
        ¬ is_visited img st.visited c.x c.y ∧ is_visited img st'.visited c.x c.y := by
  refine (flood_fill_region_induct_tol img target
    (fun a b => a.visited.length = img.width * img.height →
      b.visited.length = img.width * img.height ∧
      (∀ p q, is_visited img a.visited p q → is_visited img b.visited p q) ∧
      ∃ new, b.polygon.coords = a.polygon.coords ++ new ∧ new.Nodup ∧
        ∀ c ∈ new, in_image img c.x c.y ∧ within_tolerance img target c.x c.y ∧
          ¬ is_visited img a.visited c.x c.y ∧ is_visited img b.visited c.x c.y)
    ?_ ?_ ?_ fuel x y st st' h hlen).2.2
  · intro st hl
    exact ⟨hl, fun _ _ h => h, [], by simp, by simp, by simp⟩
  · intro a b c hab hbc hl
    obtain ⟨lb, mab, n1, e1, d1, p1⟩ := hab hl
    obtain ⟨lc, mbc, n2, e2, d2, p2⟩ := hbc lb
    refine ⟨lc, fun p q h => mbc p q (mab p q h), n1 ++ n2, by rw [e2, e1, List.append_assoc],
      ?_, ?_⟩
    · rw [List.nodup_append]
      refine ⟨d1, d2, fun c hc1 hc2 => ?_⟩
      exact (p2 c hc2).2.2.1 (p1 c hc1).2.2.2
    · intro c hc
      rcases List.mem_append.mp hc with hc | hc
      · obtain ⟨i1, i2, i3, i4⟩ := p1 c hc
        exact ⟨i1, i2, i3, mbc _ _ i4⟩
      · obtain ⟨i1, i2, i3, i4⟩ := p2 c hc
        exact ⟨i1, i2, fun hv => i3 (mab _ _ hv), i4⟩
  · intro x y st hin hv ht hl
    refine ⟨by rw [absorb_visited_length, hl],
      fun p q h => (absorb_visited img x y st _).mpr (Or.inr h), [⟨x, y⟩], absorb_coords _ _ _ _,
      by simp, ?_⟩
    intro c hc
    rw [List.mem_singleton.mp hc]
    exact ⟨hin, ht, hv, (absorb_is_visited img x y x y st hl hin hin).mpr (Or.inl ⟨rfl, rfl⟩)⟩

theorem flood_fill_region_coords_grow (img : image_t) (target : color_t) (fuel : Nat)
    (x y : Int) (st st' : fill_state)
    (h : flood_fill_region img target fuel x y st = some st') :
    st.polygon.coords <+: st'.polygon.coords :=
  flood_fill_region_induct img target (fun a b => a.polygon.coords <+: b.polygon.coords)
    (fun _ => List.prefix_refl _) (fun _ _ _ h1 h2 => h1.trans h2)
    (fun x y st _ _ => by
      show st.polygon.coords <+: (absorb img x y st).polygon.coords
      rw [absorb_coords]; exact List.prefix_append _ _) fuel x y st st' h

/-- A call that starts on an unvisited pixel of the image within tolerance appends that
pixel first. -/
theorem flood_fill_region_first (img : image_t) (target : color_t) (fuel : Nat)
    (x y : Int) (st st' : fill_state)
    (h : flood_fill_region img target fuel x y st = some st')
    (hin : in_image img x y) (hv : ¬ is_visited img st.visited x y)
    (ht : within_tolerance img target x y) :
    (st.polygon.coords ++ [⟨x, y⟩]) <+: st'.polygon.coords := by
  cases fuel with
  | zero => simp [flood_fill_region] at h
  | succ fuel =>
    rcases flood_fill_region_cases img target fuel x y st st' h with
      ⟨-, hno⟩ | ⟨-, -, -, ⟨-, rfl⟩ | ⟨-, s1, s2, s3, h1, h2, h3, h4⟩⟩
    · exact absurd ⟨hin, hv, ht⟩ hno
    · rw [absorb_coords]
    · rw [← absorb_coords img]
      exact (((flood_fill_region_coords_grow _ _ _ _ _ _ _ h1).trans
        (flood_fill_region_coords_grow _ _ _ _ _ _ _ h2)).trans
        (flood_fill_region_coords_grow _ _ _ _ _ _ _ h3)).trans
        (flood_fill_region_coords_grow _ _ _ _ _ _ _ h4)

theorem pixel_index_cast (img : image_t) (x y : Nat) :
    ((y : Int) * img.width + x).toNat = y * img.width + x := by
  norm_cast

theorem pixel_offset_cast (img : image_t) (x y : Nat) :
    (((y : Int) * img.width + x) * img.channels).toNat = (y * img.width + x) * img.channels := by
  norm_cast

/-- The region filled from a seed of `trace_color_regions` starts with the seed. -/
theorem seed_fill_head (img : image_t) (target : color_t) (x y : Nat) (v : List Bool)
    (r : fill_state) (hx : x < img.width) (hy : y < img.height)
    (hv : ¬ v.getD (y * img.width + x) false = true)
    (hd : color_distance_sq (pixel_at img ((y * img.width + x) * img.channels)) target < 400)
    (h : flood_fill_region img target 1000 x y
      { visited := v, polygon := { coords := [], capacity := 100 } } = some r) :
    r.polygon.coords.head? = some ⟨x, y⟩ := by
  have hp := flood_fill_region_first img target _ _ _ _ _ h
    ⟨by omega, by omega, by omega, by omega⟩
    (by unfold is_visited; rw [pixel_index_cast]; exact hv)
    (by unfold within_tolerance; rw [pixel_offset_cast]; omega)
  obtain ⟨t, ht⟩ := hp
  rw [← ht]
  rfl

/-! ## Region tracing: the minimum region size -/

/-! ## Region tracing: the states the loops go through -/

/-- A loop whose body, in every state the loop reaches with `P`, returns and preserves `P`
returns and preserves `P`. -/
theorem foldlM_option_inv_split {σ α : Type} (f : σ → α → Option σ) (P : σ → Prop)
    (l : List α) (init : σ) (h0 : P init)
    (hstep : ∀ (pre : List α) (a : α) (post : List α) (s : σ), l = pre ++ a :: post →
      pre.foldlM f init = some s → P s → ∃ s', f s a = some s' ∧ P s') :
    ∃ s, l.foldlM f init = some s ∧ P s := by
  have key : ∀ (rest pre : List α) (s : σ), l = pre ++ rest → pre.foldlM f init = some s →
      P s → ∃ s', l.foldlM f init = some s' ∧ P s' := by
    intro rest
    induction rest with
    | nil =>
      intro pre s hl hs hP
      rw [List.append_nil] at hl
      exact ⟨s, by rw [hl]; exact hs, hP⟩
    | cons a rest ih =>
      intro pre s hl hs hP
      obtain ⟨s1, h1, hP1⟩ := hstep pre a rest s hl hs hP
      refine ih (pre ++ [a]) s1 (by rw [hl]; simp) ?_ hP1
      rw [List.foldlM_append, hs]
      simp [h1]
  exact key l [] init rfl rfl h0

/-- The inner loop, from any state and over any columns, returns and keeps the polygons
stored so far as the first of the stored polygons. -/
theorem trace_seed_foldlM_grow (img : image_t) (target : color_t) (y : Nat)
    (xs : List Nat) (s : trace_state) :
    ∃ s', xs.foldlM (trace_seed img target y) s = some s' ∧ s.polygons <+: s'.polygons :=
  foldlM_option_inv (trace_seed img target y) (fun t => s.polygons <+: t.polygons)
    (fun t x ht => by
      obtain ⟨t', h', hp⟩ := trace_seed_prefix img target y t x
      exact ⟨t', h', ht.trans hp⟩) xs s (List.prefix_refl _)

/-- The outer loop, from any state and over any rows, returns and keeps the polygons stored
so far as the first of the stored polygons. -/
theorem trace_row_foldlM_grow (img : image_t) (target : color_t)
    (ys : List Nat) (s : trace_state) :
    ∃ s', ys.foldlM (trace_row img target) s = some s' ∧ s.polygons <+: s'.polygons :=
  foldlM_option_inv (trace_row img target) (fun t => s.polygons <+: t.polygons)
    (fun t y ht => by
      obtain ⟨t', h', hp⟩ := trace_seed_foldlM_grow img target y (stride_range img.width 8) t
      exact ⟨t', h', ht.trans hp⟩) ys s (List.prefix_refl _)

/-- Every seed candidate is reached by the loops, in some state. -/
theorem reaches_seed_exists (img : image_t) (target : color_t) (y x : Nat)
    (hy : y ∈ stride_range img.height 8) (hx : x ∈ stride_range img.width 8) :
    ∃ st, reaches_seed img target y x st := by
  obtain ⟨ys1, ys2, hys⟩ := List.append_of_mem hy
  obtain ⟨xs1, xs2, hxs⟩ := List.append_of_mem hx
  obtain ⟨s0, h0, -⟩ := trace_row_foldlM_grow img target ys1
    { visited := List.replicate (img.width * img.height) false, polygons := [] }
  obtain ⟨st, hst, -⟩ := trace_seed_foldlM_grow img target y xs1 s0
  exact ⟨st, ys1, ys2, xs1, xs2, s0, hys, hxs, h0, hst⟩

/-- What the iteration at a seed candidate reached by the loops has stored is among the
first polygons of the result. -/
theorem reaches_seed_kept (img : image_t) (target : color_t) (y x : Nat)
    (st st' : trace_state) (hreach : reaches_seed img target y x st)
    (hseed : trace_seed img target y st x = some st') :
    ∃ polys, trace_color_regions img target = some polys ∧ st'.polygons <+: polys := by
  obtain ⟨ys1, ys2, xs1, xs2, s0, hys, hxs, h0, hst⟩ := hreach
  obtain ⟨s1, h1, p1⟩ := trace_seed_foldlM_grow img target y xs2 st'
  obtain ⟨s2, h2, p2⟩ := trace_row_foldlM_grow img target ys2 s1
  have hrow : trace_row img target s0 y = some s1 := by
    unfold trace_row
    rw [hxs, List.foldlM_append, hst]
    simp [List.foldlM_cons, hseed, h1]
  refine ⟨s2.polygons, ?_, p1.trans p2⟩
  unfold trace_color_regions
  rw [hys, List.foldlM_append, h0]
  simp [List.foldlM_cons, hrow, h2]

/-- Every polygon `trace_color_regions` returns is the region, of more than 10 points,
filled at a seed candidate the loops have reached. -/
theorem trace_color_regions_filled (img : image_t) (target : color_t) :
    ∃ polys, trace_color_regions img target = some polys ∧ ∀ p ∈ polys,
      ∃ y x st r, fills_region img target y x st r ∧ r.polygon = p ∧ 10 < p.count := by
  obtain ⟨s, hs, hP⟩ := foldlM_option_inv_split (trace_row img target)
    (fun t => ∀ p ∈ t.polygons,
      ∃ y x st r, fills_region img target y x st r ∧ r.polygon = p ∧ 10 < p.count)
    (stride_range img.height 8)
    { visited := List.replicate (img.width * img.height) false, polygons := [] }
    (by simp)
    (fun ys1 y ys2 s0 hys h0 hP0 =>
      foldlM_option_inv_split (trace_seed img target y)
        (fun t => ∀ p ∈ t.polygons,
          ∃ y x st r, fills_region img target y x st r ∧ r.polygon = p ∧ 10 < p.count)
        (stride_range img.width 8) s0 hP0
        (fun xs1 x xs2 st hxs hst hPst => by
          have hreach : reaches_seed img target y x st :=
            ⟨ys1, ys2, xs1, xs2, s0, hys, hxs, h0, hst⟩
          rcases trace_seed_cases img target y st x with
            ⟨he, -⟩ | ⟨hl, hv, hd, r, hr, ⟨hc, he⟩ | ⟨-, he⟩⟩
          · exact ⟨st, he, hPst⟩
          · refine ⟨_, he, ?_⟩
            intro p hp
            rcases List.mem_append.mp hp with hp | hp
            · exact hPst p hp
            · rw [List.mem_singleton.mp hp]
              exact ⟨y, x, st, r, ⟨hreach, hl, hv, hd, hr⟩, rfl, hc⟩
          · exact ⟨_, he, hPst⟩))
  exact ⟨s.polygons, by unfold trace_color_regions; rw [hs]; rfl, hP⟩

/-- C14: the region filled at a seed is part of the output of `trace_color_regions` if and
only if it has more than 10 points. At a seed the region is stored if and only if it has
more than 10 points (the bitmap is kept as the fill left it in both cases); every polygon
returned has at least 11 points; every seed candidate is reached by the loops; the region
filled at a seed the loops have reached is in the list returned if and only if it has more
than 10 points; and every polygon returned is such a region. -/
theorem trace_color_regions_min_region (img : image_t) (target : color_t) :
    (∀ (y : Nat) (st : trace_state) (x : Nat) (r : fill_state),
      st.polygons.length < 10 → ¬ st.visited.getD (y * img.width + x) false = true →
      color_distance_sq (pixel_at img ((y * img.width + x) * img.channels)) target < 400 →
      flood_fill_region img target 1000 x y
        { visited := st.visited, polygon := { coords := [], capacity := 100 } } = some r →
      trace_seed img target y st x = some
        { visited := r.visited
          polygons := if 10 < r.polygon.count then st.polygons ++ [r.polygon]
            else st.polygons }) ∧
    (∃ polys, trace_color_regions img target = some polys ∧ ∀ p ∈ polys, 11 ≤ p.count) ∧
    (∀ y ∈ stride_range img.height 8, ∀ x ∈ stride_range img.width 8,
      ∃ st, reaches_seed img target y x st) ∧
    (∀ (y x : Nat) (st : trace_state) (r : fill_state), fills_region img target y x st r →
      ∃ polys, trace_color_regions img target = some polys ∧
        (r.polygon ∈ polys ↔ 10 < r.polygon.count)) ∧
    ∃ polys, trace_color_regions img target = some polys ∧ ∀ p ∈ polys,
      ∃ y x st r, fills_region img target y x st r ∧ r.polygon = p := by
  have hstep : ∀ (y : Nat) (st : trace_state) (x : Nat) (r : fill_state),
      st.polygons.length < 10 → ¬ st.visited.getD (y * img.width + x) false = true →
      color_distance_sq (pixel_at img ((y * img.width + x) * img.channels)) target < 400 →
      flood_fill_region img target 1000 x y
        { visited := st.visited, polygon := { coords := [], capacity := 100 } } = some r →
      trace_seed img target y st x = some
        { visited := r.visited
          polygons := if 10 < r.polygon.count then st.polygons ++ [r.polygon]
            else st.polygons } := by
    intro y st x r h1 h2 h3 hr
    rcases trace_seed_cases img target y st x with ⟨-, hno⟩ | ⟨-, -, -, r', hr', hcase⟩
    · exact absurd ⟨h1, h2, h3⟩ hno
    · rw [hr] at hr'
      obtain rfl := Option.some.inj hr'
      rcases hcase with ⟨hc, he⟩ | ⟨hc, he⟩
      · rw [he, if_pos hc]
      · rw [he, if_neg (by omega)]
  obtain ⟨polys, hpolys, hfilled⟩ := trace_color_regions_filled img target
  have hmin : ∀ p ∈ polys, 11 ≤ p.count := by
    intro p hp
    obtain ⟨_, _, _, _, -, -, hc⟩ := hfilled p hp
    omega
  refine ⟨hstep, ⟨polys, hpolys, hmin⟩,
    fun y hy x hx => reaches_seed_exists img target y x hy hx, ?_,
    ⟨polys, hpolys, fun p hp => ?_⟩⟩
  · rintro y x st r ⟨hreach, h1, h2, h3, hr⟩
    refine ⟨polys, hpolys, fun hmem => by have := hmin _ hmem; omega, fun hc => ?_⟩
    have hs := hstep y st x r h1 h2 h3 hr
    rw [if_pos hc] at hs
    obtain ⟨polys', hpolys', hpre⟩ := reaches_seed_kept img target y x st _ hreach hs
    rw [hpolys] at hpolys'
    obtain rfl := Option.some.inj hpolys'
    exact hpre.subset (List.mem_append_right _ (List.mem_singleton.mpr rfl))
  · obtain ⟨y, x, st, r, hf, hp', -⟩ := hfilled p hp
    exact ⟨y, x, st, r, hf, hp'⟩

theorem sample_image_seed_conditions :
    ¬ (List.replicate (sample_image.width * sample_image.height) false).getD
        (0 * sample_image.width + 0) false = true ∧
    color_distance_sq
      (pixel_at sample_image ((0 * sample_image.width + 0) * sample_image.channels))
      sandstone < 400 := by
  constructor
  · have hd : sample_image.width * sample_image.height = 256 := rfl
    have h0 : 0 * sample_image.width + 0 = 0 := rfl
    rw [hd, h0]
    simp only [List.getD_eq_getElem?_getD, List.getElem?_replicate]
    simp
  · have := single_colour_sample_image 0 0 (by decide) (by decide)
    rw [this, color_distance_sq_self]
    omega

/-- C14, witness: the first seed candidate of the 16 x 16 single-colour image: the loops
reach it in their first state, the region filled there is stored by the iteration if and
only if it has more than 10 points, and it is in the list returned if and only if it has
more than 10 points. -/
theorem trace_color_regions_min_region_witness :
    ∃ r, fills_region sample_image sandstone 0 0
        { visited := List.replicate (sample_image.width * sample_image.height) false
          polygons := [] } r ∧
      trace_seed sample_image sandstone 0
        { visited := List.replicate (sample_image.width * sample_image.height) false
          polygons := [] } 0 = some
        { visited := r.visited
          polygons := if 10 < r.polygon.count then [] ++ [r.polygon] else [] } ∧
      ∃ polys, trace_color_regions sample_image sandstone = some polys ∧
        (r.polygon ∈ polys ↔ 10 < r.polygon.count) := by
  obtain ⟨r, hr⟩ := flood_fill_region_total sample_image sandstone 1000 (0 : Nat) (0 : Nat)
    { visited := List.replicate (sample_image.width * sample_image.height) false
      polygon := { coords := [], capacity := 100 } } (by omega) (by decide)
  obtain ⟨ty, hy⟩ := stride_range_pos sample_image.height 8 (by decide)
  obtain ⟨tx, hx⟩ := stride_range_pos sample_image.width 8 (by decide)
  have hfill : fills_region sample_image sandstone 0 0
      { visited := List.replicate (sample_image.width * sample_image.height) false
        polygons := [] } r :=
    ⟨⟨[], ty, [], tx, _, hy, hx, rfl, rfl⟩, by decide, sample_image_seed_conditions.1,
      sample_image_seed_conditions.2, hr⟩
  exact ⟨r, hfill, (trace_color_regions_min_region sample_image sandstone).1 0
    { visited := List.replicate (sample_image.width * sample_image.height) false
      polygons := [] } 0 r (by decide) sample_image_seed_conditions.1
    sample_image_seed_conditions.2 hr,
    (trace_color_regions_min_region sample_image sandstone).2.2.2.1 0 0 _ r hfill⟩

/-! ## Region tracing: the seeds of the polygons -/

/-- A loop in which the iteration at `a` extends the list `g s` by a sublist of `k a`
extends it, over the whole list, by a sublist of the lists `k a` put end to end. -/
theorem foldlM_option_sublist {σ α β : Type} (f : σ → α → Option σ) (g : σ → List β)
    (k : α → List β) :
    ∀ (l : List α) (s s' : σ),
      (∀ s a s', a ∈ l → f s a = some s' → ∃ t, List.Sublist t (k a) ∧ g s' = g s ++ t) →
      l.foldlM f s = some s' → ∃ t, List.Sublist t (l.flatMap k) ∧ g s' = g s ++ t := by
  intro l
  induction l with
  | nil =>
    intro s s' _ h
    simp only [List.foldlM_nil, Option.pure_def, Option.some.injEq] at h
    subst h
    exact ⟨[], by simp, by simp⟩
  | cons a l ih =>
    intro s s' hf h
    rw [List.foldlM_cons] at h
    obtain ⟨s1, h1, h2⟩ := Option.bind_eq_some.mp h
    obtain ⟨t1, ht1, e1⟩ := hf s a s1 (List.mem_cons_self _ _) h1
    obtain ⟨t2, ht2, e2⟩ := ih s1 s' (fun s b s' hb => hf s b s' (List.mem_cons_of_mem _ hb)) h2
    exact ⟨t1 ++ t2, by rw [List.flatMap_cons]; exact ht1.append ht2,
      by rw [e2, e1, List.append_assoc]⟩

theorem flatMap_singleton_map {α β : Type} (l : List α) (f : α → β) :
    (l.flatMap fun x => [f x]) = l.map f := by
  induction l with
  | nil => rfl
  | cons a l ih => rw [List.flatMap_cons, ih]; rfl

/-- C16: `trace_color_regions` returns at most 10 polygons, a polygon is stored only while
fewer than 10 are stored, every returned polygon starts with a seed candidate (a pixel of
the image whose `x` and `y` are multiples of 8), and the first points of the returned
polygons appear in the order in which the loops visit the seed candidates, row by row. -/
theorem trace_color_regions_seeds (img : image_t) (target : color_t) :
    (∀ (y : Nat) (st st' : trace_state) (x : Nat), trace_seed img target y st x = some st' →
      st'.polygons = st.polygons ∨
        (st.polygons.length < 10 ∧ ∃ p, st'.polygons = st.polygons ++ [p])) ∧
    ∃ polys, trace_color_regions img target = some polys ∧ polys.length ≤ 10 ∧
      (∀ p ∈ polys, ∃ x y : Nat, p.coords.head? = some ⟨x, y⟩ ∧ x % 8 = 0 ∧ y % 8 = 0 ∧
        x < img.width ∧ y < img.height) ∧
      List.Sublist (polys.map fun p => p.coords.head?) ((seed_candidates img).map some) := by
  have hstore : ∀ (y : Nat) (st st' : trace_state) (x : Nat),
      trace_seed img target y st x = some st' →
      st'.polygons = st.polygons ∨
        (st.polygons.length < 10 ∧ ∃ p, st'.polygons = st.polygons ++ [p]) := by
    intro y st st' x h
    rcases trace_seed_cases img target y st x with ⟨he, -⟩ | ⟨hl, -, -, r, -, hcase⟩
    · rw [he] at h
      obtain rfl := Option.some.inj h
      exact Or.inl rfl
    · rcases hcase with ⟨-, he⟩ | ⟨-, he⟩
      · rw [he] at h
        obtain rfl := Option.some.inj h
        exact Or.inr ⟨hl, _, rfl⟩
      · rw [he] at h
        obtain rfl := Option.some.inj h
        exact Or.inl rfl
  refine ⟨hstore, ?_⟩
  obtain ⟨st, hfold, hst, hlen⟩ := trace_color_regions_state_inv img target
    (fun st => st.polygons.length ≤ 10) (by simp) (by
      intro y x st st' _ _ _ _ hP h
      rcases hstore y st st' x h with he | ⟨hl, p, he⟩
      · rw [he]; exact hP
      · rw [he, List.length_append, List.length_singleton]; omega)
  have hrow : ∀ (y : Nat) (s s' : trace_state), y ∈ stride_range img.height 8 →
      trace_row img target s y = some s' →
      ∃ t, List.Sublist t
          ((stride_range img.width 8).flatMap fun x => [some (⟨x, y⟩ : coord_t Int)]) ∧
        (s'.polygons.map fun p => p.coords.head?) =
          (s.polygons.map fun p => p.coords.head?) ++ t := by
    intro y s s' hy h
    rw [mem_stride_range] at hy
    refine foldlM_option_sublist (trace_seed img target y)
      (fun st => st.polygons.map fun p => p.coords.head?)
      (fun x => [some (⟨x, y⟩ : coord_t Int)]) _ s s' ?_ h
    intro s x s' hx h
    rw [mem_stride_range] at hx
    rcases trace_seed_cases img target y s x with ⟨he, -⟩ | ⟨-, hv, hd, r, hr, hcase⟩
    · rw [he] at h
      obtain rfl := Option.some.inj h
      exact ⟨[], by simp, by simp⟩
    · rcases hcase with ⟨-, he⟩ | ⟨-, he⟩
      · rw [he] at h
        obtain rfl := Option.some.inj h
        refine ⟨[some ⟨x, y⟩], List.Sublist.refl _, ?_⟩
        simp only [List.map_append, List.map_cons, List.map_nil]
        rw [seed_fill_head img target x y s.visited r hx.1 hy.1 hv hd hr]
      · rw [he] at h
        obtain rfl := Option.some.inj h
        exact ⟨[], by simp, by simp⟩
  obtain ⟨t, ht, he⟩ := foldlM_option_sublist (trace_row img target)
    (fun st => st.polygons.map fun p => p.coords.head?)
    (fun y => (stride_range img.width 8).flatMap fun x => [some (⟨x, y⟩ : coord_t Int)])
    _ _ st (fun s y s' hy h => hrow y s s' hy h) hfold
  have hcand : ((stride_range img.height 8).flatMap fun y =>
      (stride_range img.width 8).flatMap fun x => [some (⟨x, y⟩ : coord_t Int)]) =
      (seed_candidates img).map some := by
    unfold seed_candidates
    rw [List.map_flatMap]
    congr 1
    funext y
    rw [flatMap_singleton_map, List.map_map]
    rfl
  simp only [List.map_nil, List.nil_append] at he
  rw [hcand] at ht
  rw [← he] at ht
  refine ⟨st.polygons, hst, hlen, ?_, ht⟩
  intro p hp
  have hm : p.coords.head? ∈ (seed_candidates img).map some :=
    ht.subset (List.mem_map_of_mem _ hp)
  obtain ⟨c, hc, hce⟩ := List.mem_map.mp hm
  unfold seed_candidates at hc
  obtain ⟨y, hy, hc⟩ := List.mem_flatMap.mp hc
  obtain ⟨x, hx, rfl⟩ := List.mem_map.mp hc
  rw [mem_stride_range] at hx hy
  exact ⟨x, y, hce.symm, hx.2, hy.2, hx.1, hy.1⟩

/-- The second pixel of `edge_image`, at distance exactly 20 from black, is not a seed. -/
theorem trace_seed_edge_image (st : trace_state) :
    trace_seed edge_image black 0 st 1 = some st := by
  rcases trace_seed_cases edge_image black 0 st 1 with ⟨h, -⟩ | ⟨-, -, hd, -⟩
  · exact h
  · exact absurd hd (by decide)

/-- C16, witness: the iteration at the second pixel of `edge_image`, which is not a seed for
black, stores nothing. -/
theorem trace_color_regions_seeds_witness :
    trace_seed edge_image black 0 { visited := [false, false], polygons := [] } 1 =
      some { visited := [false, false], polygons := [] } ∧
    (([] : List (polygon_t Int)) = [] ∨
      (([] : List (polygon_t Int)).length < 10 ∧ ∃ p, ([] : List (polygon_t Int)) = [] ++ [p])) :=
  ⟨trace_seed_edge_image _, (trace_color_regions_seeds edge_image black).1 0
    { visited := [false, false], polygons := [] }
    { visited := [false, false], polygons := [] } 1 (trace_seed_edge_image _)⟩

/-! ## Region tracing: the tolerance -/

/-- C20: in every polygon returned by `trace_color_regions` every point is a pixel of the
image at squared distance at most 400 (distance at most 20) from the target and the first
point is at squared distance below 400; a candidate at distance exactly 20 is never a
seed, while `flood_fill_region` absorbs an unvisited pixel of the image at distance exactly
20. -/
theorem trace_color_regions_tolerance (img : image_t) (target : color_t) :
    (∃ polys, trace_color_regions img target = some polys ∧ ∀ p ∈ polys,
      (∀ c ∈ p.coords, in_image img c.x c.y ∧ color_distance_sq (pixel_of img c) target ≤ 400) ∧
      ∃ c, p.coords.head? = some c ∧ color_distance_sq (pixel_of img c) target < 400) ∧
    (∀ (y : Nat) (st : trace_state) (x : Nat),
      color_distance_sq (pixel_at img ((y * img.width + x) * img.channels)) target = 400 →
      trace_seed img target y st x = some st) ∧
    (∀ (fuel : Nat) (x y : Int) (st st' : fill_state), in_image img x y →
      ¬ is_visited img st.visited x y →
      color_distance_sq (pixel_of img ⟨x, y⟩) target = 400 →
      flood_fill_region img target (fuel + 1) x y st = some st' →
      (st.polygon.coords ++ [⟨x, y⟩]) <+: st'.polygon.coords) := by
  refine ⟨?_, ?_, ?_⟩
  · obtain ⟨st, -, hst, -, hP⟩ := trace_color_regions_state_inv img target
      (fun st => st.visited.length = img.width * img.height ∧ ∀ p ∈ st.polygons,
        (∀ c ∈ p.coords, in_image img c.x c.y ∧
          color_distance_sq (pixel_of img c) target ≤ 400) ∧
        ∃ c, p.coords.head? = some c ∧ color_distance_sq (pixel_of img c) target < 400)
      (by simp) (by
        intro y x st st' hy _ hx _ hP h
        rcases trace_seed_cases img target y st x with ⟨he, -⟩ | ⟨-, hv, hd, r, hr, hcase⟩
        · rw [he] at h
          obtain rfl := Option.some.inj h
          exact hP
        · have hl := (flood_fill_region_visited_length img target _ _ _ _ _ hr).trans hP.1
          rcases hcase with ⟨-, he⟩ | ⟨-, he⟩
          · rw [he] at h
            obtain rfl := Option.some.inj h
            refine ⟨hl, fun p hp => ?_⟩
            rcases List.mem_append.mp hp with hp | hp
            · exact hP.2 p hp
            · rw [List.mem_singleton.mp hp]
              obtain ⟨new, hnew, -, hpts⟩ :=
                flood_fill_region_appended img target _ _ _ _ _ hr hP.1
              refine ⟨fun c hc => ?_, ⟨x, y⟩,
                seed_fill_head img target x y st.visited r hx hy hv hd hr, ?_⟩
              · rw [hnew] at hc
                obtain ⟨i1, i2, -, -⟩ := hpts c (by simpa using hc)
                refine ⟨i1, ?_⟩
                unfold within_tolerance at i2
                unfold pixel_of
                omega
              · unfold pixel_of
                rw [pixel_offset_cast]
                exact hd
          · rw [he] at h
            obtain rfl := Option.some.inj h
            exact ⟨hl, hP.2⟩)
    exact ⟨st.polygons, hst, hP⟩
  · intro y st x hd
    rcases trace_seed_cases img target y st x with ⟨he, -⟩ | ⟨-, -, hd', -⟩
    · exact he
    · omega
  · intro fuel x y st st' hin hv hd h
    have hd' : color_distance_sq
        (pixel_at img ((y * img.width + x) * img.channels).toNat) target = 400 := hd
    exact flood_fill_region_first img target _ _ _ _ _ h hin hv (by
      unfold within_tolerance
      omega)

/-- C20, witness: in `edge_image` the pixel `(1, 0)` is at distance exactly 20 from black;
it is not a seed, and the fill called on it absorbs it. -/
theorem trace_color_regions_tolerance_witness :
    color_distance_sq (pixel_of edge_image ⟨1, 0⟩) black = 400 ∧
    trace_seed edge_image black 0
      { visited := List.replicate (edge_image.width * edge_image.height) false, polygons := [] }
      1 = some
      { visited := List.replicate (edge_image.width * edge_image.height) false,
        polygons := [] } ∧
    ∃ st', flood_fill_region edge_image black 1000 1 0 (fresh_fill_state edge_image) =
        some st' ∧
      ((fresh_fill_state edge_image).polygon.coords ++ [⟨1, 0⟩]) <+: st'.polygon.coords := by
  refine ⟨by decide, (trace_color_regions_tolerance edge_image black).2.1 0 _ 1 (by decide), ?_⟩
  obtain ⟨st', h⟩ := flood_fill_region_total edge_image black 1000 1 0
    (fresh_fill_state edge_image) (by omega) (by decide)
  exact ⟨st', h, (trace_color_regions_tolerance edge_image black).2.2 999 1 0 _ st'
    ⟨by decide, by decide, by decide, by decide⟩ (by unfold is_visited; decide) (by decide) h⟩

/-! ## Region tracing: a pixel is absorbed once -/

/-- C15: within one call of `trace_color_regions` a pixel is absorbed at most once. Over a
fill, and over an iteration at a seed candidate, the bitmap only grows; the points a fill
appends are pairwise distinct, were unvisited when it started and are visited when it
returns; a visited candidate is not a seed; the points of the region filled at a seed are
visited afterwards whether the region is stored or dropped; and in the result no point
occurs twice in a polygon or in two polygons. -/
theorem trace_color_regions_absorbs_once (img : image_t) (target : color_t) :
    (∀ (fuel : Nat) (x y : Int) (st st' : fill_state),
      st.visited.length = img.width * img.height →
      flood_fill_region img target fuel x y st = some st' →
      (∀ p q, is_visited img st.visited p q → is_visited img st'.visited p q) ∧
      ∃ new, st'.polygon.coords = st.polygon.coords ++ new ∧ new.Nodup ∧
        ∀ c ∈ new, ¬ is_visited img st.visited c.x c.y ∧
          is_visited img st'.visited c.x c.y) ∧
    (∀ (y : Nat) (st st' : trace_state) (x : Nat),
      st.visited.length = img.width * img.height →
      trace_seed img target y st x = some st' →
      (∀ p q, is_visited img st.visited p q → is_visited img st'.visited p q) ∧
      (is_visited img st.visited x y → st' = st) ∧
      (∀ r, st.polygons.length < 10 → ¬ is_visited img st.visited x y →
        color_distance_sq (pixel_at img ((y * img.width + x) * img.channels)) target < 400 →
        flood_fill_region img target 1000 x y
          { visited := st.visited, polygon := { coords := [], capacity := 100 } } = some r →
        st'.visited = r.visited ∧
          ∀ c ∈ r.polygon.coords, is_visited img st'.visited c.x c.y)) ∧
    ∃ polys, trace_color_regions img target = some polys ∧
      (∀ p ∈ polys, p.coords.Nodup) ∧
      polys.Pairwise fun p q => ∀ c ∈ p.coords, c ∉ q.coords := by
  have hfill : ∀ (fuel : Nat) (x y : Int) (st st' : fill_state),
      st.visited.length = img.width * img.height →
      flood_fill_region img target fuel x y st = some st' →
      (∀ p q, is_visited img st.visited p q → is_visited img st'.visited p q) ∧
      ∃ new, st'.polygon.coords = st.polygon.coords ++ new ∧ new.Nodup ∧
        ∀ c ∈ new, ¬ is_visited img st.visited c.x c.y ∧
          is_visited img st'.visited c.x c.y := by
    intro fuel x y st st' hl h
    obtain ⟨new, e, d, hp⟩ := flood_fill_region_appended img target _ _ _ _ _ h hl
    exact ⟨flood_fill_region_is_visited_mono img target _ _ _ _ _ h, new, e, d,
      fun c hc => ⟨(hp c hc).2.2.1, (hp c hc).2.2.2⟩⟩
  have hvis : ∀ (y x : Nat) (v : List Bool),
      is_visited img v x y ↔ v.getD (y * img.width + x) false = true := by
    intro y x v
    unfold is_visited
    rw [pixel_index_cast]
  have hseed : ∀ (y : Nat) (st st' : trace_state) (x : Nat),
      st.visited.length = img.width * img.height →
      trace_seed img target y st x = some st' →
      (∀ p q, is_visited img st.visited p q → is_visited img st'.visited p q) ∧
      (is_visited img st.visited x y → st' = st) ∧
      (∀ r, st.polygons.length < 10 → ¬ is_visited img st.visited x y →
        color_distance_sq (pixel_at img ((y * img.width + x) * img.channels)) target < 400 →
        flood_fill_region img target 1000 x y
          { visited := st.visited, polygon := { coords := [], capacity := 100 } } = some r →
        st'.visited = r.visited ∧
          ∀ c ∈ r.polygon.coords, is_visited img st'.visited c.x c.y) := by
    intro y st st' x hl h
    rcases trace_seed_cases img target y st x with ⟨he, hno⟩ | ⟨h1, h2, h3, r, hr, hcase⟩
    · rw [he] at h
      obtain rfl := Option.some.inj h
      refine ⟨fun _ _ hv => hv, fun _ => rfl, fun r a1 a2 a3 _ => ?_⟩
      exact absurd ⟨a1, fun hv => a2 ((hvis y x _).mpr hv), a3⟩ hno
    · obtain ⟨hmono, new, e, -, hp⟩ := hfill _ _ _ _ _ hl hr
      have hv' : st'.visited = r.visited := by
        rcases hcase with ⟨-, he⟩ | ⟨-, he⟩ <;>
        · rw [he] at h
          obtain rfl := Option.some.inj h
          rfl
      refine ⟨fun p q hv => by rw [hv']; exact hmono p q hv,
        fun hv => absurd ((hvis y x _).mp hv) h2, fun r' _ _ _ hr' => ?_⟩
      rw [hr] at hr'
      obtain rfl := Option.some.inj hr'
      refine ⟨hv', fun c hc => ?_⟩
      rw [hv']
      rw [e] at hc
      exact (hp c (by simpa using hc)).2
  refine ⟨hfill, hseed, ?_⟩
  obtain ⟨st, -, hst, -, hP, hQ⟩ := trace_color_regions_state_inv img target
    (fun st => st.visited.length = img.width * img.height ∧
      (∀ p ∈ st.polygons, p.coords.Nodup ∧
        ∀ c ∈ p.coords, is_visited img st.visited c.x c.y) ∧
      st.polygons.Pairwise fun p q => ∀ c ∈ p.coords, c ∉ q.coords)
    (by simp) (by
      intro y x st st' _ _ _ _ hP h
      obtain ⟨hl, hpts, hpair⟩ := hP
      obtain ⟨hmono, -, -⟩ := hseed y st st' x hl h
      rcases trace_seed_cases img target y st x with ⟨he, -⟩ | ⟨-, -, -, r, hr, hcase⟩
      · rw [he] at h
        obtain rfl := Option.some.inj h
        exact ⟨hl, hpts, hpair⟩
      · have hl' := (flood_fill_region_visited_length img target _ _ _ _ _ hr).trans hl
        obtain ⟨-, new, e, d, hp⟩ := hfill _ _ _ _ _ hl hr
        simp only [List.nil_append] at e
        rcases hcase with ⟨-, he⟩ | ⟨-, he⟩
        · rw [he] at h
          obtain rfl := Option.some.inj h
          refine ⟨hl', fun p hp' => ?_, ?_⟩
          · rcases List.mem_append.mp hp' with hp' | hp'
            · exact ⟨(hpts p hp').1, fun c hc => hmono _ _ ((hpts p hp').2 c hc)⟩
            · rw [List.mem_singleton.mp hp', e]
              exact ⟨d, fun c hc => (hp c hc).2⟩
          · rw [List.pairwise_append]
            refine ⟨hpair, List.pairwise_singleton _ _, fun p hp' q hq c hc hcq => ?_⟩
            rw [List.mem_singleton.mp hq, e] at hcq
            exact (hp c hcq).1 ((hpts p hp').2 c hc)
        · rw [he] at h
          obtain rfl := Option.some.inj h
          exact ⟨hl', fun p hp' => ⟨(hpts p hp').1, fun c hc => hmono _ _ ((hpts p hp').2 c hc)⟩,
            hpair⟩)
  exact ⟨st.polygons, hst, fun p hp => (hP p hp).1, hQ⟩

/-- C15, witness: the fill of `edge_image` from `(0, 0)` with nothing visited. -/
theorem trace_color_regions_absorbs_once_witness :
    ∃ st', flood_fill_region edge_image black 1000 0 0 (fresh_fill_state edge_image) =
        some st' ∧
      (∀ p q, is_visited edge_image (fresh_fill_state edge_image).visited p q →
        is_visited edge_image st'.visited p q) ∧
      ∃ new, st'.polygon.coords = (fresh_fill_state edge_image).polygon.coords ++ new ∧
        new.Nodup ∧
        ∀ c ∈ new, ¬ is_visited edge_image (fresh_fill_state edge_image).visited c.x c.y ∧
          is_visited edge_image st'.visited c.x c.y := by
  obtain ⟨st', h⟩ := flood_fill_region_total edge_image black 1000 0 0
    (fresh_fill_state edge_image) (by omega) (by decide)
  exact ⟨st', h, (trace_color_regions_absorbs_once edge_image black).1 1000 0 0 _ st'
    (by decide) h⟩

/-! ## Flood fill: the order of the points -/

theorem absorbable_iff (img : image_t) (target : color_t) (v : List Bool) (x y : Int) :
    absorbable img target v x y = true ↔
      in_image img x y ∧ ¬ is_visited img v x y ∧ within_tolerance img target x y := by
  simp only [absorbable, in_image, is_visited, within_tolerance, Bool.and_eq_true,
    decide_eq_true_eq, Bool.not_eq_true', not_lt, gt_iff_lt, Bool.not_eq_true]
  tauto

/-- A call on a pixel that is not absorbable changes nothing. -/
theorem flood_fill_region_noop (img : image_t) (target : color_t) (fuel : Nat)
    (x y : Int) (st st' : fill_state)
    (h : flood_fill_region img target fuel x y st = some st')
    (hn : absorbable img target st.visited x y = false) : st' = st := by
  cases fuel with
  | zero => simp [flood_fill_region] at h
  | succ fuel =>
    rcases flood_fill_region_cases img target fuel x y st st' h with ⟨rfl, -⟩ | ⟨h1, h2, h3, -⟩
    · rfl
    · have := (absorbable_iff img target st.visited x y).mpr ⟨h1, h2, h3⟩
      rw [hn] at this
      exact absurd this (by decide)

/-- The depth-first order: a call that starts on `(x, y)` appends `(x, y)` and then, as
long as the points follow the order, the first absorbable neighbour of the last point. -/
theorem flood_fill_region_order (img : image_t) (target : color_t) :
    ∀ (path : List (coord_t Int)) (fuel : Nat) (x y : Int) (st st' : fill_state),
      flood_fill_region img target fuel x y st = some st' →
      follows_order img target st x y path = true →
      (st.polygon.coords ++ ⟨x, y⟩ :: path) <+: st'.polygon.coords := by
  intro path
  induction path with
  | nil =>
    intro fuel x y st st' h hf
    obtain ⟨h1, h2, h3⟩ := (absorbable_iff img target st.visited x y).mp hf
    exact flood_fill_region_first img target _ _ _ _ _ h h1 h2 h3
  | cons n rest ih =>
    intro fuel x y st st' h hf
    simp only [follows_order, Bool.and_eq_true, decide_eq_true_eq] at hf
    obtain ⟨⟨⟨ha, hc⟩, hfirst⟩, hrest⟩ := hf
    cases fuel with
    | zero => simp [flood_fill_region] at h
    | succ fuel =>
      rcases flood_fill_region_cases img target fuel x y st st' h with
        ⟨-, hno⟩ | ⟨-, -, -, ⟨hcap, -⟩ | ⟨-, s1, s2, s3, h1, h2, h3, h4⟩⟩
      · exact absurd ((absorbable_iff img target st.visited x y).mp ha) hno
      · omega
      · have p2 := flood_fill_region_coords_grow _ _ _ _ _ _ _ h2
        have p3 := flood_fill_region_coords_grow _ _ _ _ _ _ _ h3
        have p4 := flood_fill_region_coords_grow _ _ _ _ _ _ _ h4
        have hcoords : st.polygon.coords ++ ⟨x, y⟩ :: n :: rest =
            (absorb img x y st).polygon.coords ++ n :: rest := by
          rw [absorb_coords]; simp
        rw [hcoords]
        simp only [first_absorbable, List.find?_cons] at hfirst
        cases a1 : absorbable img target (absorb img x y st).visited (x + 1) y with
        | true =>
          simp only [a1] at hfirst
          obtain rfl := Option.some.inj hfirst
          exact (((ih _ _ _ _ _ h1 hrest).trans p2).trans p3).trans p4
        | false =>
          simp only [a1] at hfirst
          obtain rfl := flood_fill_region_noop _ _ _ _ _ _ _ h1 a1
          cases a2 : absorbable img target (absorb img x y st).visited (x - 1) y with
          | true =>
            simp only [a2] at hfirst
            obtain rfl := Option.some.inj hfirst
            exact ((ih _ _ _ _ _ h2 hrest).trans p3).trans p4
          | false =>
            simp only [a2] at hfirst
            obtain rfl := flood_fill_region_noop _ _ _ _ _ _ _ h2 a2
            cases a3 : absorbable img target (absorb img x y st).visited x (y + 1) with
            | true =>
              simp only [a3] at hfirst
              obtain rfl := Option.some.inj hfirst
              exact (ih _ _ _ _ _ h3 hrest).trans p4
            | false =>
              simp only [a3] at hfirst
              obtain rfl := flood_fill_region_noop _ _ _ _ _ _ _ h3 a3
              cases a4 : absorbable img target (absorb img x y st).visited x (y - 1) with
              | true =>
                simp only [a4] at hfirst
                obtain rfl := Option.some.inj hfirst
                exact ih _ _ _ _ _ h4 hrest
              | false =>
                simp only [a4, List.find?_nil] at hfirst
                exact absurd hfirst (by simp)

theorem sample_path_follows :
    follows_order sample_image sandstone (fresh_fill_state sample_image) 0 0 sample_path =
      true := by
  decide

/-- Marking `(x, y)` does not change which other pixels are absorbable. -/
theorem absorbable_absorb (img : image_t) (target : color_t) (x y p q : Int)
    (st : fill_state) (hin : in_image img x y) (hne : ¬ (p = x ∧ q = y)) :
    absorbable img target (absorb img x y st).visited p q =
      absorbable img target st.visited p q := by
  rw [Bool.eq_iff_iff, absorbable_iff, absorbable_iff]
  constructor
  · rintro ⟨h1, h2, h3⟩
    exact ⟨h1, fun hv => h2 ((absorb_visited img x y st _).mpr (Or.inr hv)), h3⟩
  · rintro ⟨h1, h2, h3⟩
    refine ⟨h1, fun hv => ?_, h3⟩
    rcases (absorb_visited img x y st _).mp hv with ⟨he, -⟩ | hv
    · exact hne (pixel_index_inj img x y p q hin h1 he)
    · exact h2 hv

theorem first_absorbable_absorb (img : image_t) (target : color_t) (x y : Int)
    (st : fill_state) (hin : in_image img x y) :
    first_absorbable img target (absorb img x y st).visited x y =
      first_absorbable img target st.visited x y := by
  simp only [first_absorbable, List.find?_cons,
    absorbable_absorb img target x y (x + 1) y st hin (by omega),
    absorbable_absorb img target x y (x - 1) y st hin (by omega),
    absorbable_absorb img target x y x (y + 1) st hin (by omega),
    absorbable_absorb img target x y x (y - 1) st hin (by omega), List.find?_nil]

/-- Every way a call of `flood_fill_region` on `(x, y)` can return, with the points it
appends: none when `(x, y)` is not absorbable; `(x, y)` alone at the cap; and below the cap
`(x, y)` followed by what the calls on `(x+1, y)`, `(x-1, y)`, `(x, y+1)`, `(x, y-1)`
append, made in this order, each from the state the one before has left. -/
theorem flood_fill_region_decompose (img : image_t) (target : color_t) (fuel : Nat)
    (x y : Int) (st st' : fill_state)
    (h : flood_fill_region img target (fuel + 1) x y st = some st') :
    (absorbable img target st.visited x y = false ∧ st' = st) ∨
    (absorbable img target st.visited x y = true ∧
      1000 ≤ (absorb img x y st).polygon.count ∧ st' = absorb img x y st ∧
      st'.polygon.coords = st.polygon.coords ++ [⟨x, y⟩]) ∨
    (absorbable img target st.visited x y = true ∧
      (absorb img x y st).polygon.count < 1000 ∧
      ∃ (s1 s2 s3 : fill_state) (n1 n2 n3 n4 : List (coord_t Int)),
        flood_fill_region img target fuel (x + 1) y (absorb img x y st) = some s1 ∧
        s1.polygon.coords = (absorb img x y st).polygon.coords ++ n1 ∧
        flood_fill_region img target fuel (x - 1) y s1 = some s2 ∧
        s2.polygon.coords = s1.polygon.coords ++ n2 ∧
        flood_fill_region img target fuel x (y + 1) s2 = some s3 ∧
        s3.polygon.coords = s2.polygon.coords ++ n3 ∧
        flood_fill_region img target fuel x (y - 1) s3 = some st' ∧
        st'.polygon.coords = s3.polygon.coords ++ n4 ∧
        st'.polygon.coords = st.polygon.coords ++ ⟨x, y⟩ :: (n1 ++ n2 ++ n3 ++ n4)) := by
  rcases flood_fill_region_cases img target fuel x y st st' h with
    ⟨rfl, hno⟩ | ⟨hin, hv, ht, ⟨hcap, rfl⟩ | ⟨hcap, s1, s2, s3, h1, h2, h3, h4⟩⟩
  · left
    refine ⟨?_, rfl⟩
    cases ha : absorbable img target st'.visited x y with
    | false => rfl
    | true => exact absurd ((absorbable_iff img target _ x y).mp ha) hno
  · right; left
    exact ⟨(absorbable_iff img target _ x y).mpr ⟨hin, hv, ht⟩, hcap, rfl,
      absorb_coords img x y st⟩
  · right; right
    obtain ⟨n1, e1⟩ := flood_fill_region_coords_grow img target _ _ _ _ _ h1
    obtain ⟨n2, e2⟩ := flood_fill_region_coords_grow img target _ _ _ _ _ h2
    obtain ⟨n3, e3⟩ := flood_fill_region_coords_grow img target _ _ _ _ _ h3
    obtain ⟨n4, e4⟩ := flood_fill_region_coords_grow img target _ _ _ _ _ h4
    refine ⟨(absorbable_iff img target _ x y).mpr ⟨hin, hv, ht⟩, hcap,
      s1, s2, s3, n1, n2, n3, n4, h1, e1.symm, h2, e2.symm, h3, e3.symm, h4, e4.symm, ?_⟩
    rw [← e4, ← e3, ← e2, ← e1, absorb_coords]
    simp only [List.append_assoc, List.singleton_append, List.cons_append, List.nil_append]

/-- The fill of `plus_image` from its centre: the centre, then its neighbours in the order
`+x, -x, +y, -y`. -/
theorem plus_image_fill :
    (flood_fill_region plus_image black 1000 1 1 (fresh_fill_state plus_image)).map
      (fun r => r.polygon.coords) = some [⟨1, 1⟩, ⟨2, 1⟩, ⟨0, 1⟩, ⟨1, 2⟩, ⟨1, 0⟩] := by
  decide

/-- C18: the points of a region come in depth-first preorder with the neighbour priority
`+x, -x, +y, -y`. The points a call on `(x, y)` appends are none when `(x, y)` is not
absorbable, `(x, y)` alone at the cap, and otherwise `(x, y)` followed by the points the
calls on `(x+1, y)`, `(x-1, y)`, `(x, y+1)`, `(x, y-1)` append, in this order, each call
starting from the state the one before has left. So a call that starts on `(x, y)` appends
`(x, y)` and then, point after point, the first absorbable neighbour of the point before;
the second point of a region filled from a seed, when there is one, is the first of
`(x+1, y)`, `(x-1, y)`, `(x, y+1)`, `(x, y-1)` that is a pixel of the image, unvisited and
within tolerance; the fill of the uniform 16 x 16 image from `(0, 0)` starts
`(0,0), (1,0), ..., (15,0), (15,1), (14,1)`; and the fill of the plus-shaped 3 x 3 image
from its centre gives `(1,1), (2,1), (0,1), (1,2), (1,0)`. -/
theorem flood_fill_region_depth_first (img : image_t) (target : color_t) :
    (∀ (path : List (coord_t Int)) (fuel : Nat) (x y : Int) (st st' : fill_state),
      flood_fill_region img target fuel x y st = some st' →
      follows_order img target st x y path = true →
      (st.polygon.coords ++ ⟨x, y⟩ :: path) <+: st'.polygon.coords) ∧
    (∀ (x y : Int) (v : List Bool) (r : fill_state) (c : coord_t Int),
      flood_fill_region img target 1000 x y
        { visited := v, polygon := { coords := [], capacity := 100 } } = some r →
      r.polygon.coords[1]? = some c →
      r.polygon.coords[0]? = some ⟨x, y⟩ ∧ first_absorbable img target v x y = some c) ∧
    (∀ (fuel : Nat) (x y : Int) (st st' : fill_state),
      flood_fill_region img target (fuel + 1) x y st = some st' →
      (absorbable img target st.visited x y = false ∧ st' = st) ∨
      (absorbable img target st.visited x y = true ∧
        1000 ≤ (absorb img x y st).polygon.count ∧ st' = absorb img x y st ∧
        st'.polygon.coords = st.polygon.coords ++ [⟨x, y⟩]) ∨
      (absorbable img target st.visited x y = true ∧
        (absorb img x y st).polygon.count < 1000 ∧
        ∃ (s1 s2 s3 : fill_state) (n1 n2 n3 n4 : List (coord_t Int)),
          flood_fill_region img target fuel (x + 1) y (absorb img x y st) = some s1 ∧
          s1.polygon.coords = (absorb img x y st).polygon.coords ++ n1 ∧
          flood_fill_region img target fuel (x - 1) y s1 = some s2 ∧
          s2.polygon.coords = s1.polygon.coords ++ n2 ∧
          flood_fill_region img target fuel x (y + 1) s2 = some s3 ∧
          s3.polygon.coords = s2.polygon.coords ++ n3 ∧
          flood_fill_region img target fuel x (y - 1) s3 = some st' ∧
          st'.polygon.coords = s3.polygon.coords ++ n4 ∧
          st'.polygon.coords = st.polygon.coords ++ ⟨x, y⟩ :: (n1 ++ n2 ++ n3 ++ n4))) ∧
    (∃ r, flood_fill_region sample_image sandstone 1000 0 0 (fresh_fill_state sample_image) =
        some r ∧
      (⟨0, 0⟩ :: sample_path) <+: r.polygon.coords) ∧
    (flood_fill_region plus_image black 1000 1 1 (fresh_fill_state plus_image)).map
      (fun r => r.polygon.coords) = some [⟨1, 1⟩, ⟨2, 1⟩, ⟨0, 1⟩, ⟨1, 2⟩, ⟨1, 0⟩] := by
  refine ⟨flood_fill_region_order img target, ?_,
    flood_fill_region_decompose img target, ?_, plus_image_fill⟩
  · intro x y v r c h hc
    cases ha : absorbable img target v x y with
    | false =>
      obtain rfl := flood_fill_region_noop _ _ _ _ _ _ _ h ha
      simp at hc
    | true =>
      have hin := ((absorbable_iff img target v x y).mp ha).1
      rcases flood_fill_region_cases img target 999 x y _ r h with
        ⟨-, hno⟩ | ⟨-, -, -, ⟨hcap, -⟩ | ⟨-, s1, s2, s3, h1, h2, h3, h4⟩⟩
      · exact absurd ((absorbable_iff img target v x y).mp ha) hno
      · rw [absorb_count] at hcap
        simp [polygon_t.count] at hcap
      · cases hf : first_absorbable img target
            (absorb img x y { visited := v, polygon := { coords := [], capacity := 100 } }).visited
            x y with
        | none =>
          rw [first_absorbable, List.find?_eq_none] at hf
          have a1 := hf ⟨x + 1, y⟩ (by simp)
          have a2 := hf ⟨x - 1, y⟩ (by simp)
          have a3 := hf ⟨x, y + 1⟩ (by simp)
          have a4 := hf ⟨x, y - 1⟩ (by simp)
          simp only [Bool.not_eq_true] at a1 a2 a3 a4
          obtain rfl := flood_fill_region_noop _ _ _ _ _ _ _ h1 a1
          obtain rfl := flood_fill_region_noop _ _ _ _ _ _ _ h2 a2
          obtain rfl := flood_fill_region_noop _ _ _ _ _ _ _ h3 a3
          obtain rfl := flood_fill_region_noop _ _ _ _ _ _ _ h4 a4
          rw [absorb_coords] at hc
          simp at hc
        | some n =>
          have hn := List.find?_some (by rw [first_absorbable] at hf; exact hf)
          have hfo : follows_order img target
              { visited := v, polygon := { coords := [], capacity := 100 } } x y [n] = true := by
            simp only [follows_order, Bool.and_eq_true, decide_eq_true_eq]
            refine ⟨⟨⟨ha, ?_⟩, hf⟩, hn⟩
            rw [absorb_count]
            simp [polygon_t.count]
          obtain ⟨t, ht⟩ := flood_fill_region_order img target [n] _ _ _ _ _ h hfo
          rw [first_absorbable_absorb img target x y _ hin] at hf
          rw [← ht] at hc ⊢
          simp only [List.nil_append, List.cons_append, List.getElem?_cons_succ,
            List.getElem?_cons_zero, Option.some.injEq] at hc
          subst hc
          exact ⟨rfl, hf⟩
  · obtain ⟨r, h⟩ := flood_fill_region_total sample_image sandstone 1000 0 0
      (fresh_fill_state sample_image) (by omega) (by decide)
    exact ⟨r, h, flood_fill_region_order sample_image sandstone sample_path _ _ _ _ _ h
      sample_path_follows⟩

/-- C18, witness: the second point of the fill of the 16 x 16 image from `(0, 0)` is
`(1, 0)`, the first absorbable neighbour of the seed. -/
theorem flood_fill_region_depth_first_witness :
    ∃ r, flood_fill_region sample_image sandstone 1000 0 0
        { visited := List.replicate (sample_image.width * sample_image.height) false
          polygon := { coords := [], capacity := 100 } } = some r ∧
      r.polygon.coords[1]? = some ⟨1, 0⟩ ∧
      r.polygon.coords[0]? = some ⟨0, 0⟩ ∧
      first_absorbable sample_image sandstone
        (List.replicate (sample_image.width * sample_image.height) false) 0 0 =
        some ⟨1, 0⟩ := by
  obtain ⟨r, h, t, ht⟩ := (flood_fill_region_depth_first sample_image sandstone).2.2.2.1
  have h1 : r.polygon.coords[1]? = some ⟨1, 0⟩ := by rw [← ht]; rfl
  exact ⟨r, h, h1,
    (flood_fill_region_depth_first sample_image sandstone).2.1 0 0 _ r ⟨1, 0⟩ h h1⟩

/-! ## Flood fill: termination -/

/-- The number of unset entries of the bitmap does not grow over a call. -/
theorem flood_fill_region_unvisited_le (img : image_t) (target : color_t) (fuel : Nat)
    (x y : Int) (st st' : fill_state)
    (h : flood_fill_region img target fuel x y st = some st')
    (hlen : st.visited.length = img.width * img.height) :
    st'.visited.count false ≤ st.visited.count false := by
  have hm := flood_fill_region_measure img target _ _ _ _ _ h hlen
  have hc := (flood_fill_region_count img target _ _ _ _ _ h).1
  omega

/-- Fuel above the number of unvisited pixels is enough for `flood_fill_region` to return,
whatever the point count. -/
theorem flood_fill_region_total_measure (img : image_t) (target : color_t) :
    ∀ (fuel : Nat) (x y : Int) (st : fill_state),
      st.visited.length = img.width * img.height → st.visited.count false < fuel →
      ∃ st', flood_fill_region img target fuel x y st = some st' := by
  intro fuel
  induction fuel with
  | zero => intro x y st _ h; omega
  | succ fuel ih =>
    intro x y st hlen hf
    by_cases hb : x < 0 ∨ x ≥ img.width ∨ y < 0 ∨ y ≥ img.height
    · exact ⟨st, flood_fill_region_outside _ _ _ _ _ _ hb⟩
    · by_cases hv : st.visited.getD (y * img.width + x).toNat false = true
      · exact ⟨st, flood_fill_region_visited _ _ _ _ _ _ hv⟩
      · by_cases hc : color_distance_sq
            (pixel_at img ((y * img.width + x) * img.channels).toNat) target > 400
        · exact ⟨st, by simp only [flood_fill_region, if_neg hb, if_neg hv, if_pos hc]⟩
        · rw [flood_fill_region_absorb _ _ _ _ _ _ hb hv hc]
          split_ifs with hcap
          · have hin : in_image img x y := by unfold in_image; omega
            have hi := pixel_index_lt img x y hin
            rw [← hlen] at hi
            have hdec := count_false_set st.visited _ hi hv
            have l0 : (absorb img x y st).visited.length = img.width * img.height := by
              rw [absorb_visited_length, hlen]
            have m0 : (absorb img x y st).visited.count false < fuel := by
              simp only [absorb]; omega
            obtain ⟨s1, h1⟩ := ih (x + 1) y _ l0 m0
            have l1 := (flood_fill_region_visited_length img target _ _ _ _ _ h1).trans l0
            have m1 := flood_fill_region_unvisited_le img target _ _ _ _ _ h1 l0
            obtain ⟨s2, h2⟩ := ih (x - 1) y s1 l1 (by omega)
            have l2 := (flood_fill_region_visited_length img target _ _ _ _ _ h2).trans l1
            have m2 := flood_fill_region_unvisited_le img target _ _ _ _ _ h2 l1
            obtain ⟨s3, h3⟩ := ih x (y + 1) s2 l2 (by omega)
            have l3 := (flood_fill_region_visited_length img target _ _ _ _ _ h3).trans l2
            have m3 := flood_fill_region_unvisited_le img target _ _ _ _ _ h3 l2
            obtain ⟨s4, h4⟩ := ih x (y - 1) s3 l3 (by omega)
            exact ⟨s4, by simp [h1, h2, h3, h4]⟩
          · exact ⟨_, rfl⟩

/-- C19: on a bitmap of the image's size `flood_fill_region` terminates, whatever the
start pixel, the bitmap and the point count: fuel above the number of unvisited pixels is
enough. A call returns without recursing or first marks a pixel of the image that was
unvisited, which lowers the number of unvisited pixels by one; over a call the points
appended are as many as the pixels newly marked, so at most `width * height`. -/
theorem flood_fill_region_terminates (img : image_t) (target : color_t) :
    (∀ (fuel : Nat) (x y : Int) (st : fill_state),
      st.visited.length = img.width * img.height → st.visited.count false < fuel →
      ∃ st', flood_fill_region img target fuel x y st = some st') ∧
    (∀ (fuel : Nat) (x y : Int) (st st' : fill_state),
      flood_fill_region img target (fuel + 1) x y st = some st' →
      st' = st ∨
      (in_image img x y ∧ ¬ is_visited img st.visited x y ∧
        (st' = absorb img x y st ∨ ∃ s1 s2 s3,
          flood_fill_region img target fuel (x + 1) y (absorb img x y st) = some s1 ∧
          flood_fill_region img target fuel (x - 1) y s1 = some s2 ∧
          flood_fill_region img target fuel x (y + 1) s2 = some s3 ∧
          flood_fill_region img target fuel x (y - 1) s3 = some st'))) ∧
    (∀ (x y : Int) (st : fill_state), st.visited.length = img.width * img.height →
      in_image img x y → ¬ is_visited img st.visited x y →
      (absorb img x y st).visited.count false + 1 = st.visited.count false) ∧
    (∀ (fuel : Nat) (x y : Int) (st st' : fill_state),
      st.visited.length = img.width * img.height →
      flood_fill_region img target fuel x y st = some st' →
      st'.polygon.count + st'.visited.count false =
        st.polygon.count + st.visited.count false ∧
      st'.visited.count false ≤ st.visited.count false ∧
      st'.polygon.count ≤ st.polygon.count + img.width * img.height) := by
  refine ⟨flood_fill_region_total_measure img target, ?_, ?_, ?_⟩
  · intro fuel x y st st' h
    rcases flood_fill_region_cases img target fuel x y st st' h with
      ⟨rfl, -⟩ | ⟨hin, hv, -, ⟨-, rfl⟩ | ⟨-, s1, s2, s3, h1, h2, h3, h4⟩⟩
    · exact Or.inl rfl
    · exact Or.inr ⟨hin, hv, Or.inl rfl⟩
    · exact Or.inr ⟨hin, hv, Or.inr ⟨s1, s2, s3, h1, h2, h3, h4⟩⟩
  · intro x y st hlen hin hv
    have hi := pixel_index_lt img x y hin
    rw [← hlen] at hi
    exact count_false_set st.visited _ hi hv
  · intro fuel x y st st' hlen h
    have hm := flood_fill_region_measure img target _ _ _ _ _ h hlen
    have hle := flood_fill_region_unvisited_le img target _ _ _ _ _ h hlen
    have hb : st.visited.count false ≤ st.visited.length := List.count_le_length false _
    exact ⟨hm, hle, by omega⟩

/-- C19, witness: the fill of the 16 x 16 image, 256 pixels unvisited, with fuel 257. -/
theorem flood_fill_region_terminates_witness :
    (fresh_fill_state sample_image).visited.length = sample_image.width * sample_image.height ∧
    (fresh_fill_state sample_image).visited.count false < 257 ∧
    ∃ st', flood_fill_region sample_image sandstone 257 0 0 (fresh_fill_state sample_image) =
      some st' :=
  ⟨by simp [fresh_fill_state],
    by rw [fresh_fill_state_count_false]; decide,
    (flood_fill_region_terminates sample_image sandstone).1 257 0 0
      (fresh_fill_state sample_image) (by simp [fresh_fill_state])
      (by rw [fresh_fill_state_count_false]; decide)⟩

/-! ## Enrichment: a lookup that fails -/

theorem write_escaped_no_key (info : List Char) : classification_key ∉ write_escaped info := by
  intro h
  unfold write_escaped at h
  obtain ⟨c, -, hc⟩ := List.mem_flatMap.mp h
  split_ifs at hc <;>
  · rw [List.mem_singleton] at hc
    exact absurd hc (by simp [classification_key])

theorem enrich_features_get (lookup : Nat → ℚ → ℚ → Int × Option (List Char))
    (features : List geological_feature_t) :
    ∀ (i j : Nat), (enrich_features lookup i features).1[j]? =
      features[j]?.map fun f => (enrich_feature lookup (i + j) f).1 := by
  induction features with
  | nil => intro i j; simp [enrich_features]
  | cons f fs ih =>
    intro i j
    cases j with
    | zero => simp [enrich_features]
    | succ j =>
      simp only [enrich_features, List.getElem?_cons_succ, ih]
      congr 1
      funext g
      rw [Nat.add_assoc, Nat.add_comm 1 j]

/-- C11: when the lookup for a feature fails (a non-zero return value, or no text), the
enrichment leaves the feature as it was; a feature whose classification is unset is
written without a "classification" entry, while `feature_id`, `dominant_color`,
`polygon_count` and the geometry are written for every feature; the lookup made for one
feature does not change the enrichment of another, and no lookup changes the value
returned. -/
theorem enrich_feature_lookup_failure
    (lookup : Nat → ℚ → ℚ → Int × Option (List Char)) (i : Nat)
    (feature : geological_feature_t) :
    (((lookup i (centroid (feature.polygons.getD 0 ⟨[], 0⟩)).1
        (centroid (feature.polygons.getD 0 ⟨[], 0⟩)).2).1 ≠ 0 ∨
      (lookup i (centroid (feature.polygons.getD 0 ⟨[], 0⟩)).1
        (centroid (feature.polygons.getD 0 ⟨[], 0⟩)).2).2 = none) →
      (enrich_feature lookup i feature).1 = feature) ∧
    (feature.lithology = none → classification_key ∉ write_properties i feature) ∧
    ([piece.text "        \"feature_id\": ", piece.int i, piece.text ",\n",
        piece.text "        \"dominant_color\": \"rgb(", piece.int feature.dominant_color.r,
        piece.text ",", piece.int feature.dominant_color.g, piece.text ",",
        piece.int feature.dominant_color.b, piece.text ")\",\n"]
      <:+: write_properties i feature) ∧
    ([piece.text "        \"polygon_count\": ", piece.int feature.polygon_count,
        piece.text "\n", piece.text "      \x7d,\n"] <:+ write_properties i feature) ∧
    (∀ rest, (write_properties i feature ++ write_geometry feature)
      <:+: write_features i (feature :: rest)) ∧
    (∀ (other : Nat → ℚ → ℚ → Int × Option (List Char)) (features : List geological_feature_t)
      (j : Nat), j ≠ i → (∀ x y, other j x y = lookup j x y) →
      (enrich_features other 0 features).1[j]? = (enrich_features lookup 0 features).1[j]?) ∧
    (∀ (other : Nat → ℚ → ℚ → Int × Option (List Char)) (file_creates : Bool)
      (result : vectorization_result_t),
      (vectorize_result other file_creates result).1 =
        (vectorize_result lookup file_creates result).1) := by
  refine ⟨?_, ?_, ?_, ?_, ?_, ?_, ?_⟩
  · intro hfail
    unfold enrich_feature
    split_ifs with h
    · simp only
      rcases hfail with hcode | htext
      · cases hr : (lookup i (centroid (feature.polygons.getD 0 ⟨[], 0⟩)).1
            (centroid (feature.polygons.getD 0 ⟨[], 0⟩)).2).2 with
        | none => rfl
        | some info => simp only [if_neg hcode]
      · rw [htext]
    · rfl
  · intro hl hmem
    unfold write_properties at hmem
    rw [hl] at hmem
    simp only [List.append_nil, List.mem_append, List.mem_cons, List.mem_singleton,
      List.not_mem_nil, or_false] at hmem
    rcases hmem with (((hm | hm) | hm) | hm) | hm
    · rcases hm with h | h | h | h | h | h | h | h | h | h | h | h | h <;>
        exact absurd h (by simp [classification_key])
    · cases ha : feature.age with
      | none => rw [ha] at hm; simp at hm
      | some a =>
        rw [ha] at hm
        simp only [List.mem_cons, List.mem_singleton, List.not_mem_nil, or_false] at hm
        rcases hm with h | h | h <;> exact absurd h (by simp [classification_key])
    · cases hu : feature.geological_unit with
      | none => rw [hu] at hm; simp at hm
      | some a =>
        rw [hu] at hm
        simp only [List.mem_cons, List.mem_singleton, List.not_mem_nil, or_false] at hm
        rcases hm with h | h | h <;> exact absurd h (by simp [classification_key])
    · cases hf : feature.feature_info with
      | none => rw [hf] at hm; simp at hm
      | some info =>
        rw [hf] at hm
        simp only [List.mem_append, List.mem_singleton] at hm
        rcases hm with (h | h) | h
        · exact absurd h (by simp [classification_key])
        · exact write_escaped_no_key info h
        · exact absurd h (by simp [classification_key])
    · rcases hm with h | h | h | h <;> exact absurd h (by simp [classification_key])
  · unfold write_properties
    simp only [List.append_assoc]
    exact ⟨[piece.text "    \x7b\n", piece.text "      \"type\": \"Feature\",\n",
      piece.text "      \"properties\": \x7b\n"], _, rfl⟩
  · unfold write_properties
    exact List.suffix_append _ _
  · intro rest
    rw [write_features]
    exact ⟨if i > 0 then [piece.text ",\n"] else [],
      [piece.text "    \x7d"] ++ write_features (i + 1) rest, by simp only [List.append_assoc]⟩
  · intro other features j hj hsame
    rw [enrich_features_get, enrich_features_get]
    have : ∀ f, (enrich_feature other (0 + j) f).1 = (enrich_feature lookup (0 + j) f).1 := by
      intro f
      unfold enrich_feature
      simp only [hsame, Nat.zero_add]
    simp only [this]
  · intro other file_creates result
    simp only [vectorize_result, write_geojson_file]
    split_ifs <;> rfl

/-- C11, witness: a feature with one polygon and no classification, and a lookup that
fails: the feature is left as it was and is written without a "classification" entry. -/
theorem enrich_feature_lookup_failure_witness :
    (enrich_feature failing_lookup 0 point_feature).1 = point_feature ∧
    classification_key ∉ write_properties 0 point_feature :=
  ⟨(enrich_feature_lookup_failure failing_lookup 0 point_feature).1 (Or.inr rfl),
    (enrich_feature_lookup_failure failing_lookup 0 point_feature).2.1 rfl⟩

/-! ## Assembly: one feature per colour with a kept region -/

theorem analyze_color_eq (img : image_t) (minx miny maxx maxy : ℚ)
    (features : List geological_feature_t) (c : color_t) :
    analyze_color img minx miny maxx maxy features c =
      some (features ++ (kept_feature img minx miny maxx maxy c).toList) := by
  obtain ⟨polys, h, -⟩ := trace_color_regions_inv img c (fun _ => True)
    (fun _ _ _ _ _ _ => trivial)
  unfold analyze_color kept_feature
  rw [h]
  cases polys with
  | nil => simp
  | cons p ps => simp

theorem analyze_color_foldlM (img : image_t) (minx miny maxx maxy : ℚ)
    (colors : List color_t) :
    ∀ features, colors.foldlM (analyze_color img minx miny maxx maxy) features =
      some (features ++ colors.filterMap (kept_feature img minx miny maxx maxy)) := by
  induction colors with
  | nil => intro features; simp
  | cons c cs ih =>
    intro features
    rw [List.foldlM_cons, analyze_color_eq]
    simp only [Option.bind_eq_bind, Option.some_bind]
    rw [ih, List.filterMap_cons]
    cases kept_feature img minx miny maxx maxy c with
    | none => simp
    | some f => simp

theorem analyze_image_eq (img : image_t) (minx miny maxx maxy : ℚ) (srs : String) :
    analyze_image img minx miny maxx maxy srs = some
      { features := (extract_unique_colors img).filterMap (kept_feature img minx miny maxx maxy)
        minx := minx, miny := miny, maxx := maxx, maxy := maxy, crs := srs } := by
  unfold analyze_image
  simp only
  split_ifs with h
  · rw [analyze_color_foldlM]
    rfl
  · have : extract_unique_colors img = [] := by
      cases hc : extract_unique_colors img with
      | nil => rfl
      | cons a l => rw [hc] at h; simp at h
    rw [this]
    rfl

/-- C12: `analyze_geological_colors` returns, for the loaded image, a result whose features
are, in order, the extracted colours for which `trace_color_regions` keeps at least one
region, each with the projections of those regions (so with `polygon_count ≥ 1`); there are
at most as many features as extracted colours, and none (the result is still returned)
when no colour is extracted or no colour has a kept region. The result is stated for the
body of the function on an image `img`, and is what the function returns when `img` is the
image loaded. -/
theorem analyze_image_features (img : image_t) (minx miny maxx maxy : ℚ) (srs : String) :
    ∃ r, analyze_image img minx miny maxx maxy srs = some r ∧
      r.features = (extract_unique_colors img).filterMap
        (kept_feature img minx miny maxx maxy) ∧
      r.features.map (fun f => f.dominant_color) =
        (extract_unique_colors img).filter (has_kept_region img) ∧
      (∀ f ∈ r.features, 1 ≤ f.polygon_count ∧
        ∃ polys, trace_color_regions img f.dominant_color = some polys ∧
          f.polygons = polys.map (project_polygon img minx miny maxx maxy)) ∧
      r.features.length ≤ (extract_unique_colors img).length ∧
      ((∀ c ∈ extract_unique_colors img, trace_color_regions img c = some []) →
        r.features = []) ∧
      (r.minx, r.miny, r.maxx, r.maxy, r.crs) = (minx, miny, maxx, maxy, srs) ∧
      (load_png_simple true = some img →
        analyze_geological_colors (some (minx, miny, maxx, maxy)) true srs =
          some ([io_event.load_image], some r)) := by
  refine ⟨_, analyze_image_eq img minx miny maxx maxy srs, rfl, ?_, ?_, ?_, ?_, rfl, ?_⟩
  rotate_right
  · intro hload
    unfold analyze_geological_colors
    simp only [hload, analyze_image_eq, Option.map_some']
  · simp only
    generalize extract_unique_colors img = colors
    induction colors with
    | nil => rfl
    | cons c cs ih =>
      rw [List.filterMap_cons, List.filter_cons]
      unfold kept_feature has_kept_region
      cases trace_color_regions img c with
      | none => simpa [kept_feature, has_kept_region] using ih
      | some polys =>
        cases polys with
        | nil => simpa [kept_feature, has_kept_region] using ih
        | cons p ps => simpa [kept_feature, has_kept_region] using ih
  · intro f hf
    simp only [List.mem_filterMap] at hf
    obtain ⟨c, -, hc⟩ := hf
    unfold kept_feature at hc
    cases ht : trace_color_regions img c with
    | none => rw [ht] at hc; simp at hc
    | some polys =>
      cases polys with
      | nil => rw [ht] at hc; simp at hc
      | cons p ps =>
        rw [ht] at hc
        simp only [Option.some.injEq] at hc
        subst hc
        exact ⟨by simp [geological_feature_t.polygon_count], p :: ps, ht, rfl⟩
  · exact List.length_filterMap_le _ _
  · intro hall
    simp only
    rw [List.filterMap_eq_nil_iff]
    intro c hc
    unfold kept_feature
    rw [hall c hc]

/-- C12, witness: the image without pixels gives a result without features. -/
theorem analyze_image_features_witness :
    (∀ c ∈ extract_unique_colors empty_image, trace_color_regions empty_image c = some []) ∧
    ∃ r, analyze_image empty_image 0 0 1 1 "EPSG:4326" = some r ∧ r.features = [] := by
  have hnone : ∀ c ∈ extract_unique_colors empty_image,
      trace_color_regions empty_image c = some [] := by
    intro c hc
    have he : extract_unique_colors empty_image = [] := rfl
    rw [he] at hc
    simp at hc
  obtain ⟨r, h, -, -, -, -, hempty, -, -⟩ := analyze_image_features empty_image 0 0 1 1 "EPSG:4326"
  exact ⟨hnone, r, h, hempty hnone⟩

/-! ## Orchestration: a bounding box that does not parse -/

/-- C17: when the bounding box does not parse, `analyze_geological_colors` returns `NULL`
without loading the image, and `vectorize_geological_map` returns 1 without any lookup and
without writing a document: no action is made at all, whereas with a bounding box that
parses the image is loaded first. -/
theorem vectorize_geological_map_invalid_bbox (file_opens : Bool) (srs : String)
    (lookup : Nat → ℚ → ℚ → Int × Option (List Char)) (file_creates : Bool) :
    analyze_geological_colors none file_opens srs = some ([], none) ∧
    vectorize_geological_map none file_opens srs lookup file_creates = some (1, []) ∧
    ∀ (b : ℚ × ℚ × ℚ × ℚ), ∃ r events,
      analyze_geological_colors (some b) file_opens srs = some ([io_event.load_image], r) ∧
      vectorize_geological_map (some b) file_opens srs lookup file_creates =
        some ((if r.isNone then 1 else if file_creates then 0 else 1),
          io_event.load_image :: events) := by
  refine ⟨rfl, rfl, ?_⟩
  rintro ⟨minx, miny, maxx, maxy⟩
  cases file_opens with
  | false => exact ⟨none, [], rfl, rfl⟩
  | true =>
    have ha : analyze_geological_colors (some (minx, miny, maxx, maxy)) true srs =
        (analyze_image test_pattern minx miny maxx maxy srs).map
          fun r => ([io_event.load_image], some r) := rfl
    obtain ⟨res, hres⟩ : ∃ res, analyze_image test_pattern minx miny maxx maxy srs = some res :=
      ⟨_, analyze_image_eq test_pattern minx miny maxx maxy srs⟩
    rw [hres, Option.map_some'] at ha
    refine ⟨some res, (vectorize_result lookup file_creates res).2, ha, ?_⟩
    unfold vectorize_geological_map
    rw [ha, Option.map_some']
    cases file_creates <;> rfl

/-! ## The end-to-end scenario -/

theorem getD_true_of_count_false (l : List Bool) (h : l.count false = 0) (j : Nat)
    (hj : j < l.length) : l.getD j false = true := by
  rw [List.count_eq_zero] at h
  rw [List.getD_eq_getElem _ _ hj]
  cases hb : l[j] with
  | true => rfl
  | false => exact absurd (hb ▸ List.getElem_mem hj) h

theorem nat_index_lt (w h x y : Nat) (hx : x < w) (hy : y < h) : y * w + x < w * h := by
  have h1 : (y + 1) * w ≤ h * w := Nat.mul_le_mul_right w hy
  have h2 : (y + 1) * w = y * w + w := by ring
  have h3 : h * w = w * h := Nat.mul_comm h w
  omega

/-- In a single-colour image of at most 1000 pixels the fill from a seed pixel with nothing
visited absorbs every pixel of the image. -/
theorem flood_fill_region_single_colour_all (img : image_t) (c : color_t) (sx sy : Nat)
    (hu : single_colour img c) (hsx : sx < img.width) (hsy : sy < img.height)
    (hmax : img.width * img.height ≤ 1000) :
    ∃ st', flood_fill_region img c 1000 sx sy (fresh_fill_state img) = some st' ∧
      st'.polygon.count = img.width * img.height := by
  obtain ⟨st', h⟩ := flood_fill_region_total img c 1000 sx sy (fresh_fill_state img)
    (by omega) (by omega)
  have hlen : (fresh_fill_state img).visited.length = img.width * img.height := by
    simp [fresh_fill_state]
  have hm := flood_fill_region_measure img c _ _ _ _ _ h hlen
  rw [fresh_fill_state_count_false] at hm
  have hc0 : (fresh_fill_state img).polygon.count = 0 := rfl
  refine ⟨st', h, ?_⟩
  by_cases hcap : st'.polygon.count < 1000
  · obtain ⟨ha, hb⟩ := flood_fill_region_closed img c _ _ _ _ _ h hlen hcap
    have hseed : in_image img sx sy := ⟨by omega, by omega, by omega, by omega⟩
    have hall := grid_connected img (is_visited img st'.visited) sx sy hseed
      (ha hseed (single_colour_within_tolerance img c hu _ _ hseed))
      (fun p q hpq hv p' q' hadj hin' =>
        hb p q hpq hv (fresh_fill_state_not_visited img p q) p' q' hadj hin'
          (single_colour_within_tolerance img c hu _ _ hin'))
    have hz := count_false_of_all_visited img st'.visited
      ((flood_fill_region_visited_length img c _ _ _ _ _ h).trans hlen) hall
    omega
  · omega

/-- In a single-colour image of more than 10 and at most 1000 pixels, `trace_color_regions`
with the image's colour returns one polygon, with all the pixels of the image. -/
theorem trace_color_regions_single_colour (img : image_t) (c : color_t)
    (hu : single_colour img c) (hw : 0 < img.width) (hh : 0 < img.height)
    (hmin : 10 < img.width * img.height) (hmax : img.width * img.height ≤ 1000) :
    ∃ p, trace_color_regions img c = some [p] ∧ p.count = img.width * img.height := by
  obtain ⟨r, hr, hcount⟩ := flood_fill_region_single_colour_all img c 0 0 hu hw hh hmax
  have hlen0 : (fresh_fill_state img).visited.length = img.width * img.height := by
    simp [fresh_fill_state]
  have hlen := (flood_fill_region_visited_length img c _ _ _ _ _ hr).trans hlen0
  have hm := flood_fill_region_measure img c _ _ _ _ _ hr hlen0
  rw [fresh_fill_state_count_false] at hm
  have hc0 : (fresh_fill_state img).polygon.count = 0 := rfl
  have hall : ∀ j, j < img.width * img.height → r.visited.getD j false = true := by
    intro j hj
    exact getD_true_of_count_false _ (by omega) j (by rw [hlen]; exact hj)
  obtain ⟨ty, hrows⟩ := stride_range_pos img.height 8 hh
  obtain ⟨tx, hcols⟩ := stride_range_pos img.width 8 hw
  have hseed : trace_seed img c 0
      { visited := List.replicate (img.width * img.height) false, polygons := [] } 0 =
      some { visited := r.visited, polygons := [r.polygon] } := by
    rcases trace_seed_cases img c 0
      { visited := List.replicate (img.width * img.height) false, polygons := [] } 0 with
      ⟨-, hno⟩ | ⟨-, -, -, r', hr', hcase⟩
    · exfalso
      apply hno
      refine ⟨by simp, ?_, ?_⟩
      · simp only [List.getD_eq_getElem?_getD, List.getElem?_replicate]
        split_ifs <;> simp
      · rw [hu 0 0 hw hh, color_distance_sq_self]
        omega
    · have hr2 : flood_fill_region img c 1000 ((0 : Nat) : Int) ((0 : Nat) : Int)
          { visited := List.replicate (img.width * img.height) false
            polygon := { coords := [], capacity := 100 } } = some r := hr
      rw [hr2] at hr'
      obtain rfl := Option.some.inj hr'
      rcases hcase with ⟨-, he⟩ | ⟨hc, -⟩
      · rw [he]
        rfl
      · omega
  have hstay : ∀ (y x : Nat), y < img.height → x < img.width →
      trace_seed img c y { visited := r.visited, polygons := [r.polygon] } x =
        some { visited := r.visited, polygons := [r.polygon] } := by
    intro y x hy hx
    rcases trace_seed_cases img c y { visited := r.visited, polygons := [r.polygon] } x with
      ⟨he, -⟩ | ⟨-, hv, -⟩
    · exact he
    · exact absurd (hall _ (nat_index_lt _ _ _ _ hx hy)) hv
  have hrow : ∀ (xs : List Nat) (y : Nat), y < img.height → (∀ x ∈ xs, x < img.width) →
      xs.foldlM (trace_seed img c y) { visited := r.visited, polygons := [r.polygon] } =
        some { visited := r.visited, polygons := [r.polygon] } := by
    intro xs y hy hxs
    obtain ⟨s, hs, rfl⟩ := foldlM_option_inv_mem (trace_seed img c y)
      (fun st => st = { visited := r.visited, polygons := [r.polygon] }) xs _
      (fun s x hx hs => by
        subst hs
        exact ⟨_, hstay y x hy (hxs x hx), rfl⟩) rfl
    exact hs
  have hxs : ∀ x ∈ stride_range img.width 8, x < img.width :=
    fun x hx => ((mem_stride_range _ _ _).mp hx).1
  have hrows' : ∀ (ys : List Nat), (∀ y ∈ ys, y < img.height) →
      ys.foldlM (trace_row img c) { visited := r.visited, polygons := [r.polygon] } =
        some { visited := r.visited, polygons := [r.polygon] } := by
    intro ys hys
    obtain ⟨s, hs, rfl⟩ := foldlM_option_inv_mem (trace_row img c)
      (fun st => st = { visited := r.visited, polygons := [r.polygon] }) ys _
      (fun s y hy hs => by
        subst hs
        exact ⟨_, hrow _ y (hys y hy) hxs, rfl⟩) rfl
    exact hs
  refine ⟨r.polygon, ?_, hcount⟩
  have hty : ∀ y ∈ ty, y < img.height := by
    intro y hy
    have : y ∈ stride_range img.height 8 := by rw [hrows]; exact List.mem_cons_of_mem _ hy
    exact ((mem_stride_range _ _ _).mp this).1
  have htx : ∀ x ∈ tx, x < img.width := by
    intro x hx
    have : x ∈ stride_range img.width 8 := by rw [hcols]; exact List.mem_cons_of_mem _ hx
    exact ((mem_stride_range _ _ _).mp this).1
  have hfirst : trace_row img c
      { visited := List.replicate (img.width * img.height) false, polygons := [] } 0 =
      some { visited := r.visited, polygons := [r.polygon] } := by
    unfold trace_row
    rw [hcols, List.foldlM_cons, hseed]
    simp only [Option.bind_eq_bind, Option.some_bind]
    exact hrow tx 0 hh htx
  unfold trace_color_regions
  rw [hrows, List.foldlM_cons, hfirst]
  simp only [Option.bind_eq_bind, Option.some_bind]
  rw [hrows' ty hty]
  rfl

theorem write_geojson_bbox (features : List geological_feature_t) (minx miny maxx maxy : ℚ)
    (crs : String) :
    bbox_pieces minx miny maxx maxy <:+: write_geojson
      { features := features, minx := minx, miny := miny, maxx := maxx, maxy := maxy,
        crs := crs } := by
  unfold write_geojson bbox_pieces
  exact ⟨[piece.text "\x7b\n", piece.text "  \"type\": \"FeatureCollection\",\n",
    piece.text "  \"crs\": \x7b\n", piece.text "    \"type\": \"name\",\n",
    piece.text "    \"properties\": \x7b\n",
    piece.text "      \"name\": \"", piece.str crs, piece.text "\"\n",
    piece.text "    \x7d\n", piece.text "  \x7d,\n"],
    [piece.text "  \"features\": [\n"] ++ write_features 0 features ++
      [piece.text "\n  ]\n", piece.text "\x7d\n"], by simp⟩

theorem greedy_select_same (c : color_t) (l : List color_t) (h : ∀ p ∈ l, p = c) :
    greedy_select [c] l = [c] := by
  induction l with
  | nil => rfl
  | cons a l ih =>
    obtain rfl := h a (List.mem_cons_self _ _)
    rw [greedy_select, if_neg]
    · exact ih fun p hp => h p (List.mem_cons_of_mem _ hp)
    · rintro ⟨-, hd⟩
      have := hd a (List.mem_singleton.mpr rfl)
      rw [color_distance_sq_self] at this
      omega

theorem extract_unique_colors_eq_greedy (img : image_t) :
    extract_unique_colors img = greedy_select [] (sampled_pixels img) := by
  unfold extract_unique_colors sampled_pixels
  generalize stride_range img.height 4 = ys
  generalize ([] : List color_t) = acc
  induction ys generalizing acc with
  | nil => rfl
  | cons y ys ih =>
    rw [List.foldl_cons, ih, List.flatMap_cons, greedy_select_append,
      extract_step_eq_greedy]

/-- From a single-colour image `extract_unique_colors` returns that one colour. -/
theorem extract_unique_colors_single_colour (img : image_t) (c : color_t)
    (hu : single_colour img c) (hw : 0 < img.width) (hh : 0 < img.height) :
    extract_unique_colors img = [c] := by
  have hall : ∀ p ∈ sampled_pixels img, p = c := by
    intro p hp
    unfold sampled_pixels at hp
    obtain ⟨y, hy, hp⟩ := List.mem_flatMap.mp hp
    obtain ⟨x, hx, rfl⟩ := List.mem_map.mp hp
    rw [mem_stride_range] at hx hy
    exact hu x y hx.1 hy.1
  rw [extract_unique_colors_eq_greedy]
  cases hs : sampled_pixels img with
  | nil =>
    obtain ⟨ty, hy⟩ := stride_range_pos img.height 4 hh
    obtain ⟨tx, hx⟩ := stride_range_pos img.width 4 hw
    unfold sampled_pixels at hs
    rw [hy, List.flatMap_cons, hx, List.map_cons] at hs
    simp at hs
  | cons a t =>
    rw [hs] at hall
    obtain rfl := hall a (List.mem_cons_self _ _)
    have hg : greedy_select [] (a :: t) = greedy_select [a] t := by simp [greedy_select]
    rw [hg]
    exact greedy_select_same a t fun p hp => hall p (List.mem_cons_of_mem _ hp)

/-- When the file can be created, `vectorize_geological_map` returns 0 after writing a
document that has the bounding box of the result. -/
theorem vectorize_result_writes (lookup : Nat → ℚ → ℚ → Int × Option (List Char))
    (result : vectorization_result_t) :
    (vectorize_result lookup true result).1 = 0 ∧
    ∃ doc, io_event.write_document doc ∈ (vectorize_result lookup true result).2 ∧
      bbox_pieces result.minx result.miny result.maxx result.maxy <:+: doc := by
  refine ⟨rfl,
    write_geojson { result with features := (enrich_features lookup 0 result.features).1 },
    ?_, write_geojson_bbox _ result.minx result.miny result.maxx result.maxy result.crs⟩
  simp only [vectorize_result, write_geojson_file, if_true, List.mem_append,
    List.mem_singleton, or_true]

/-- For a single-colour image of more than 10 and at most 1000 pixels the assembled result
has one feature, of the image's colour, with the projection of the one region traced. -/
theorem analyze_image_single_colour (img : image_t) (c : color_t)
    (hu : single_colour img c) (hw : 0 < img.width) (hh : 0 < img.height)
    (hmin : 10 < img.width * img.height) (hmax : img.width * img.height ≤ 1000)
    (minx miny maxx maxy : ℚ) (srs : String) :
    ∃ p, trace_color_regions img c = some [p] ∧ p.count = img.width * img.height ∧
      analyze_image img minx miny maxx maxy srs = some
        { features := [{ dominant_color := c
                         polygons := [project_polygon img minx miny maxx maxy p]
                         feature_info := none, geological_unit := none, age := none,
                         lithology := none }]
          minx := minx, miny := miny, maxx := maxx, maxy := maxy, crs := srs } := by
  obtain ⟨p, hp, hcount⟩ := trace_color_regions_single_colour img c hu hw hh hmin hmax
  refine ⟨p, hp, hcount, ?_⟩
  rw [analyze_image_eq, extract_unique_colors_single_colour img c hu hw hh]
  simp only [List.filterMap_cons, List.filterMap_nil, kept_feature, hp, List.map_cons,
    List.map_nil]

/-- C13: for the 16 x 16 image whose pixels all have the colour (180,120,80), with the
bounding box 0,0,16,16 and the reference system "EPSG:4326": `extract_unique_colors`
returns that one colour, `trace_color_regions` returns one region, of 256 points, the
assembled result has one feature, with one polygon, and the document written for it,
whatever the lookups give, has the bounding box entry `0, 0, 16, 16`. -/
theorem sample_image_scenario :
    extract_unique_colors sample_image = [sandstone] ∧
    (∃ p, trace_color_regions sample_image sandstone = some [p] ∧ p.count = 256 ∧
      p.count ≤ 1000) ∧
    ∃ r, analyze_image sample_image 0 0 16 16 "EPSG:4326" = some r ∧
      r.features.length = 1 ∧ (∀ f ∈ r.features, f.polygon_count = 1) ∧
      bbox_pieces 0 0 16 16 <:+: write_geojson r ∧
      ∀ (lookup : Nat → ℚ → ℚ → Int × Option (List Char)),
        (vectorize_result lookup true r).1 = 0 ∧
        ∃ doc, io_event.write_document doc ∈ (vectorize_result lookup true r).2 ∧
          bbox_pieces 0 0 16 16 <:+: doc := by
  obtain ⟨p, hp, hcount, hr⟩ := analyze_image_single_colour sample_image sandstone
    single_colour_sample_image (by decide) (by decide) (by decide) (by decide)
    0 0 16 16 "EPSG:4326"
  have h256 : sample_image.width * sample_image.height = 256 := rfl
  rw [h256] at hcount
  have hext := extract_unique_colors_single_colour sample_image sandstone
    single_colour_sample_image (by decide) (by decide)
  refine ⟨hext, ⟨p, hp, hcount, by omega⟩, ?_⟩
  refine ⟨_, hr, rfl, ?_, write_geojson_bbox _ 0 0 16 16 "EPSG:4326", ?_⟩
  · intro f hf
    rw [List.mem_singleton] at hf
    rw [hf]
    rfl
  · intro lookup
    exact vectorize_result_writes lookup _

/-! ## Flood fill: the region is connected -/

theorem linked_nil : linked [] := by
  intro pre c post h
  simp at h

theorem linked_singleton (c : coord_t Int) : linked [c] := by
  intro pre d post h hpre
  cases pre with
  | nil => exact absurd rfl hpre
  | cons a pre =>
    simp at h

/-- A linked list of points followed by a linked list whose first point is adjacent to a
point of the first list is linked. -/
theorem linked_append (l n : List (coord_t Int)) (s : coord_t Int) (hl : linked l)
    (hs : s ∈ l) (hn : linked n)
    (hhead : ∀ e rest, n = e :: rest → adjacent4 s.x s.y e.x e.y) : linked (l ++ n) := by
  intro pre c post h hpre
  rcases List.append_eq_append_iff.mp h with ⟨a, rfl, hn'⟩ | ⟨a, rfl, hc⟩
  · cases a with
    | nil =>
      exact ⟨s, by simpa using hs, hhead c post (by simpa using hn')⟩
    | cons b a =>
      obtain ⟨d, hd, hadj⟩ := hn (b :: a) c post hn' (by simp)
      exact ⟨d, List.mem_append_right _ hd, hadj⟩
  · cases a with
    | nil =>
      rw [List.append_nil] at hs
      exact ⟨s, hs, hhead c post (by simpa using hc.symm)⟩
    | cons b a =>
      rw [List.cons_append, List.cons.injEq] at hc
      obtain ⟨rfl, rfl⟩ := hc
      exact hl pre c a rfl hpre

/-- The points a call of `flood_fill_region` on `(x, y)` appends: none, or `(x, y)` first;
they are pixels of the image, and each one after the first is 4-adjacent to one appended
before it by the same call. -/
theorem flood_fill_region_linked (img : image_t) (target : color_t) :
    ∀ (fuel : Nat) (x y : Int) (st st' : fill_state),
      flood_fill_region img target fuel x y st = some st' →
      ∃ new, st'.polygon.coords = st.polygon.coords ++ new ∧
        (∀ c ∈ new, in_image img c.x c.y) ∧
        (∀ e rest, new = e :: rest → e = ⟨x, y⟩) ∧ linked new := by
  intro fuel
  induction fuel with
  | zero => intro x y st st' h; simp [flood_fill_region] at h
  | succ fuel ih =>
    intro x y st st' h
    rcases flood_fill_region_cases img target fuel x y st st' h with
      ⟨rfl, -⟩ | ⟨hin, -, -, ⟨-, rfl⟩ | ⟨-, s1, s2, s3, h1, h2, h3, h4⟩⟩
    · exact ⟨[], by simp, by simp, by simp, linked_nil⟩
    · refine ⟨[⟨x, y⟩], absorb_coords img x y st, ?_, ?_, linked_singleton _⟩
      · intro c hc
        rw [List.mem_singleton.mp hc]
        exact hin
      · intro e rest he
        rw [List.cons.injEq] at he
        exact he.1.symm
    · obtain ⟨n1, e1, i1, f1, l1⟩ := ih _ _ _ _ h1
      obtain ⟨n2, e2, i2, f2, l2⟩ := ih _ _ _ _ h2
      obtain ⟨n3, e3, i3, f3, l3⟩ := ih _ _ _ _ h3
      obtain ⟨n4, e4, i4, f4, l4⟩ := ih _ _ _ _ h4
      refine ⟨((([⟨x, y⟩] ++ n1) ++ n2) ++ n3) ++ n4, ?_, ?_, ?_, ?_⟩
      · rw [e4, e3, e2, e1, absorb_coords]
        simp only [List.append_assoc]
      · intro c hc
        simp only [List.mem_append, List.mem_singleton] at hc
        rcases hc with (((hc | hc) | hc) | hc) | hc
        · rw [hc]; exact hin
        · exact i1 c hc
        · exact i2 c hc
        · exact i3 c hc
        · exact i4 c hc
      · intro e rest he
        simp only [List.append_assoc, List.singleton_append, List.cons_append,
          List.cons.injEq] at he
        exact he.1.symm
      · have hseed : ∀ (l : List (coord_t Int)), (⟨x, y⟩ : coord_t Int) ∈ [⟨x, y⟩] ++ l :=
          fun l => List.mem_append_left _ (List.mem_singleton.mpr rfl)
        have a1 : linked ([⟨x, y⟩] ++ n1) :=
          linked_append _ _ ⟨x, y⟩ (linked_singleton _) (List.mem_singleton.mpr rfl) l1
            (fun e rest he => by rw [f1 e rest he]; exact Or.inl ⟨rfl, rfl⟩)
        have a2 : linked (([⟨x, y⟩] ++ n1) ++ n2) :=
          linked_append _ _ ⟨x, y⟩ a1 (hseed _) l2
            (fun e rest he => by rw [f2 e rest he]; exact Or.inr (Or.inl ⟨rfl, rfl⟩))
        have a3 : linked ((([⟨x, y⟩] ++ n1) ++ n2) ++ n3) :=
          linked_append _ _ ⟨x, y⟩ a2 (List.mem_append_left _ (hseed _)) l3
            (fun e rest he => by rw [f3 e rest he]; exact Or.inr (Or.inr (Or.inl ⟨rfl, rfl⟩)))
        exact linked_append _ _ ⟨x, y⟩ a3
          (List.mem_append_left _ (List.mem_append_left _ (hseed _))) l4
          (fun e rest he => by rw [f4 e rest he]; exact Or.inr (Or.inr (Or.inr ⟨rfl, rfl⟩)))

/-- In a linked list the point at a position after the first is 4-adjacent to the point at
some position before. -/
theorem linked_index (l : List (coord_t Int)) (hl : linked l) (i : Nat) (c : coord_t Int)
    (hi : 0 < i) (hc : l[i]? = some c) :
    ∃ j d, j < i ∧ l[j]? = some d ∧ adjacent4 d.x d.y c.x c.y := by
  obtain ⟨hlt, hget⟩ := List.getElem?_eq_some_iff.mp hc
  have hsplit : l = l.take i ++ c :: l.drop (i + 1) := by
    rw [← hget, List.getElem_cons_drop l i hlt, List.take_append_drop]
  obtain ⟨d, hd, hadj⟩ := hl (l.take i) c (l.drop (i + 1)) hsplit (by
    intro h
    have := congrArg List.length h
    rw [List.length_take, List.length_nil] at this
    omega)
  obtain ⟨j, hj, hjd⟩ := List.getElem_of_mem hd
  rw [List.length_take] at hj
  refine ⟨j, d, by omega, ?_, hadj⟩
  rw [List.getElem_take] at hjd
  rw [List.getElem?_eq_some_iff]
  exact ⟨by omega, hjd⟩

/-- In a linked list every point is joined to the first one by a chain of points of the
list in which each is 4-adjacent to the next. -/
theorem linked_chain (l : List (coord_t Int)) (hl : linked l) (s : coord_t Int)
    (hs : l[0]? = some s) :
    ∀ (i : Nat) (c : coord_t Int), l[i]? = some c →
      Relation.ReflTransGen
        (fun a b => a ∈ l ∧ b ∈ l ∧ adjacent4 a.x a.y b.x b.y) s c := by
  intro i
  induction i using Nat.strong_induction_on with
  | _ i ih =>
    intro c hc
    rcases Nat.eq_zero_or_pos i with rfl | hi
    · rw [hs] at hc
      rw [Option.some.inj hc]
    · obtain ⟨j, d, hj, hd, hadj⟩ := linked_index l hl i c hi hc
      exact Relation.ReflTransGen.tail (ih j hj d hd)
        ⟨List.getElem?_mem hd, List.getElem?_mem hc, hadj⟩

/-- C21: the fill from a seed returns, and in the polygon it has produced every point is a
pixel of the image (`0 ≤ x < width`, `0 ≤ y < height`), the first point is the seed, every
point after the first is 4-adjacent (one of the two coordinates differs, by exactly 1) to a
point at an earlier position of the polygon, and so every point is joined to the seed by a
chain of 4-adjacent points of the polygon. The same holds for every polygon
`trace_color_regions` returns. -/
theorem flood_fill_region_connected (img : image_t) (target : color_t) :
    (∀ (x y : Int) (v : List Bool),
      ∃ r, flood_fill_region img target 1000 x y
        { visited := v, polygon := { coords := [], capacity := 100 } } = some r) ∧
    (∀ (fuel : Nat) (x y : Int) (v : List Bool) (r : fill_state),
      flood_fill_region img target fuel x y
        { visited := v, polygon := { coords := [], capacity := 100 } } = some r →
      (∀ c ∈ r.polygon.coords, in_image img c.x c.y) ∧
      (∀ c, r.polygon.coords[0]? = some c → c = ⟨x, y⟩) ∧
      (∀ (i : Nat) (c : coord_t Int), 0 < i → r.polygon.coords[i]? = some c →
        ∃ j d, j < i ∧ r.polygon.coords[j]? = some d ∧ adjacent4 d.x d.y c.x c.y) ∧
      (∀ c ∈ r.polygon.coords, Relation.ReflTransGen
        (fun a b => a ∈ r.polygon.coords ∧ b ∈ r.polygon.coords ∧ adjacent4 a.x a.y b.x b.y)
        ⟨x, y⟩ c)) ∧
    ∃ polys, trace_color_regions img target = some polys ∧ ∀ p ∈ polys,
      (∀ c ∈ p.coords, in_image img c.x c.y) ∧
      (∀ (i : Nat) (c : coord_t Int), 0 < i → p.coords[i]? = some c →
        ∃ j d, j < i ∧ p.coords[j]? = some d ∧ adjacent4 d.x d.y c.x c.y) := by
  have hfill : ∀ (fuel : Nat) (x y : Int) (v : List Bool) (r : fill_state),
      flood_fill_region img target fuel x y
        { visited := v, polygon := { coords := [], capacity := 100 } } = some r →
      (∀ c ∈ r.polygon.coords, in_image img c.x c.y) ∧
      (∀ c, r.polygon.coords[0]? = some c → c = ⟨x, y⟩) ∧ linked r.polygon.coords := by
    intro fuel x y v r h
    obtain ⟨new, he, hin, hfirst, hl⟩ := flood_fill_region_linked img target fuel x y _ r h
    rw [List.nil_append] at he
    rw [he]
    refine ⟨hin, ?_, hl⟩
    intro c hc
    cases new with
    | nil => simp at hc
    | cons e rest =>
      rw [List.getElem?_cons_zero, Option.some.injEq] at hc
      rw [← hc]
      exact hfirst e rest rfl
  refine ⟨?_, ?_, ?_⟩
  · intro x y v
    exact flood_fill_region_total img target 1000 x y _ (by omega) (by omega)
  · intro fuel x y v r h
    obtain ⟨hin, hfirst, hl⟩ := hfill fuel x y v r h
    refine ⟨hin, hfirst, fun i c hi hc => linked_index _ hl i c hi hc, ?_⟩
    intro c hc
    obtain ⟨i, hi, hget⟩ := List.getElem_of_mem hc
    have h0 : r.polygon.coords[0]? = some r.polygon.coords[0] :=
      List.getElem?_eq_getElem (by omega)
    have hs := hfirst _ h0
    rw [hs] at h0
    exact linked_chain _ hl _ h0 i c (List.getElem?_eq_some_iff.mpr ⟨hi, hget⟩)
  · refine trace_color_regions_inv img target
      (fun p => (∀ c ∈ p.coords, in_image img c.x c.y) ∧
        (∀ (i : Nat) (c : coord_t Int), 0 < i → p.coords[i]? = some c →
          ∃ j d, j < i ∧ p.coords[j]? = some d ∧ adjacent4 d.x d.y c.x c.y)) ?_
    intro x y v r _ hr
    obtain ⟨hin, -, hl⟩ := hfill 1000 x y v r hr
    exact ⟨hin, fun i c hi hc => linked_index _ hl i c hi hc⟩

/-- C21, witness: the fill of `edge_image` from `(0, 0)` with nothing visited. -/
theorem flood_fill_region_connected_witness :
    ∃ r, flood_fill_region edge_image black 1000 0 0
        { visited := [false, false], polygon := { coords := [], capacity := 100 } } = some r ∧
      (∀ c ∈ r.polygon.coords, in_image edge_image c.x c.y) ∧
      (∀ c, r.polygon.coords[0]? = some c → c = ⟨0, 0⟩) := by
  obtain ⟨r, h⟩ := (flood_fill_region_connected edge_image black).1 0 0 [false, false]
  obtain ⟨hin, hfirst, -⟩ := (flood_fill_region_connected edge_image black).2.1 1000 0 0 _ r h
  exact ⟨r, h, hin, hfirst⟩

/-! ## The pixel of a point: binary64 arithmetic -/

end Wmspal
